import Mathlib

/-!
# A heap model of `queue.c`

The queue of `queue.c` is a singly linked list of heap nodes, each owning one
C string.  The development below embeds the functions of `queue.c` over an
explicit heap (a partial map from addresses to nodes), so that node identity,
the forward links, the `tail` pointer and released nodes are all visible.

Conventions of the embedding:

* a pointer is an `Option Addr`; `none` is `NULL`;
* a heap cell that holds `none` is not allocated (never allocated, or freed);
  reading or writing through `NULL` or through a pointer to such a cell is
  undefined behaviour, and the embedded function returns `none` there;
* loops and the recursion of `sort` take a fuel argument and return `none`
  when it runs out; the theorems show that enough fuel always exists;
* the result of each `malloc` call is an argument of the embedded function
  (`none` for a failed allocation); that a returned block is fresh is the
  contract of `malloc` and appears as a hypothesis;
* `int` is 32 bits wide and `size_t` 64 bits wide; a conversion to `int` of a
  value that does not fit and an `int` addition that overflows wrap modulo
  `2 ^ 32` (two's complement), as the usual LP64 compilers have it;
* the declaration of `queue_t` and `list_ele_t` is in `queue.h`; the fields
  are the ones `queue.c` uses, and the `size` counter is an unbounded integer,
  which `q_size` returns converted to `int`;
* the string of a node is kept in the node itself: the block `malloc` returns
  for it is owned by that node alone, and `free(tmp->value)` goes with the
  release of the node.
-/

namespace Queue

/-! ## C strings -/

/-- A byte of a C string: an `unsigned char` other than the terminator. -/
abbrev CChar := { b : Nat // 0 < b ∧ b < 256 }

/-- A C string, as the list of its bytes before the terminating zero. -/
abbrev CStr := List CChar

/-- The byte with code `n` (for writing concrete strings). -/
def ch (n : Nat) : CChar :=
  if h : 0 < n ∧ n < 256 then ⟨n, h⟩ else ⟨1, by decide⟩

/-- The library function `strcmp`: the difference of the first pair of bytes
that differ, compared as `unsigned char`, the end of a string reading as the
zero terminator. -/
def strcmp : CStr → CStr → Int
  | [], [] => 0
  | [], b :: _ => 0 - (b.val : Int)
  | a :: _, [] => (a.val : Int) - 0
  | a :: as, b :: bs => if a.val = b.val then strcmp as bs else (a.val : Int) - (b.val : Int)

/-- The library function `strlen`. -/
def strlen (s : CStr) : Nat := s.length

/-- Conversion of a `size_t` value to `int`. -/
def int_of_size_t (n : Nat) : Int :=
  if n % 2 ^ 32 < 2 ^ 31 then ((n % 2 ^ 32 : Nat) : Int) else ((n % 2 ^ 32 : Nat) : Int) - 2 ^ 32

/-- Conversion of an integer value to `int`: the value modulo `2 ^ 32` that
lies between `INT_MIN` and `INT_MAX`. -/
def to_int (i : Int) : Int := (i + 2 ^ 31) % 2 ^ 32 - 2 ^ 31

/-- Conversion of an `int` value to `size_t`. -/
def size_t_of_int (i : Int) : Nat := (i % 2 ^ 64).toNat

/-! ## The heap -/

/-- A non-null address. -/
abbrev Addr := Nat

/-- A pointer to a list element; `none` is `NULL`. -/
abbrev Ptr := Option Addr

/-- Modelled from the spec: the declaration of `list_ele_t` is in `queue.h`,
which is missing; an element holds one owned string payload and a single
forward link, the fields `value` and `next` that `queue.c` reads and writes. -/
structure list_ele_t where
  value : CStr
  next : Ptr
deriving DecidableEq

/-- Modelled from the spec: the declaration of `queue_t` is in `queue.h`, which
is missing; a queue holds a reference to the head element, a reference to the
tail element and a count of elements, the fields `head`, `tail` and `size`
that `queue.c` reads and writes.  The width of `size` is not known, and the
count is an unbounded integer here. -/
structure queue_t where
  head : Ptr
  tail : Ptr
  size : Int
deriving DecidableEq

/-- The heap of list elements: `none` at an address that is not allocated. -/
abbrev Heap := Addr → Option list_ele_t

/-- The empty heap. -/
def Heap.empty : Heap := fun _ => none

/-- Store a node at an address. -/
def Heap.set (H : Heap) (a : Addr) (n : list_ele_t) : Heap :=
  fun x => if x = a then some n else H x

/-- Release the node at an address (`free`). -/
def Heap.free (H : Heap) (a : Addr) : Heap :=
  fun x => if x = a then none else H x

/-- Read through a pointer: `none` for `NULL` and for a released node. -/
def deref (H : Heap) (p : Ptr) : Option list_ele_t :=
  match p with
  | none => none
  | some a => H a

/-- The assignment `p->next = nx`. -/
def set_next (H : Heap) (p : Ptr) (nx : Ptr) : Option Heap :=
  match p with
  | none => none
  | some a =>
    match H a with
    | none => none
    | some n => some (H.set a { n with next := nx })

/-! ## Creation and insertion -/

/-- Embedding of `q_new`; `ok` tells whether `malloc` succeeded. -/
def q_new (ok : Bool) : Option queue_t :=
  if !ok then none
  else some { head := none, tail := none, size := 0 }

/-- The number of bytes the insertions ask `malloc` for:
`sizeof(char) * (str_len + 1)` with `int str_len = strlen(s)`, the sum being
an `int` converted to `size_t`. -/
def string_block_size (s : CStr) : Nat :=
  size_t_of_int (to_int (int_of_size_t (strlen s) + 1))

/-- The string copy made by the insertions, once the block for it has been
obtained: `str[str_len] = 0; strncpy(str, s, str_len)` with
`int str_len = strlen(s)`.  The result is `none` when the write `str[str_len]`
is out of the bounds of the block: `str_len` negative, or not below the size
of the block. -/
def copy_string (s : CStr) : Option CStr :=
  let str_len : Int := int_of_size_t (strlen s)
  if str_len < 0 ∨ (string_block_size s : Int) ≤ str_len then none
  else some (s.take (size_t_of_int str_len))

/-- Embedding of `q_insert_head`.  `newh` is the result of the first `malloc`
and `str_ok` tells whether the second one, for `string_block_size s` bytes,
succeeded.  The result is the new heap, the new queue structure and the
returned flag. -/
def q_insert_head (H : Heap) (q : Option queue_t) (s : CStr) (newh : Ptr) (str_ok : Bool) :
    Option (Heap × Option queue_t × Bool) :=
  match q with
  | none => some (H, none, false)
  | some q =>
    match newh with
    | none => some (H, some q, false)
    | some a =>
      if !str_ok then some (H, some q, false)
      else
        match copy_string s with
        | none => none
        | some str =>
          let tail := if q.head = none then some a else q.tail
          some (H.set a { value := str, next := q.head },
                some { head := some a, tail := tail, size := q.size + 1 }, true)

/-- Embedding of `q_insert_tail`, with the same arguments as `q_insert_head`. -/
def q_insert_tail (H : Heap) (q : Option queue_t) (s : CStr) (newt : Ptr) (str_ok : Bool) :
    Option (Heap × Option queue_t × Bool) :=
  match q with
  | none => some (H, none, false)
  | some q =>
    match newt with
    | none => some (H, some q, false)
    | some a =>
      if !str_ok then some (H, some q, false)
      else
        match copy_string s with
        | none => none
        | some str =>
          match (if q.head = none then some (H, some a) else
                  (set_next H q.tail (some a)).map (fun H1 => (H1, q.head))) with
          | none => none
          | some (H1, head) =>
            some (H1.set a { value := str, next := none },
                  some { head := head, tail := some a, size := q.size + 1 }, true)

/-! ## Removal and size -/

/-- The caller's buffer: the bytes of memory at offsets `0, 1, ...` from `sp`. -/
abbrev Buf := Nat → Nat

/-- The library function `memset(sp, c, n)`. -/
def memset (buf : Buf) (c : Nat) (n : Nat) : Buf :=
  fun i => if i < n then c else buf i

/-- The library function `strncpy(sp, src, n)`: the first `n` bytes of `src`,
padded with zero bytes up to `n` bytes when `src` is shorter. -/
def strncpy (buf : Buf) (src : CStr) (n : Nat) : Buf :=
  fun i => if i < n then (match src.get? i with | some c => c.val | none => 0) else buf i

/-- Subtraction of `size_t` values. -/
def size_t_sub (a b : Nat) : Nat := (a + 2 ^ 64 - b % 2 ^ 64) % 2 ^ 64

/-- Embedding of `q_remove_head`.  `sp` is the caller's buffer (`none` for a
`NULL` pointer).  The result is the new heap, the new queue structure, the
buffer afterwards and the returned flag.  With `sp = NULL` or `bufsize ≥ 1`
the writes stay below `bufsize`.  With a provided buffer and `bufsize` 0 the
call `strncpy(sp, value, bufsize - 1)` writes `2 ^ 64 - 1` bytes: the
embedding records these writes in the unbounded `Buf` and goes on, whereas the
program is stopped by the fault before it unlinks anything; what is stated of
the returned flag and of the unlinking is for `sp = NULL` or `bufsize ≥ 1`. -/
def q_remove_head (H : Heap) (q : Option queue_t) (sp : Option Buf) (bufsize : Nat) :
    Option (Heap × Option queue_t × Option Buf × Bool) :=
  match q with
  | none => some (H, none, sp, false)
  | some q =>
    if q.size = 0 then some (H, some q, sp, false)
    else
      match (match sp with
             | none => some none
             | some buf =>
               (deref H q.head).map (fun n =>
                 some (strncpy (memset buf 0 bufsize) n.value (size_t_sub bufsize 1)))) with
      | none => none
      | some sp1 =>
        match deref H q.head with
        | none => none
        | some tmp =>
          match q.head with
          | none => none
          | some a =>
            some (H.free a, some { q with head := tmp.next, size := q.size - 1 }, sp1, true)

/-- Embedding of `q_size`, whose result is an `int`. -/
def q_size (q : Option queue_t) : Int :=
  match q with
  | none => 0
  | some q => to_int q.size

/-! ## Reversal -/

/-- The loop of `q_reverse`, from the state `(pre, cur)`; the result is the
heap and the value of `pre` at exit. -/
def reverse_loop : Nat → Heap → Ptr → Ptr → Option (Heap × Ptr)
  | 0, _, _, _ => none
  | fuel + 1, H, pre, cur =>
    match cur with
    | none => some (H, pre)
    | some c =>
      match H c with
      | none => none
      | some n => reverse_loop fuel (H.set c { n with next := pre }) (some c) n.next

/-- Embedding of `q_reverse`. -/
def q_reverse (fuel : Nat) (H : Heap) (q : Option queue_t) : Option (Heap × Option queue_t) :=
  match q with
  | none => some (H, none)
  | some q =>
    if q.head = none then some (H, some q)
    else
      match reverse_loop fuel H none q.head with
      | none => none
      | some (H1, pre) => some (H1, some { q with tail := q.head, head := pre })

/-! ## Sorting -/

/-- The loop of `split`, from the state `(slow, fast)`; the result is the
value of `slow` at exit. -/
def split_loop : Nat → Heap → Ptr → Ptr → Option Ptr
  | 0, _, _, _ => none
  | fuel + 1, H, slow, fast =>
    match deref H fast with
    | none => none
    | some f =>
      match f.next with
      | none => some slow
      | some f1 =>
        match H f1 with
        | none => none
        | some fn =>
          match fn.next with
          | none => some slow
          | some f2 =>
            match deref H slow with
            | none => none
            | some sl => split_loop fuel H sl.next (some f2)

/-- Embedding of `split`; the result is the heap with `*left` and `*right`. -/
def split (fuel : Nat) (H : Heap) (start : Ptr) : Option (Heap × Ptr × Ptr) :=
  match split_loop fuel H start start with
  | none => none
  | some slow =>
    match deref H slow with
    | none => none
    | some sl =>
      match set_next H slow none with
      | none => none
      | some H1 => some (H1, start, sl.next)

/-- One splice of the merge loop: the node `pick` is appended after `merge`
(or becomes the start of the result when `merge` is `NULL`); the result is the
heap with the new `start` and `merge`. -/
def splice (H : Heap) (start merge pick : Ptr) : Option (Heap × Ptr × Ptr) :=
  match merge with
  | none => some (H, pick, pick)
  | some _ =>
    match set_next H merge pick with
    | none => none
    | some H1 =>
      match deref H1 merge with
      | none => none
      | some m => some (H1, start, m.next)

/-- The test `!right || (left && strcmp(left->value, right->value) < 0)` of the
merge loop. -/
def merge_test (H : Heap) (left right : Ptr) : Option Bool :=
  match right with
  | none => some true
  | some r =>
    match left with
    | none => some false
    | some l =>
      match H l, H r with
      | some ln, some rn => some (decide (strcmp ln.value rn.value < 0))
      | _, _ => none

/-- The merge loop of `sort`, from the state `(start, merge, left, right)`;
the result is the heap and the value of `start` at exit. -/
def merge_loop : Nat → Heap → Ptr → Ptr → Ptr → Ptr → Option (Heap × Ptr)
  | 0, _, _, _, _, _ => none
  | fuel + 1, H, start, merge, left, right =>
    if left = none ∧ right = none then some (H, start)
    else
      match merge_test H left right with
      | none => none
      | some true =>
        match splice H start merge left with
        | none => none
        | some (H1, start1, merge1) =>
          match deref H1 left with
          | none => none
          | some ln => merge_loop fuel H1 start1 merge1 ln.next right
      | some false =>
        match splice H start merge right with
        | none => none
        | some (H1, start1, merge1) =>
          match deref H1 right with
          | none => none
          | some rn => merge_loop fuel H1 start1 merge1 left rn.next

/-- Embedding of the recursive `sort`; the result is the heap and the
returned pointer. -/
def sort : Nat → Heap → Ptr → Option (Heap × Ptr)
  | 0, _, _ => none
  | fuel + 1, H, start =>
    match start with
    | none => some (H, start)
    | some a =>
      match H a with
      | none => none
      | some n =>
        if n.next = none then some (H, start)
        else
          match split fuel H start with
          | none => none
          | some (H1, left, right) =>
            match sort fuel H1 left with
            | none => none
            | some (H2, left1) =>
              match sort fuel H2 right with
              | none => none
              | some (H3, right1) => merge_loop fuel H3 start none left1 right1

/-- The loop of `q_sort` that advances `q->tail` to the last node; the result
is the value of `q->tail` at exit. -/
def tail_loop : Nat → Heap → Ptr → Option Ptr
  | 0, _, _ => none
  | fuel + 1, H, tail =>
    match deref H tail with
    | none => none
    | some t =>
      match t.next with
      | none => some tail
      | some t1 => tail_loop fuel H (some t1)

/-- Embedding of `q_sort`. -/
def q_sort (fuel : Nat) (H : Heap) (q : Option queue_t) : Option (Heap × Option queue_t) :=
  match q with
  | none => some (H, none)
  | some q =>
    if q.head = none then some (H, some q)
    else
      match sort fuel H q.head with
      | none => none
      | some (H1, head) =>
        match tail_loop fuel H1 q.tail with
        | none => none
        | some tail => some (H1, some { q with head := head, tail := tail })

/-! ## Chains of nodes -/

/-- An element of a chain: the address of the node and its payload. -/
abbrev Elem := Addr × CStr

/-- Check that following the links from `p` visits exactly the nodes of `L`,
with the listed payloads, and then reaches `NULL`. -/
def chainb (H : Heap) : Ptr → List Elem → Bool
  | p, [] => decide (p = none)
  | p, x :: L =>
    decide (p = some x.1) &&
      (match H x.1 with
       | none => false
       | some n => decide (n.value = x.2) && chainb H n.next L)

/-- The chain that starts at `p` is `L`: the nodes reachable from `p` by
following links up to the `NULL` terminator, in order, with their payloads. -/
def Chain (H : Heap) (p : Ptr) (L : List Elem) : Prop := chainb H p L = true

instance (H : Heap) (p : Ptr) (L : List Elem) : Decidable (Chain H p L) :=
  inferInstanceAs (Decidable (chainb H p L = true))

/-- The addresses of the nodes of a chain. -/
def addrs (L : List Elem) : List Addr := L.map Prod.fst

/-- The payloads of the nodes of a chain. -/
def payloads (L : List Elem) : List CStr := L.map Prod.snd

/-- The last node of a chain, as a pointer (`NULL` for the empty chain). -/
def last_ptr (L : List Elem) : Ptr := L.getLast?.map Prod.fst

/-- The representation invariant of a queue whose chain is `L`: `head` starts
the chain, `size` is its length and, when the chain is not empty, `tail` is
its last node. -/
def Inv (H : Heap) (q : queue_t) (L : List Elem) : Prop :=
  Chain H q.head L ∧ q.size = (L.length : Int) ∧ (L ≠ [] → q.tail = last_ptr L)

instance (H : Heap) (q : queue_t) (L : List Elem) : Decidable (Inv H q L) := by
  unfold Inv
  exact inferInstance

/-- Non-decreasing order of payloads under `strcmp`. -/
def Ascending (vs : List CStr) : Prop := List.Pairwise (fun a b => strcmp a b ≤ 0) vs

/-! ## The sort on lists of elements -/

/-- The number of nodes `split` leaves in the left chain of a chain of `n`. -/
def left_len (n : Nat) : Nat := (n - 1) / 2 + 1

/-- The test of the merge loop when both heads are present: the left head is
taken when its payload compares strictly below the right one. -/
def takes_left (x y : Elem) : Bool := decide (strcmp x.2 y.2 < 0)

/-- The order in which the merge loop splices the nodes of two chains. -/
def merge_list (A B : List Elem) : List Elem := List.merge A B takes_left

/-- The order in which `sort` leaves the nodes of a chain. -/
def sort_list (L : List Elem) : List Elem :=
  if h : L.length ≤ 1 then L
  else
    have : left_len L.length < L.length := by unfold left_len; omega
    have : L.length - left_len L.length < L.length := by unfold left_len; omega
    merge_list (sort_list (L.take (left_len L.length))) (sort_list (L.drop (left_len L.length)))
termination_by L.length
decreasing_by
  · simp only [List.length_take]; omega
  · simp only [List.length_drop]; omega

/-- Two nodes in the order `sort` leaves them: either the payload of the first
is strictly smaller, or the payloads are equal and the first came after the
second in the original chain `L`. -/
def sorted_rel (L : List Elem) (x y : Elem) : Prop :=
  strcmp x.2 y.2 < 0 ∨ (strcmp x.2 y.2 = 0 ∧ List.Sublist [y, x] L)

/-! ## Reachable states and callers -/

/-- The states a queue can be in: those reached from a newly created queue by
calls of `q_insert_head`, `q_insert_tail`, `q_remove_head`, `q_reverse` and
`q_sort` that return (with any result).  A block returned by `malloc` is not
allocated at the time of the call. -/
inductive Reachable : Heap → queue_t → Prop
  | new (H : Heap) (q : queue_t) : q_new true = some q → Reachable H q
  | insert_head {H : Heap} {q : queue_t} (s : CStr) (newh : Ptr) (str_ok : Bool)
      {H1 : Heap} {q1 : queue_t} {b : Bool} :
      Reachable H q → (∀ a, newh = some a → H a = none) →
      q_insert_head H (some q) s newh str_ok = some (H1, some q1, b) → Reachable H1 q1
  | insert_tail {H : Heap} {q : queue_t} (s : CStr) (newt : Ptr) (str_ok : Bool)
      {H1 : Heap} {q1 : queue_t} {b : Bool} :
      Reachable H q → (∀ a, newt = some a → H a = none) →
      q_insert_tail H (some q) s newt str_ok = some (H1, some q1, b) → Reachable H1 q1
  | remove_head {H : Heap} {q : queue_t} (sp : Option Buf) (bufsize : Nat)
      {H1 : Heap} {q1 : queue_t} {sp1 : Option Buf} {b : Bool} :
      Reachable H q →
      q_remove_head H (some q) sp bufsize = some (H1, some q1, sp1, b) → Reachable H1 q1
  | reverse {H : Heap} {q : queue_t} (fuel : Nat) {H1 : Heap} {q1 : queue_t} :
      Reachable H q → q_reverse fuel H (some q) = some (H1, some q1) → Reachable H1 q1
  | sort {H : Heap} {q : queue_t} (fuel : Nat) {H1 : Heap} {q1 : queue_t} :
      Reachable H q → q_sort fuel H (some q) = some (H1, some q1) → Reachable H1 q1

/-- The states reached from a newly created queue by calls of `q_insert_head`,
`q_insert_tail` and `q_remove_head` only. -/
inductive ReachableBasic : Heap → queue_t → Prop
  | new (H : Heap) (q : queue_t) : q_new true = some q → ReachableBasic H q
  | insert_head {H : Heap} {q : queue_t} (s : CStr) (newh : Ptr) (str_ok : Bool)
      {H1 : Heap} {q1 : queue_t} {b : Bool} :
      ReachableBasic H q → (∀ a, newh = some a → H a = none) →
      q_insert_head H (some q) s newh str_ok = some (H1, some q1, b) → ReachableBasic H1 q1
  | insert_tail {H : Heap} {q : queue_t} (s : CStr) (newt : Ptr) (str_ok : Bool)
      {H1 : Heap} {q1 : queue_t} {b : Bool} :
      ReachableBasic H q → (∀ a, newt = some a → H a = none) →
      q_insert_tail H (some q) s newt str_ok = some (H1, some q1, b) → ReachableBasic H1 q1
  | remove_head {H : Heap} {q : queue_t} (sp : Option Buf) (bufsize : Nat)
      {H1 : Heap} {q1 : queue_t} {sp1 : Option Buf} {b : Bool} :
      ReachableBasic H q →
      q_remove_head H (some q) sp bufsize = some (H1, some q1, sp1, b) → ReachableBasic H1 q1

/-- The bytes of a C string, as numbers. -/
def bytes (s : CStr) : List Nat := s.map Subtype.val

/-- The C string a caller reads in a buffer of `cap` bytes: the bytes before
the first zero byte. -/
def read_cstr (buf : Buf) (cap : Nat) : List Nat :=
  ((List.range cap).map buf).takeWhile (fun b => b ≠ 0)

/-- A caller that makes `n` successive `q_remove_head` calls, each with a
buffer of `cap` bytes, and collects the strings it reads; `none` as soon as a
call does not return true. -/
def remove_all : Nat → Heap → Option queue_t → Nat →
    Option (List (List Nat) × Heap × Option queue_t)
  | 0, H, q, _ => some ([], H, q)
  | n + 1, H, q, cap =>
    match q_remove_head H q (some (fun _ => 0)) cap with
    | some (H1, q1, some buf, true) =>
      match remove_all n H1 q1 cap with
      | some (vs, r) => some (read_cstr buf cap :: vs, r)
      | none => none
    | _ => none

/-! ## Concrete queues -/

/-- The string `"a"`. -/
def str_a : CStr := [ch 97]

/-- The string `"b"`. -/
def str_b : CStr := [ch 98]

/-- The string `"c"`. -/
def str_c : CStr := [ch 99]

/-- A newly created queue. -/
def new_queue : queue_t := { head := none, tail := none, size := 0 }

/-- The heap after `q_insert_tail` of `"b"`, `"a"`, `"c"` on a new queue, the
nodes being allocated at the addresses 1, 2, 3. -/
def bac_heap : Heap :=
  ((((Heap.empty.set 1 ⟨str_b, none⟩).set 1 ⟨str_b, some 2⟩).set 2 ⟨str_a, none⟩).set 2
    ⟨str_a, some 3⟩).set 3 ⟨str_c, none⟩

/-- The queue structure after these three insertions. -/
def bac_queue : queue_t := { head := some 1, tail := some 3, size := 3 }

/-- The chain of `bac_queue`. -/
def bac_chain : List Elem := [(1, str_b), (2, str_a), (3, str_c)]

/-- The heap after `q_insert_tail` of `"a"` twice on a new queue, the nodes
being allocated at the addresses 1 and 2. -/
def tie_heap : Heap :=
  ((Heap.empty.set 1 ⟨str_a, none⟩).set 1 ⟨str_a, some 2⟩).set 2 ⟨str_a, none⟩

/-- The queue structure after these two insertions. -/
def tie_queue : queue_t := { head := some 1, tail := some 2, size := 2 }

/-- The chain of `tie_queue`. -/
def tie_chain : List Elem := [(1, str_a), (2, str_a)]

/-- The heap `split` makes of `tie_heap`: the two nodes as separate chains. -/
def two_heap : Heap := tie_heap.set 1 ⟨str_a, none⟩

/-- The heap after `q_insert_tail` of `"a"` on a new queue, the node being
allocated at the address 1. -/
def one_heap : Heap := Heap.empty.set 1 ⟨str_a, none⟩

/-- The queue structure after this insertion. -/
def one_queue : queue_t := { head := some 1, tail := some 1, size := 1 }

/-- The heap after a `q_remove_head` on `one_queue`. -/
def stale_heap : Heap := one_heap.free 1

/-- The queue structure after this removal. -/
def stale_queue : queue_t := { head := none, tail := some 1, size := 0 }

/-- A string of `2 ^ 32 + 1` bytes. -/
def long_string : CStr := List.replicate (2 ^ 32 + 1) (ch 97)

/-- The string `"x"`. -/
def str_x : CStr := [ch 120]

/-- The string `"y"`. -/
def str_y : CStr := [ch 121]

/-- The heap after `q_insert_head` of `"x"` on a new queue, the node being
allocated at the address 1. -/
def x_heap : Heap := Heap.empty.set 1 ⟨str_x, none⟩

/-- The queue structure after this insertion. -/
def x_queue : queue_t := { head := some 1, tail := some 1, size := 1 }

/-- The heap after `q_insert_head` of `"x"` and then of `"y"` on a new queue,
the nodes being allocated at the addresses 1 and 2. -/
def yx_heap : Heap := x_heap.set 2 ⟨str_y, some 1⟩

/-- The queue structure after these two insertions. -/
def yx_queue : queue_t := { head := some 2, tail := some 1, size := 2 }

/-- The chain of `yx_queue`. -/
def yx_chain : List Elem := [(2, str_y), (1, str_x)]

/-- The string `"abc"`. -/
def str_abc : CStr := [ch 97, ch 98, ch 99]

/-- The heap after `q_insert_tail` of `"abc"` on a new queue, the node being
allocated at the address 1. -/
def abc_heap : Heap := Heap.empty.set 1 ⟨str_abc, none⟩

/-- The heap after `q_insert_tail` of `"b"` on a new queue, the node being
allocated at the address 1. -/
def b_heap : Heap := Heap.empty.set 1 ⟨str_b, none⟩

/-- The queue structure after this insertion. -/
def b_queue : queue_t := { head := some 1, tail := some 1, size := 1 }

/-- The heap after `q_insert_tail` of `"b"` and of `"a"` on a new queue, the
nodes being allocated at the addresses 1 and 2. -/
def ba_heap : Heap := (b_heap.set 1 ⟨str_b, some 2⟩).set 2 ⟨str_a, none⟩

/-- The queue structure after these two insertions. -/
def ba_queue : queue_t := { head := some 1, tail := some 2, size := 2 }

/-- The chain of `ba_queue`. -/
def ba_chain : List Elem := [(1, str_b), (2, str_a)]

/-- The heap after `n` calls of `q_insert_head` of `"a"` on a new queue, the
node of the `k`-th call being allocated at the address `k`: the node `k` links
to the node `k - 1`, and the node 1 is the last one. -/
def many_heap (n : Nat) : Heap :=
  fun (a : Nat) =>
    if 1 ≤ a ∧ a ≤ n then some ⟨str_a, if a = 1 then none else some (a - 1)⟩ else none

/-- The queue structure after these `n` insertions. -/
def many_queue (n : Nat) : queue_t :=
  { head := if n = 0 then none else some n, tail := if n = 0 then none else some 1,
    size := (n : Int) }

/-- A string of `2 ^ 31 - 1` bytes, the largest value of an `int`. -/
def int_max_string : CStr := List.replicate (2 ^ 31 - 1) (ch 97)

/-- A caller that makes one `q_insert_tail` call per string of the list, in
order, the element of each call being allocated at the address listed with the
string and both allocations succeeding; `none` as soon as a call does not
return true. -/
def insert_all : Heap → Option queue_t → List (CStr × Addr) → Option (Heap × Option queue_t)
  | H, q, [] => some (H, q)
  | H, q, (s, a) :: rest =>
    match q_insert_tail H q s (some a) true with
    | some (H1, q1, true) => insert_all H1 q1 rest
    | _ => none

/-! ## Order properties of `strcmp` and basic facts on chains -/

theorem chain_nil (H : Heap) (p : Ptr) : Chain H p [] ↔ p = none := by
  simp [Chain, chainb]

theorem chain_cons (H : Heap) (p : Ptr) (x : Elem) (L : List Elem) :
    Chain H p (x :: L) ↔ p = some x.1 ∧ ∃ nx, H x.1 = some ⟨x.2, nx⟩ ∧ Chain H nx L := by
  unfold Chain
  simp only [chainb, Bool.and_eq_true, decide_eq_true_eq]
  constructor
  · rintro ⟨hp, h⟩
    refine ⟨hp, ?_⟩
    cases hx : H x.1 with
    | none => simp [hx] at h
    | some n =>
      simp only [hx, Bool.and_eq_true, decide_eq_true_eq] at h
      obtain ⟨hv, hc⟩ := h
      refine ⟨n.next, ?_, hc⟩
      cases n; simp_all
  · rintro ⟨hp, nx, hx, hc⟩
    refine ⟨hp, ?_⟩
    simp [hx, hc]

theorem strcmp_self (a : CStr) : strcmp a a = 0 := by
  induction a with
  | nil => simp [strcmp]
  | cons x a ih => simp [strcmp, ih]

theorem strcmp_neg (a b : CStr) : strcmp a b = - strcmp b a := by
  induction a generalizing b with
  | nil => cases b <;> simp [strcmp]
  | cons x a ih =>
    cases b with
    | nil => simp [strcmp]
    | cons y b =>
      simp only [strcmp]
      by_cases h : x.val = y.val
      · simp [h, ih b]
      · have h2 : ¬ y.val = x.val := fun e => h e.symm
        simp [h, h2]

theorem strcmp_eq_zero (a b : CStr) : strcmp a b = 0 ↔ a = b := by
  induction a generalizing b with
  | nil =>
    cases b with
    | nil => simp [strcmp]
    | cons y b => 
      have := y.2.1
      simp [strcmp]; omega
  | cons x a ih =>
    cases b with
    | nil => 
      have := x.2.1
      simp [strcmp]; omega
    | cons y b =>
      simp only [strcmp]
      by_cases h : x.val = y.val
      · have : x = y := Subtype.ext h
        simp [h, ih b, this]
      · have : x ≠ y := fun e => h (by rw [e])
        simp [h, this]; omega

theorem strcmp_le_trans (a b c : CStr) (h1 : strcmp a b ≤ 0) (h2 : strcmp b c ≤ 0) :
    strcmp a c ≤ 0 := by
  induction a generalizing b c with
  | nil => cases c <;> simp [strcmp]
  | cons x a ih =>
    have hx := x.2.1
    cases b with
    | nil => simp [strcmp] at h1; omega
    | cons y b =>
      cases c with
      | nil => 
        have hy := y.2.1
        simp [strcmp] at h2; omega
      | cons z c =>
        simp only [strcmp] at h1 h2 ⊢
        split_ifs at h1 h2 ⊢ <;> first | omega | exact ih b c h1 h2

theorem strcmp_lt_of_lt_of_le (a b c : CStr) (h1 : strcmp a b < 0) (h2 : strcmp b c ≤ 0) :
    strcmp a c < 0 := by
  have h := strcmp_le_trans a b c (le_of_lt h1) h2
  rcases lt_or_eq_of_le h with h | h
  · exact h
  · rw [strcmp_eq_zero] at h
    subst h
    rw [strcmp_neg] at h2
    omega

theorem set_same (H : Heap) (a : Addr) (n : list_ele_t) : (H.set a n) a = some n := by
  simp [Heap.set]

theorem set_other (H : Heap) (a b : Addr) (n : list_ele_t) (h : b ≠ a) :
    (H.set a n) b = H b := by
  simp [Heap.set, h]

theorem free_same (H : Heap) (a : Addr) : (H.free a) a = none := by
  simp [Heap.free]

theorem free_other (H : Heap) (a b : Addr) (h : b ≠ a) : (H.free a) b = H b := by
  simp [Heap.free, h]

theorem mem_addrs {a : Addr} {L : List Elem} : a ∈ addrs L ↔ ∃ v, (a, v) ∈ L := by
  simp [addrs]

theorem mem_addrs_of_mem {x : Elem} {L : List Elem} (h : x ∈ L) : x.1 ∈ addrs L := by
  simp only [addrs, List.mem_map]
  exact ⟨x, h, rfl⟩

theorem chain_head {H : Heap} {p : Ptr} {L : List Elem} (h : Chain H p L) :
    p = L.head?.map Prod.fst := by
  cases L with
  | nil => simpa [chain_nil] using h
  | cons x L => simpa using ((chain_cons H p x L).1 h).1

/-- A chain only depends on the cells of its own nodes. -/
theorem chain_frame {H H1 : Heap} {p : Ptr} {L : List Elem} (h : Chain H p L)
    (hf : ∀ a ∈ addrs L, H1 a = H a) : Chain H1 p L := by
  induction L generalizing p with
  | nil => simpa [chain_nil] using h
  | cons x L ih =>
    rw [chain_cons] at h ⊢
    obtain ⟨hp, nx, hx, hc⟩ := h
    refine ⟨hp, nx, ?_, ih hc ?_⟩
    · rw [hf x.1 (by simp [addrs])]; exact hx
    · intro a ha
      exact hf a (by simp only [addrs, List.map_cons, List.mem_cons] at ha ⊢; exact Or.inr ha)

theorem chain_set {H : Heap} {p : Ptr} {L : List Elem} (h : Chain H p L) {a : Addr}
    (ha : a ∉ addrs L) (n : list_ele_t) : Chain (H.set a n) p L :=
  chain_frame h (fun b hb => set_other H a b n (fun e => ha (e ▸ hb)))

theorem chain_free {H : Heap} {p : Ptr} {L : List Elem} (h : Chain H p L) {a : Addr}
    (ha : a ∉ addrs L) : Chain (H.free a) p L :=
  chain_frame h (fun b hb => free_other H a b (fun e => ha (e ▸ hb)))

/-- The chain that starts at a pointer is unique. -/
theorem chain_unique {H : Heap} {p : Ptr} {L L1 : List Elem} (h : Chain H p L)
    (h1 : Chain H p L1) : L = L1 := by
  induction L generalizing p L1 with
  | nil =>
    rw [chain_nil] at h
    cases L1 with
    | nil => rfl
    | cons y L1 =>
      rw [chain_cons] at h1
      rw [h] at h1
      exact absurd h1.1 (by simp)
  | cons x L ih =>
    rw [chain_cons] at h
    obtain ⟨hp, nx, hx, hc⟩ := h
    cases L1 with
    | nil =>
      rw [chain_nil] at h1
      rw [h1] at hp
      exact absurd hp (by simp)
    | cons y L1 =>
      rw [chain_cons] at h1
      obtain ⟨hp1, ny, hy, hc1⟩ := h1
      have hxy : x.1 = y.1 := by
        rw [hp] at hp1
        exact Option.some.inj hp1
      rw [← hxy, hx] at hy
      have h2 := Option.some.inj hy
      have hv : x.2 = y.2 := congrArg list_ele_t.value h2
      have hn : nx = ny := congrArg list_ele_t.next h2
      subst hn
      have := ih hc hc1
      subst this
      have : x = y := Prod.ext hxy hv
      rw [this]

/-- The part of a chain after a prefix is the chain of the node it starts at. -/
theorem chain_append {H : Heap} {p : Ptr} {A B : List Elem} (h : Chain H p (A ++ B)) :
    ∃ m, Chain H m B := by
  induction A generalizing p with
  | nil => exact ⟨p, h⟩
  | cons x A ih =>
    rw [List.cons_append, chain_cons] at h
    obtain ⟨_, nx, _, hc⟩ := h
    exact ih hc

theorem chain_length_unique {H : Heap} {p : Ptr} {L L1 : List Elem} (h : Chain H p L)
    (h1 : Chain H p L1) : L.length = L1.length := by
  rw [chain_unique h h1]

/-- A chain visits no node twice. -/
theorem chain_nodup {H : Heap} {p : Ptr} {L : List Elem} (h : Chain H p L) :
    (addrs L).Nodup := by
  induction L generalizing p with
  | nil => simp [addrs]
  | cons x L ih =>
    have h0 := h
    rw [chain_cons] at h
    obtain ⟨hp, nx, hx, hc⟩ := h
    simp only [addrs, List.map_cons, List.nodup_cons]
    refine ⟨?_, ih hc⟩
    intro hmem
    obtain ⟨y, hy, hyx⟩ := List.mem_map.1 hmem
    obtain ⟨A, B, hAB⟩ := List.append_of_mem hy
    rw [hAB] at hc
    obtain ⟨m, hm⟩ := chain_append hc
    have hm1 := ((chain_cons H m y B).1 hm).1
    have hpm : p = m := by rw [hp, hm1, hyx]
    subst hpm
    have := chain_length_unique h0 hm
    rw [hAB] at this
    simp at this
    omega


/-! ## `split` -/

theorem split_loop_spec (H : Heap) :
    ∀ (fuel : Nat) (S F : List Elem) (slow fast : Ptr), Chain H slow S → Chain H fast F →
      F ≠ [] → (F.length - 1) / 2 < S.length → (F.length - 1) / 2 < fuel →
      ∃ m, split_loop fuel H slow fast = some m ∧ Chain H m (S.drop ((F.length - 1) / 2)) := by
  intro fuel
  induction fuel with
  | zero => intro S F slow fast _ _ _ _ hf; omega
  | succ fuel ih =>
    intro S F slow fast hS hF hne hlen hfuel
    match F, hne with
    | [f], _ =>
      rw [chain_cons] at hF
      obtain ⟨hp, nx, hx, hc⟩ := hF
      rw [chain_nil] at hc
      subst hc
      refine ⟨slow, ?_, by simpa using hS⟩
      simp [split_loop, deref, hp, hx]
    | [f, g], _ =>
      rw [chain_cons] at hF
      obtain ⟨hp, nx, hx, hc⟩ := hF
      rw [chain_cons] at hc
      obtain ⟨hp1, nx1, hx1, hc1⟩ := hc
      rw [chain_nil] at hc1
      subst hc1
      subst hp1
      refine ⟨slow, ?_, by simpa using hS⟩
      simp [split_loop, deref, hp, hx, hx1]
    | f :: g :: h :: F1, _ =>
      rw [chain_cons] at hF
      obtain ⟨hp, nx, hx, hc⟩ := hF
      rw [chain_cons] at hc
      obtain ⟨hp1, nx1, hx1, hc1⟩ := hc
      have hh := ((chain_cons H nx1 h F1).1 hc1).1
      subst hp1
      subst hh
      simp only [List.length_cons] at hlen hfuel
      have hk : (F1.length + 1 + 1 + 1 - 1) / 2 = F1.length / 2 + 1 := by omega
      rw [hk] at hlen hfuel
      match S, hlen with
      | s :: S1, hlen =>
        rw [chain_cons] at hS
        obtain ⟨hs, ns, hxs, hcs⟩ := hS
        simp only [List.length_cons] at hlen
        obtain ⟨m, hm, hcm⟩ := ih S1 (h :: F1) ns (some h.1) hcs hc1 (by simp)
          (by simp only [List.length_cons]; omega) (by simp only [List.length_cons]; omega)
        refine ⟨m, ?_, ?_⟩
        · simp only [split_loop, deref, hp, hx, hx1, hs, hxs]
          exact hm
        · simp only [List.length_cons, hk, List.drop_succ_cons]
          simpa using hcm

/-- Cutting a chain after one of its nodes gives two chains. -/
theorem chain_cut {H : Heap} {p nx : Ptr} {A B : List Elem} {y : Elem}
    (h : Chain H p (A ++ y :: B)) (hy : H y.1 = some ⟨y.2, nx⟩) :
    Chain (H.set y.1 ⟨y.2, none⟩) p (A ++ [y]) ∧ Chain (H.set y.1 ⟨y.2, none⟩) nx B := by
  have hnd := chain_nodup h
  induction A generalizing p with
  | nil =>
    simp only [List.nil_append] at h hnd ⊢
    rw [chain_cons] at h
    obtain ⟨hp, nx1, hx1, hc⟩ := h
    rw [hy] at hx1
    have hn : nx = nx1 := congrArg list_ele_t.next (Option.some.inj hx1)
    subst hn
    simp only [addrs, List.map_cons, List.nodup_cons] at hnd
    constructor
    · rw [chain_cons]
      exact ⟨hp, none, set_same _ _ _, by simp [chain_nil]⟩
    · exact chain_set hc hnd.1 _
  | cons x A ih =>
    simp only [List.cons_append] at h hnd ⊢
    rw [chain_cons] at h
    obtain ⟨hp, nx1, hx1, hc⟩ := h
    simp only [addrs, List.map_cons, List.nodup_cons] at hnd
    obtain ⟨h1, h2⟩ := ih hc hnd.2
    refine ⟨?_, h2⟩
    rw [chain_cons]
    refine ⟨hp, nx1, ?_, h1⟩
    rw [set_other]
    · exact hx1
    · intro e
      apply hnd.1
      rw [e]
      simp

theorem split_spec {H : Heap} {start : Ptr} {L : List Elem} (h : Chain H start L)
    (hne : L ≠ []) (fuel : Nat) (hfuel : (L.length - 1) / 2 < fuel) :
    ∃ H1 right, split fuel H start = some (H1, start, right) ∧
      Chain H1 start (L.take (left_len L.length)) ∧
      Chain H1 right (L.drop (left_len L.length)) ∧
      (∀ a, a ∉ addrs L → H1 a = H a) := by
  have hpos : 0 < L.length := List.length_pos.2 hne
  obtain ⟨m, hm, hcm⟩ := split_loop_spec H fuel L L start start h h hne (by omega) hfuel
  have hk : (L.length - 1) / 2 < L.length := by omega
  obtain ⟨y, B, hyB⟩ : ∃ y B, L.drop ((L.length - 1) / 2) = y :: B := by
    cases hd : L.drop ((L.length - 1) / 2) with
    | nil =>
      have := congrArg List.length hd
      simp at this
      omega
    | cons y B => exact ⟨y, B, rfl⟩
  rw [hyB, chain_cons] at hcm
  obtain ⟨hmy, nx, hy, hB⟩ := hcm
  have hL : L = L.take ((L.length - 1) / 2) ++ y :: B := by
    rw [← hyB, List.take_append_drop]
  have hcut := chain_cut (hL ▸ h) hy
  have htake : L.take (left_len L.length) = L.take ((L.length - 1) / 2) ++ [y] := by
    unfold left_len
    rw [List.take_succ]
    congr 1
    have : L.drop ((L.length - 1) / 2) = y :: B := hyB
    rw [List.getElem?_eq_getElem hk]
    simp only [Option.toList]
    congr 1
    have h2 := List.getElem_cons_drop L _ hk
    rw [hyB] at h2
    exact (List.cons.inj h2).1
  have hdrop : L.drop (left_len L.length) = B := by
    unfold left_len
    have h2 := List.getElem_cons_drop L _ hk
    rw [hyB] at h2
    exact (List.cons.inj h2).2
  refine ⟨H.set y.1 ⟨y.2, none⟩, nx, ?_, ?_, ?_, ?_⟩
  · simp [split, hm, hmy, deref, hy, set_next]
  · rw [htake]; exact hcut.1
  · rw [hdrop]; exact hcut.2
  · intro a ha
    apply set_other
    intro e
    apply ha
    rw [e, hL]
    simp [addrs]


/-! ## The merge loop -/

theorem merge_loop_spec :
    ∀ (fuel : Nat) (H : Heap) (start : Ptr) (m : Addr) (v : CStr) (nx left right : Ptr)
      (Ll Lr : List Elem), H m = some ⟨v, nx⟩ → (nx = left ∨ nx = right) →
      Chain H left Ll → Chain H right Lr → (m :: (addrs Ll ++ addrs Lr)).Nodup →
      Ll.length + Lr.length < fuel →
      ∃ H1, merge_loop fuel H start (some m) left right = some (H1, start) ∧
        Chain H1 (some m) ((m, v) :: merge_list Ll Lr) ∧
        ∀ a, a ≠ m → a ∉ addrs Ll → a ∉ addrs Lr → H1 a = H a := by
  intro fuel
  induction fuel with
  | zero => intro H start m v nx left right Ll Lr _ _ _ _ _ hf; omega
  | succ fuel ih =>
    intro H start m v nx left right Ll Lr hm hnx hl hr hnd hfuel
    have pick_left : ∀ (x : Elem) (Ll1 : List Elem), Ll = x :: Ll1 →
        ∃ nl, H x.1 = some ⟨x.2, nl⟩ ∧ left = some x.1 ∧
        ∃ H1, merge_loop fuel (H.set m ⟨v, some x.1⟩) start (some x.1) nl right = some (H1, start) ∧
          Chain H1 (some m) ((m, v) :: x :: merge_list Ll1 Lr) ∧
          ∀ a, a ≠ m → a ∉ addrs Ll → a ∉ addrs Lr → H1 a = H a := by
      intro x Ll1 hLl
      subst hLl
      rw [chain_cons] at hl
      obtain ⟨hp, nl, hx, hc⟩ := hl
      simp only [addrs, List.map_cons, List.cons_append, List.nodup_cons, List.mem_cons,
        List.mem_append, not_or] at hnd
      obtain ⟨⟨hmx, hml, hmr⟩, ⟨hxl, hxr⟩, hnd2⟩ := hnd
      have hxm : x.1 ≠ m := fun e => hmx e.symm
      obtain ⟨H1, h1, h2, h3⟩ := ih (H.set m ⟨v, some x.1⟩) start x.1 x.2 nl nl right Ll1 Lr
        (by rw [set_other _ _ _ _ hxm]; exact hx) (Or.inl rfl)
        (chain_set hc hml _) (chain_set hr hmr _)
        (by simp only [addrs, List.nodup_cons, List.mem_append, not_or]; exact ⟨⟨hxl, hxr⟩, hnd2⟩)
        (by simp only [List.length_cons] at hfuel; omega)
      refine ⟨nl, hx, hp, H1, h1, ?_, ?_⟩
      · rw [chain_cons]
        refine ⟨rfl, some x.1, ?_, h2⟩
        rw [h3 m (fun e => hmx e) hml hmr]
        exact set_same _ _ _
      · intro a ham hal har
        simp only [addrs, List.map_cons, List.mem_cons, not_or] at hal
        rw [h3 a hal.1 hal.2 har]
        exact set_other _ _ _ _ ham
    have pick_right : ∀ (y : Elem) (Lr1 : List Elem), Lr = y :: Lr1 →
        ∃ nr, H y.1 = some ⟨y.2, nr⟩ ∧ right = some y.1 ∧
        ∃ H1, merge_loop fuel (H.set m ⟨v, some y.1⟩) start (some y.1) left nr = some (H1, start) ∧
          Chain H1 (some m) ((m, v) :: y :: merge_list Ll Lr1) ∧
          ∀ a, a ≠ m → a ∉ addrs Ll → a ∉ addrs Lr → H1 a = H a := by
      intro y Lr1 hLr
      subst hLr
      rw [chain_cons] at hr
      obtain ⟨hp, nr, hy, hc⟩ := hr
      simp only [addrs, List.map_cons, List.nodup_cons, List.mem_cons,
        List.mem_append, not_or, List.nodup_append, List.disjoint_cons_right] at hnd
      obtain ⟨⟨hml, hmy, hmr⟩, hndl, ⟨hyr, hndr⟩, hyl, hdis⟩ := hnd
      have hym : y.1 ≠ m := fun e => hmy e.symm
      obtain ⟨H1, h1, h2, h3⟩ := ih (H.set m ⟨v, some y.1⟩) start y.1 y.2 nr left nr Ll Lr1
        (by rw [set_other _ _ _ _ hym]; exact hy) (Or.inr rfl)
        (chain_set hl hml _) (chain_set hc hmr _)
        (by
          simp only [addrs, List.nodup_cons, List.mem_append, not_or, List.nodup_append]
          exact ⟨⟨hyl, hyr⟩, hndl, hndr, hdis⟩)
        (by simp only [List.length_cons] at hfuel; omega)
      refine ⟨nr, hy, hp, H1, h1, ?_, ?_⟩
      · rw [chain_cons]
        refine ⟨rfl, some y.1, ?_, h2⟩
        rw [h3 m (fun e => hmy e) hml hmr]
        exact set_same _ _ _
      · intro a ham hal har
        simp only [addrs, List.map_cons, List.mem_cons, not_or] at har
        rw [h3 a har.1 hal har.2]
        exact set_other _ _ _ _ ham
    match Ll, Lr with
    | [], [] =>
      rw [chain_nil] at hl hr
      subst hl
      subst hr
      refine ⟨H, by simp [merge_loop], ?_, fun _ _ _ _ => rfl⟩
      rw [chain_cons]
      refine ⟨rfl, nx, hm, ?_⟩
      rcases hnx with h | h <;> simp [merge_list, chain_nil, h]
    | x :: Ll1, [] =>
      obtain ⟨nl, hx, hp, H1, h1, h2, h3⟩ := pick_left x Ll1 rfl
      rw [chain_nil] at hr
      subst hr
      subst hp
      refine ⟨H1, ?_, ?_, h3⟩
      · simp only [merge_loop, merge_test, splice, set_next, hm, deref, set_same]
        have hxm : x.1 ≠ m := by
          intro e
          simp [addrs, e] at hnd
        simp [set_other _ _ _ _ hxm, hx, h1]
      · simpa [merge_list] using h2
    | [], y :: Lr1 =>
      obtain ⟨nr, hy, hp, H1, h1, h2, h3⟩ := pick_right y Lr1 rfl
      rw [chain_nil] at hl
      subst hl
      subst hp
      refine ⟨H1, ?_, ?_, h3⟩
      · simp only [merge_loop, merge_test, splice, set_next, hm, deref, set_same]
        have hym : y.1 ≠ m := by
          intro e
          simp [addrs, e] at hnd
        simp [set_other _ _ _ _ hym, hy, h1]
      · simpa [merge_list] using h2
    | x :: Ll1, y :: Lr1 =>
      obtain ⟨nl, hx, hpl, Hl, hl1, hl2, hl3⟩ := pick_left x Ll1 rfl
      obtain ⟨nr, hy, hpr, Hr, hr1, hr2, hr3⟩ := pick_right y Lr1 rfl
      subst hpl
      subst hpr
      have hxm : x.1 ≠ m := by
        intro e
        simp [addrs, e] at hnd
      have hym : y.1 ≠ m := by
        intro e
        simp [addrs, e] at hnd
      by_cases hcmp : strcmp x.2 y.2 < 0
      · refine ⟨Hl, ?_, ?_, hl3⟩
        · simp only [merge_loop, merge_test, splice, set_next, hm, deref, set_same, hx, hy]
          simp [set_other _ _ _ _ hxm, hx, hl1, hcmp]
        · have : merge_list (x :: Ll1) (y :: Lr1) = x :: merge_list Ll1 (y :: Lr1) := by
            simp [merge_list, List.cons_merge_cons, takes_left, hcmp]
          rw [this]; exact hl2
      · refine ⟨Hr, ?_, ?_, hr3⟩
        · simp only [merge_loop, merge_test, splice, set_next, hm, deref, set_same, hx, hy]
          simp [set_other _ _ _ _ hym, hy, hr1, hcmp]
        · have : merge_list (x :: Ll1) (y :: Lr1) = y :: merge_list (x :: Ll1) Lr1 := by
            simp [merge_list, List.cons_merge_cons, takes_left, hcmp]
          rw [this]; exact hr2


theorem merge_start_spec {H : Heap} (start : Ptr) {left right : Ptr} {Ll Lr : List Elem}
    (hl : Chain H left Ll) (hr : Chain H right Lr) (hne : Ll ≠ [])
    (hnd : (addrs Ll ++ addrs Lr).Nodup) (fuel : Nat) (hfuel : Ll.length + Lr.length < fuel) :
    ∃ H1 p, merge_loop fuel H start none left right = some (H1, p) ∧
      Chain H1 p (merge_list Ll Lr) ∧
      ∀ a, a ∉ addrs Ll → a ∉ addrs Lr → H1 a = H a := by
  match fuel, hfuel with
  | fuel + 1, hfuel =>
    match Ll, hne with
    | x :: Ll1, _ =>
      have hl0 := hl
      rw [chain_cons] at hl
      obtain ⟨hp, nl, hx, hc⟩ := hl
      subst hp
      match Lr with
      | [] =>
        rw [chain_nil] at hr
        subst hr
        simp only [addrs, List.map_cons, List.map_nil, List.append_nil] at hnd
        obtain ⟨H1, h1, h2, h3⟩ := merge_loop_spec fuel H (some x.1) x.1 x.2 nl nl none Ll1 []
          hx (Or.inl rfl) hc (by simp [chain_nil]) (by simpa [addrs] using hnd)
          (by simp only [List.length_cons, List.length_nil] at hfuel ⊢; omega)
        refine ⟨H1, some x.1, ?_, ?_, ?_⟩
        · simp [merge_loop, merge_test, splice, deref, hx, h1]
        · simpa [merge_list] using h2
        · intro a hal _
          simp only [addrs, List.map_cons, List.mem_cons, not_or] at hal
          exact h3 a hal.1 hal.2 (by simp [addrs])
      | y :: Lr1 =>
        have hr0 := hr
        rw [chain_cons] at hr
        obtain ⟨hpr, nr, hy, hcr⟩ := hr
        subst hpr
        simp only [addrs, List.map_cons, List.cons_append, List.nodup_cons, List.mem_cons,
          List.mem_append, not_or, List.nodup_append, List.disjoint_cons_right] at hnd
        obtain ⟨⟨hxl, hxy, hxr⟩, hndl, ⟨hyr, hndr⟩, hyl, hdis⟩ := hnd
        by_cases hcmp : strcmp x.2 y.2 < 0
        · obtain ⟨H1, h1, h2, h3⟩ := merge_loop_spec fuel H (some x.1) x.1 x.2 nl nl (some y.1)
            Ll1 (y :: Lr1) hx (Or.inl rfl) hc hr0
            (by
              simp only [addrs, List.map_cons, List.nodup_cons, List.mem_cons,
                List.mem_append, not_or, List.nodup_append, List.disjoint_cons_right]
              exact ⟨⟨hxl, hxy, hxr⟩, hndl, ⟨hyr, hndr⟩, hyl, hdis⟩)
            (by simp only [List.length_cons] at hfuel ⊢; omega)
          refine ⟨H1, some x.1, ?_, ?_, ?_⟩
          · simp [merge_loop, merge_test, splice, deref, hx, hy, h1, hcmp]
          · have : merge_list (x :: Ll1) (y :: Lr1) = x :: merge_list Ll1 (y :: Lr1) := by
              simp [merge_list, List.cons_merge_cons, takes_left, hcmp]
            rw [this]; exact h2
          · intro a hal har
            simp only [addrs, List.map_cons, List.mem_cons, not_or] at hal
            exact h3 a hal.1 hal.2 har
        · obtain ⟨H1, h1, h2, h3⟩ := merge_loop_spec fuel H (some y.1) y.1 y.2 nr (some x.1) nr
            (x :: Ll1) Lr1 hy (Or.inr rfl) hl0 hcr
            (by
              simp only [addrs, List.map_cons, List.nodup_cons, List.mem_cons,
                List.mem_append, not_or, List.nodup_append, List.cons_append,
                List.disjoint_cons_left] at hdis ⊢
              refine ⟨⟨fun e => hxy e.symm, hyl, hyr⟩, ⟨hxl, hxr⟩, hndl, hndr, ?_⟩
              exact hdis)
            (by simp only [List.length_cons] at hfuel ⊢; omega)
          refine ⟨H1, some y.1, ?_, ?_, ?_⟩
          · simp [merge_loop, merge_test, splice, deref, hx, hy, h1, hcmp]
          · have : merge_list (x :: Ll1) (y :: Lr1) = y :: merge_list (x :: Ll1) Lr1 := by
              simp [merge_list, List.cons_merge_cons, takes_left, hcmp]
            rw [this]; exact h2
          · intro a hal har
            simp only [addrs, List.map_cons, List.mem_cons, not_or] at har
            exact h3 a har.1 hal har.2

/-! ## The recursive `sort` -/

theorem sort_list_small {L : List Elem} (h : L.length ≤ 1) : sort_list L = L := by
  rw [sort_list]; simp [h]

theorem sort_list_big {L : List Elem} (h : ¬ L.length ≤ 1) :
    sort_list L = merge_list (sort_list (L.take (left_len L.length)))
      (sort_list (L.drop (left_len L.length))) := by
  rw [sort_list]; simp [h]

theorem merge_list_perm (A B : List Elem) : (merge_list A B).Perm (A ++ B) :=
  List.merge_perm_append takes_left

theorem sort_list_perm : ∀ (n : Nat) (L : List Elem), L.length = n → (sort_list L).Perm L := by
  intro n
  induction n using Nat.strong_induction_on with
  | _ n ih =>
    intro L hn
    by_cases h : L.length ≤ 1
    · rw [sort_list_small h]
    · rw [sort_list_big h]
      have h1 : left_len L.length < L.length := by unfold left_len; omega
      have h0 : 0 < left_len L.length := by unfold left_len; omega
      have hA := ih (L.take (left_len L.length)).length
        (by simp only [List.length_take]; omega) _ rfl
      have hB := ih (L.drop (left_len L.length)).length
        (by simp only [List.length_drop]; omega) _ rfl
      refine (merge_list_perm _ _).trans ?_
      refine (List.Perm.append hA hB).trans ?_
      rw [List.take_append_drop]

theorem mem_addrs_perm {A B : List Elem} (h : A.Perm B) (a : Addr) :
    a ∈ addrs A ↔ a ∈ addrs B :=
  (h.map Prod.fst).mem_iff


theorem sort_spec : ∀ (n : Nat) (L : List Elem), L.length = n → ∀ (fuel : Nat) (H : Heap)
    (p : Ptr), Chain H p L → n + 2 ≤ fuel →
    ∃ H1 p1, sort fuel H p = some (H1, p1) ∧ Chain H1 p1 (sort_list L) ∧
      ∀ a, a ∉ addrs L → H1 a = H a := by
  intro n
  induction n using Nat.strong_induction_on with
  | _ n ih =>
    intro L hn fuel H p hc hfuel
    match fuel, hfuel with
    | fuel + 1, hfuel =>
      match L, hn, hc with
      | [], _, hc =>
        rw [chain_nil] at hc
        subst hc
        exact ⟨H, none, by simp [sort], by simp [sort_list_small, chain_nil], fun _ _ => rfl⟩
      | [x], _, hc =>
        refine ⟨H, p, ?_, by simpa [sort_list_small] using hc, fun _ _ => rfl⟩
        rw [chain_cons] at hc
        obtain ⟨hp, nx, hx, hc1⟩ := hc
        rw [chain_nil] at hc1
        subst hc1
        subst hp
        simp [sort, hx]
      | x :: y :: L2, hn, hc =>
        have hc0 := hc
        rw [chain_cons] at hc
        obtain ⟨hp, nx, hx, hc1⟩ := hc
        have hnx := ((chain_cons H nx y L2).1 hc1).1
        subst hp
        simp only [List.length_cons] at hn
        have hbig : ¬ (x :: y :: L2).length ≤ 1 := by simp
        have hlen : (x :: y :: L2).length = n := by simp only [List.length_cons]; exact hn
        have hll1 : left_len n < n := by unfold left_len; omega
        have hll0 : 0 < left_len n := by unfold left_len; omega
        obtain ⟨H1, right, hs, hA, hB, hf1⟩ := split_spec hc0 (by simp) fuel
          (by rw [hlen]; omega)
        rw [hlen] at hA hB
        generalize hLdef : x :: y :: L2 = L at *
        have hndL := chain_nodup hc0
        rw [← List.take_append_drop (left_len n) L] at hndL
        simp only [addrs, List.map_append] at hndL
        have hdis := (List.nodup_append.1 hndL).2.2
        have hlenA : (L.take (left_len n)).length = left_len n := by
          rw [List.length_take]; omega
        have hlenB : (L.drop (left_len n)).length = n - left_len n := by
          rw [List.length_drop]; omega
        obtain ⟨H2, l1, hsl, hA2, hf2⟩ := ih (left_len n) hll1 _ hlenA fuel H1 (some x.1) hA
          (by omega)
        have hB2 : Chain H2 right (L.drop (left_len n)) :=
          chain_frame hB (fun a ha => hf2 a (fun h => hdis h ha))
        obtain ⟨H3, r1, hsr, hB3, hf3⟩ := ih (n - left_len n) (by omega) _ hlenB fuel H2 right hB2
          (by omega)
        have hpA := sort_list_perm _ (L.take (left_len n)) rfl
        have hpB := sort_list_perm _ (L.drop (left_len n)) rfl
        have hA3 : Chain H3 l1 (sort_list (L.take (left_len n))) :=
          chain_frame hA2 (fun a ha => hf3 a (fun h =>
            hdis ((mem_addrs_perm hpA a).1 ha) h))
        have hneA : sort_list (L.take (left_len n)) ≠ [] := by
          intro e
          have := hpA.length_eq
          rw [e, hlenA] at this
          simp at this
          omega
        have hnd3 : (addrs (sort_list (L.take (left_len n))) ++
            addrs (sort_list (L.drop (left_len n)))).Nodup := by
          have : (addrs (sort_list (L.take (left_len n))) ++
            addrs (sort_list (L.drop (left_len n)))).Perm
              (List.map Prod.fst (L.take (left_len n)) ++
                List.map Prod.fst (L.drop (left_len n))) :=
            List.Perm.append (hpA.map Prod.fst) (hpB.map Prod.fst)
          exact this.nodup_iff.2 hndL
        obtain ⟨H4, p4, hm, hc4, hf4⟩ := merge_start_spec (some x.1) hA3 hB3 hneA hnd3
          fuel (by rw [hpA.length_eq, hpB.length_eq, hlenA, hlenB]; omega)
        refine ⟨H4, p4, ?_, ?_, ?_⟩
        · have hnx2 : ¬ (nx = none) := by rw [hnx]; simp
          simp only [sort, hx, hs, hsl, hsr]
          simp [hnx, hm]
        · rw [sort_list_big hbig, hlen]
          exact hc4
        · intro a ha
          have haA : a ∉ addrs (L.take (left_len n)) := fun h =>
            ha (List.mem_map.2 (by
              obtain ⟨z, hz, hze⟩ := List.mem_map.1 h
              exact ⟨z, List.mem_of_mem_take hz, hze⟩))
          have haB : a ∉ addrs (L.drop (left_len n)) := fun h =>
            ha (List.mem_map.2 (by
              obtain ⟨z, hz, hze⟩ := List.mem_map.1 h
              exact ⟨z, List.mem_of_mem_drop hz, hze⟩))
          rw [hf4 a (fun h => haA ((mem_addrs_perm hpA a).1 h))
            (fun h => haB ((mem_addrs_perm hpB a).1 h)), hf3 a haB, hf2 a haA, hf1 a ha]


/-! ## More fuel does not change a result -/

theorem split_loop_succ : ∀ (fuel : Nat) (H : Heap) (slow fast : Ptr) (r : Ptr),
    split_loop fuel H slow fast = some r → split_loop (fuel + 1) H slow fast = some r := by
  intro fuel
  induction fuel with
  | zero => intro H slow fast r h; simp [split_loop] at h
  | succ fuel ih =>
    intro H slow fast r h
    simp only [split_loop] at h ⊢
    split at h
    · exact absurd h (by simp)
    · rename_i f hf
      try simp only [hf]
      split at h
      · rename_i h1; try simp only [h1]
        exact h
      · rename_i f1 h1
        try simp only [h1]
        split at h
        · exact absurd h (by simp)
        · rename_i fn h2
          try simp only [h2]
          split at h
          · rename_i h3; try simp only [h3]
            exact h
          · rename_i f2 h3
            try simp only [h3]
            split at h
            · exact absurd h (by simp)
            · rename_i sl h4
              try simp only [h4]
              exact ih _ _ _ _ h

theorem tail_loop_succ : ∀ (fuel : Nat) (H : Heap) (tail : Ptr) (r : Ptr),
    tail_loop fuel H tail = some r → tail_loop (fuel + 1) H tail = some r := by
  intro fuel
  induction fuel with
  | zero => intro H tail r h; simp [tail_loop] at h
  | succ fuel ih =>
    intro H tail r h
    simp only [tail_loop] at h ⊢
    split at h
    · exact absurd h (by simp)
    · rename_i t ht
      try simp only [ht]
      split at h
      · rename_i h1; try simp only [h1]
        exact h
      · rename_i t1 h1
        try simp only [h1]
        exact ih _ _ _ h

theorem reverse_loop_succ : ∀ (fuel : Nat) (H : Heap) (pre cur : Ptr) (r : Heap × Ptr),
    reverse_loop fuel H pre cur = some r → reverse_loop (fuel + 1) H pre cur = some r := by
  intro fuel
  induction fuel with
  | zero => intro H pre cur r h; simp [reverse_loop] at h
  | succ fuel ih =>
    intro H pre cur r h
    rw [reverse_loop.eq_def] at h ⊢
    simp only at h ⊢
    split at h
    · exact h
    · rename_i c
      split at h
      · exact absurd h (by simp)
      · rename_i n hn
        try simp only [hn]
        exact ih _ _ _ _ h

theorem merge_loop_succ : ∀ (fuel : Nat) (H : Heap) (start merge left right : Ptr)
    (r : Heap × Ptr), merge_loop fuel H start merge left right = some r →
    merge_loop (fuel + 1) H start merge left right = some r := by
  intro fuel
  induction fuel with
  | zero => intro H start merge left right r h; simp [merge_loop] at h
  | succ fuel ih =>
    intro H start merge left right r h
    rw [merge_loop.eq_def] at h ⊢
    simp only at h ⊢
    split at h
    · rename_i hc; simp only [hc, and_self, if_true]; exact h
    · rename_i hc
      try simp only [hc, if_false]
      split at h
      · exact absurd h (by simp)
      · rename_i hcond
        try simp only [hcond]
        split at h
        · exact absurd h (by simp)
        · rename_i H1 s1 m1 hs
          try simp only [hs]
          split at h
          · exact absurd h (by simp)
          · rename_i ln hl
            try simp only [hl]
            exact ih _ _ _ _ _ _ h
      · rename_i hcond
        try simp only [hcond]
        split at h
        · exact absurd h (by simp)
        · rename_i H1 s1 m1 hs
          try simp only [hs]
          split at h
          · exact absurd h (by simp)
          · rename_i rn hr
            try simp only [hr]
            exact ih _ _ _ _ _ _ h

theorem split_succ (fuel : Nat) (H : Heap) (start : Ptr) (r : Heap × Ptr × Ptr)
    (h : split fuel H start = some r) : split (fuel + 1) H start = some r := by
  unfold split at h ⊢
  split at h
  · exact absurd h (by simp)
  · rename_i slow hs
    rw [split_loop_succ _ _ _ _ _ hs]
    exact h

theorem sort_succ : ∀ (fuel : Nat) (H : Heap) (start : Ptr) (r : Heap × Ptr),
    sort fuel H start = some r → sort (fuel + 1) H start = some r := by
  intro fuel
  induction fuel with
  | zero => intro H start r h; simp [sort] at h
  | succ fuel ih =>
    intro H start r h
    rw [sort.eq_def] at h ⊢
    simp only at h ⊢
    split at h
    · exact h
    · rename_i a
      split at h
      · exact absurd h (by simp)
      · rename_i n hn
        try simp only [hn]
        split at h
        · rename_i hnx; simp only [hnx, if_true]; exact h
        · rename_i hnx
          try simp only [hnx, if_false]
          split at h
          · exact absurd h (by simp)
          · rename_i H1 left right hs
            rw [split_succ _ _ _ _ hs]
            simp only
            split at h
            · exact absurd h (by simp)
            · rename_i H2 left1 hl
              rw [ih _ _ _ hl]
              simp only
              split at h
              · exact absurd h (by simp)
              · rename_i H3 right1 hr
                rw [ih _ _ _ hr]
                simp only
                exact merge_loop_succ _ _ _ _ _ _ _ h

theorem sort_mono {fuel fuel1 : Nat} (hle : fuel ≤ fuel1) {H : Heap} {start : Ptr}
    {r : Heap × Ptr} (h : sort fuel H start = some r) : sort fuel1 H start = some r := by
  induction hle with
  | refl => exact h
  | step _ ih => exact sort_succ _ _ _ _ ih

theorem tail_loop_mono {fuel fuel1 : Nat} (hle : fuel ≤ fuel1) {H : Heap} {tail : Ptr}
    {r : Ptr} (h : tail_loop fuel H tail = some r) : tail_loop fuel1 H tail = some r := by
  induction hle with
  | refl => exact h
  | step _ ih => exact tail_loop_succ _ _ _ _ ih

theorem reverse_loop_mono {fuel fuel1 : Nat} (hle : fuel ≤ fuel1) {H : Heap} {pre cur : Ptr}
    {r : Heap × Ptr} (h : reverse_loop fuel H pre cur = some r) :
    reverse_loop fuel1 H pre cur = some r := by
  induction hle with
  | refl => exact h
  | step _ ih => exact reverse_loop_succ _ _ _ _ _ ih


/-! ## `q_reverse` and the tail walk of `q_sort` -/

theorem reverse_loop_spec : ∀ (L : List Elem) (fuel : Nat) (H : Heap) (pre cur : Ptr)
    (P : List Elem), Chain H cur L → Chain H pre P → (addrs L ++ addrs P).Nodup →
    L.length < fuel →
    ∃ H1 p1, reverse_loop fuel H pre cur = some (H1, p1) ∧ Chain H1 p1 (L.reverse ++ P) ∧
      ∀ a, a ∉ addrs L → H1 a = H a := by
  intro L
  induction L with
  | nil =>
    intro fuel H pre cur P hc hp _ hfuel
    rw [chain_nil] at hc
    subst hc
    match fuel, hfuel with
    | fuel + 1, _ =>
      exact ⟨H, pre, by simp [reverse_loop], by simpa using hp, fun _ _ => rfl⟩
  | cons x L ih =>
    intro fuel H pre cur P hc hp hnd hfuel
    match fuel, hfuel with
    | fuel + 1, hfuel =>
      rw [chain_cons] at hc
      obtain ⟨hcur, nx, hx, hcl⟩ := hc
      subst hcur
      simp only [addrs, List.map_cons, List.cons_append, List.nodup_cons, List.mem_append,
        not_or] at hnd
      obtain ⟨⟨hxl, hxp⟩, hnd2⟩ := hnd
      have hP1 : Chain (H.set x.1 ⟨x.2, pre⟩) (some x.1) (x :: P) := by
        rw [chain_cons]
        exact ⟨rfl, pre, set_same _ _ _, chain_set hp hxp _⟩
      obtain ⟨H1, p1, h1, h2, h3⟩ := ih fuel (H.set x.1 ⟨x.2, pre⟩) (some x.1) nx (x :: P)
        (chain_set hcl hxl _) hP1
        (by
          have := List.nodup_append.1 hnd2
          simp only [addrs, List.map_cons]
          rw [List.nodup_append]
          refine ⟨this.1, List.nodup_cons.2 ⟨hxp, this.2.1⟩, ?_⟩
          intro a ha hb
          rcases List.mem_cons.1 hb with e | hb
          · exact hxl (e ▸ ha)
          · exact this.2.2 ha hb)
        (by simp only [List.length_cons] at hfuel; omega)
      refine ⟨H1, p1, ?_, ?_, ?_⟩
      · simp only [reverse_loop, hx]
        exact h1
      · simpa using h2
      · intro a ha
        simp only [addrs, List.map_cons, List.mem_cons, not_or] at ha
        rw [h3 a ha.2]
        exact set_other _ _ _ _ ha.1

theorem last_ptr_cons_cons (x y : Elem) (L : List Elem) :
    last_ptr (x :: y :: L) = last_ptr (y :: L) := by
  simp [last_ptr, List.getLast?_cons_cons]

theorem tail_loop_spec : ∀ (L : List Elem) (fuel : Nat) (H : Heap) (p : Ptr),
    Chain H p L → L ≠ [] → L.length ≤ fuel → tail_loop fuel H p = some (last_ptr L) := by
  intro L
  induction L with
  | nil => intro fuel H p _ hne; exact absurd rfl hne
  | cons x L ih =>
    intro fuel H p hc _ hfuel
    match fuel, hfuel with
    | fuel + 1, hfuel =>
      rw [chain_cons] at hc
      obtain ⟨hp, nx, hx, hcl⟩ := hc
      subst hp
      cases L with
      | nil =>
        rw [chain_nil] at hcl
        subst hcl
        simp [tail_loop, deref, hx, last_ptr]
      | cons y L =>
        have hy := ((chain_cons H nx y L).1 hcl).1
        have := ih fuel H nx hcl (by simp) (by simp only [List.length_cons] at hfuel ⊢; omega)
        rw [last_ptr_cons_cons]
        subst hy
        simp only [tail_loop, deref, hx]
        exact this

theorem last_ptr_append_cons (A B : List Elem) (y : Elem) :
    last_ptr (A ++ y :: B) = last_ptr (y :: B) := by
  simp only [last_ptr]
  rw [List.getLast?_append_of_ne_nil _ (by simp)]

theorem last_ptr_mem {L : List Elem} {t : Addr} (h : last_ptr L = some t) : t ∈ addrs L := by
  simp only [last_ptr, Option.map_eq_some'] at h
  obtain ⟨x, hx, hxt⟩ := h
  exact List.mem_map.2 ⟨x, List.mem_of_getLast?_eq_some hx, hxt⟩

theorem last_ptr_ne_none {L : List Elem} (h : L ≠ []) : ∃ t, last_ptr L = some t := by
  cases hl : L.getLast? with
  | none => exact absurd (List.getLast?_eq_none_iff.1 hl) h
  | some x => exact ⟨x.1, by simp [last_ptr, hl]⟩

/-- The tail walk of `q_sort` finds the last node of the chain from any node
of the chain. -/
theorem tail_loop_from_mem {H : Heap} {p : Ptr} {L : List Elem} (hc : Chain H p L) {t : Addr}
    (ht : t ∈ addrs L) (fuel : Nat) (hfuel : L.length ≤ fuel) :
    tail_loop fuel H (some t) = some (last_ptr L) := by
  obtain ⟨y, hy, hyt⟩ := List.mem_map.1 ht
  obtain ⟨A, B, hAB⟩ := List.append_of_mem hy
  subst hAB
  obtain ⟨m, hm⟩ := chain_append hc
  have hmy := ((chain_cons H m y B).1 hm).1
  rw [hmy, hyt] at hm
  rw [last_ptr_append_cons]
  apply tail_loop_spec _ _ _ _ hm (by simp)
  simp only [List.length_append, List.length_cons] at hfuel ⊢
  omega


/-! ## The operations on a queue that satisfies the invariant -/

theorem chain_alloc {H : Heap} {p : Ptr} {L : List Elem} (hc : Chain H p L) {a : Addr}
    (ha : a ∈ addrs L) : ∃ v nx, (a, v) ∈ L ∧ H a = some ⟨v, nx⟩ := by
  induction L generalizing p with
  | nil => simp [addrs] at ha
  | cons x L ih =>
    rw [chain_cons] at hc
    obtain ⟨_, nx, hx, hcl⟩ := hc
    simp only [addrs, List.map_cons, List.mem_cons] at ha
    rcases ha with e | ha
    · subst e
      exact ⟨x.2, nx, by simp, hx⟩
    · obtain ⟨v, n1, hm, h1⟩ := ih hcl ha
      exact ⟨v, n1, List.mem_cons_of_mem _ hm, h1⟩

theorem not_mem_of_fresh {H : Heap} {p : Ptr} {L : List Elem} (hc : Chain H p L) {a : Addr}
    (ha : H a = none) : a ∉ addrs L := by
  intro hm
  obtain ⟨v, nx, _, h⟩ := chain_alloc hc hm
  rw [ha] at h
  exact absurd h (by simp)

theorem inv_head {H : Heap} {q : queue_t} {L : List Elem} (h : Inv H q L) :
    q.head = none ↔ L = [] := by
  have := chain_head h.1
  cases L with
  | nil => simpa using this
  | cons x L => simp [this]

theorem inv_size {H : Heap} {q : queue_t} {L : List Elem} (h : Inv H q L) :
    q.size = 0 ↔ L = [] := by
  rw [h.2.1]
  cases L <;> simp
  omega

/-- The chain of a queue is determined by the heap and the queue structure. -/
theorem inv_unique {H : Heap} {q : queue_t} {L L1 : List Elem} (h : Inv H q L)
    (h1 : Inv H q L1) : L = L1 :=
  chain_unique h.1 h1.1

theorem q_sort_spec {H : Heap} {q : queue_t} {L : List Elem} (h : Inv H q L) (fuel : Nat)
    (hfuel : L.length + 2 ≤ fuel) :
    ∃ H1 q1, q_sort fuel H (some q) = some (H1, some q1) ∧ Inv H1 q1 (sort_list L) ∧
      q1.size = q.size ∧ ∀ a, a ∉ addrs L → H1 a = H a := by
  by_cases hL : L = []
  · subst hL
    have hh := (inv_head h).2 rfl
    refine ⟨H, q, by simp [q_sort, hh], ?_, rfl, fun _ _ => rfl⟩
    rw [sort_list_small (by simp)]
    exact h
  · have hh : ¬ q.head = none := fun e => hL ((inv_head h).1 e)
    obtain ⟨H1, p1, hs, hc1, hf⟩ := sort_spec L.length L rfl fuel H q.head h.1 hfuel
    have hperm := sort_list_perm _ L rfl
    obtain ⟨t, ht⟩ := last_ptr_ne_none hL
    have htail : q.tail = some t := by rw [h.2.2 hL, ht]
    have htm : t ∈ addrs (sort_list L) := (mem_addrs_perm hperm t).2 (last_ptr_mem ht)
    have htl := tail_loop_from_mem hc1 htm fuel (by rw [hperm.length_eq]; omega)
    refine ⟨H1, { q with head := p1, tail := last_ptr (sort_list L) }, ?_, ?_, rfl, hf⟩
    · simp [q_sort, hh, hs, htail, htl]
    · refine ⟨hc1, ?_, fun _ => rfl⟩
      simp only
      rw [h.2.1, hperm.length_eq]

theorem q_sort_mono {fuel fuel1 : Nat} (hle : fuel ≤ fuel1) {H : Heap} {q : Option queue_t}
    {r : Heap × Option queue_t} (h : q_sort fuel H q = some r) : q_sort fuel1 H q = some r := by
  unfold q_sort at h ⊢
  split at h
  · exact h
  · split at h
    · rename_i hc
      rw [if_pos hc]
      exact h
    · rename_i hc
      rw [if_neg hc]
      split at h
      · exact absurd h (by simp)
      · rename_i H1 head hs
        rw [sort_mono hle hs]
        simp only
        split at h
        · exact absurd h (by simp)
        · rename_i tail ht
          rw [tail_loop_mono hle ht]
          exact h

/-- Every run of `q_sort` that returns, whatever the fuel, leaves the chain
in the order `sort_list`. -/
theorem q_sort_run {H : Heap} {q : queue_t} {L : List Elem} (h : Inv H q L) {fuel : Nat}
    {r : Heap × Option queue_t} (hr : q_sort fuel H (some q) = some r) :
    ∃ H1 q1, r = (H1, some q1) ∧ Inv H1 q1 (sort_list L) ∧ q1.size = q.size ∧
      ∀ a, a ∉ addrs L → H1 a = H a := by
  obtain ⟨H1, q1, h1, h2, h3, h4⟩ := q_sort_spec h (max fuel (L.length + 2))
    (le_max_right _ _)
  have := q_sort_mono (le_max_left fuel (L.length + 2)) hr
  rw [h1] at this
  exact ⟨H1, q1, (Option.some.inj this).symm, h2, h3, h4⟩

theorem q_reverse_spec {H : Heap} {q : queue_t} {L : List Elem} (h : Inv H q L) (fuel : Nat)
    (hfuel : L.length < fuel) :
    ∃ H1 q1, q_reverse fuel H (some q) = some (H1, some q1) ∧ Inv H1 q1 L.reverse ∧
      q1.size = q.size ∧ (L ≠ [] → q1.tail = q.head ∧ q1.head = q.tail) ∧
      ∀ a, a ∉ addrs L → H1 a = H a := by
  by_cases hL : L = []
  · subst hL
    have hh := (inv_head h).2 rfl
    exact ⟨H, q, by simp [q_reverse, hh], by simpa using h, rfl, fun e => absurd rfl e,
      fun _ _ => rfl⟩
  · have hh : ¬ q.head = none := fun e => hL ((inv_head h).1 e)
    obtain ⟨H1, p1, hs, hc1, hf⟩ := reverse_loop_spec L fuel H none q.head [] h.1
      (by simp [chain_nil]) (by simpa [addrs] using chain_nodup h.1) hfuel
    simp only [List.append_nil] at hc1
    refine ⟨H1, { q with tail := q.head, head := p1 }, ?_, ?_, rfl, ?_, hf⟩
    · simp [q_reverse, hh, hs]
    · refine ⟨hc1, by simp only [List.length_reverse]; exact h.2.1, fun _ => ?_⟩
      simp only [last_ptr, List.getLast?_reverse]
      exact chain_head h.1
    · intro _
      refine ⟨rfl, ?_⟩
      simp only
      rw [chain_head hc1, h.2.2 hL, last_ptr, List.head?_reverse]

theorem q_reverse_mono {fuel fuel1 : Nat} (hle : fuel ≤ fuel1) {H : Heap}
    {q : Option queue_t} {r : Heap × Option queue_t} (h : q_reverse fuel H q = some r) :
    q_reverse fuel1 H q = some r := by
  unfold q_reverse at h ⊢
  split at h
  · exact h
  · split at h
    · rename_i hc
      rw [if_pos hc]
      exact h
    · rename_i hc
      rw [if_neg hc]
      split at h
      · exact absurd h (by simp)
      · rename_i H1 pre hs
        rw [reverse_loop_mono hle hs]
        exact h

theorem q_reverse_run {H : Heap} {q : queue_t} {L : List Elem} (h : Inv H q L) {fuel : Nat}
    {r : Heap × Option queue_t} (hr : q_reverse fuel H (some q) = some r) :
    ∃ H1 q1, r = (H1, some q1) ∧ Inv H1 q1 L.reverse ∧ q1.size = q.size ∧
      ∀ a, a ∉ addrs L → H1 a = H a := by
  obtain ⟨H1, q1, h1, h2, h3, _, h4⟩ := q_reverse_spec h (max fuel (L.length + 1))
    (by have := le_max_right fuel (L.length + 1); omega)
  have := q_reverse_mono (le_max_left fuel (L.length + 1)) hr
  rw [h1] at this
  exact ⟨H1, q1, (Option.some.inj this).symm, h2, h3, h4⟩


/-! ## Insertion and removal -/

theorem int_of_size_t_small {n : Nat} (h : n < 2 ^ 31) : int_of_size_t n = (n : Int) := by
  unfold int_of_size_t
  have h1 : n % 2 ^ 32 = n := Nat.mod_eq_of_lt (by omega)
  rw [h1, if_pos h]

theorem size_t_of_int_nat {n : Nat} (h : n < 2 ^ 64) : size_t_of_int (n : Int) = n := by
  unfold size_t_of_int
  have : ((n : Int) % 2 ^ 64) = (n : Int) := Int.emod_eq_of_lt (by omega) (by omega)
  rw [this]
  simp

theorem int_of_size_t_range (n : Nat) :
    -(2 : Int) ^ 31 ≤ int_of_size_t n ∧ int_of_size_t n < 2 ^ 31 := by
  unfold int_of_size_t
  split <;> omega

/-- The block asked for holds the byte at `str_len` whenever `str_len` is not
negative, also when `str_len + 1` wraps. -/
theorem string_block_size_gt (s : CStr) (h : 0 ≤ int_of_size_t (strlen s)) :
    int_of_size_t (strlen s) < (string_block_size s : Int) := by
  have hr := (int_of_size_t_range (strlen s)).2
  unfold string_block_size size_t_of_int to_int
  generalize int_of_size_t (strlen s) = k at h hr
  omega

/-- The copy is defined exactly when `str_len` is not negative, and is then
the first `str_len` bytes of the string. -/
theorem copy_string_nonneg (s : CStr) (h : 0 ≤ int_of_size_t (strlen s)) :
    copy_string s = some (s.take (size_t_of_int (int_of_size_t (strlen s)))) := by
  have h1 := string_block_size_gt s h
  unfold copy_string
  simp only
  rw [if_neg (by omega)]

/-- A string shorter than `INT_MAX` bytes is copied in full. -/
theorem copy_string_small {s : CStr} (h : s.length < 2 ^ 31 - 1) : copy_string s = some s := by
  have h0 : int_of_size_t (strlen s) = (s.length : Int) := by
    unfold strlen
    exact int_of_size_t_small (by omega)
  rw [copy_string_nonneg s (by rw [h0]; omega), h0, size_t_of_int_nat (by omega),
    List.take_length]

theorem q_insert_head_spec {H : Heap} {q : queue_t} {L : List Elem} (h : Inv H q L)
    {a : Addr} (ha : H a = none) {s str : CStr} (hs : copy_string s = some str) :
    q_insert_head H (some q) s (some a) true =
      some (H.set a ⟨str, q.head⟩,
        some ⟨some a, if q.head = none then some a else q.tail, q.size + 1⟩, true) ∧
    Inv (H.set a ⟨str, q.head⟩) ⟨some a, if q.head = none then some a else q.tail, q.size + 1⟩
      ((a, str) :: L) := by
  have hfresh := not_mem_of_fresh h.1 ha
  constructor
  · simp only [q_insert_head, hs]
    simp
  · refine ⟨?_, ?_, fun _ => ?_⟩
    · rw [chain_cons]
      exact ⟨rfl, q.head, set_same _ _ _, chain_set h.1 hfresh _⟩
    · simp only [List.length_cons]
      rw [h.2.1]
      push_cast
      rfl
    · simp only
      by_cases hL : L = []
      · subst hL
        simp [(inv_head h).2 rfl, last_ptr]
      · have hh : ¬ q.head = none := fun e => hL ((inv_head h).1 e)
        rw [if_neg hh, h.2.2 hL]
        obtain ⟨y, L1, rfl⟩ := List.exists_cons_of_ne_nil hL
        rw [last_ptr_cons_cons]

/-- Linking a fresh node after the last node of a chain. -/
theorem chain_snoc {H : Heap} {p : Ptr} {A : List Elem} {y : Elem} {a : Addr}
    (hc : Chain H p (A ++ [y])) (ha : a ∉ addrs (A ++ [y])) (str : CStr) :
    Chain ((H.set y.1 ⟨y.2, some a⟩).set a ⟨str, none⟩) p (A ++ [y] ++ [(a, str)]) := by
  have hnd := chain_nodup hc
  induction A generalizing p with
  | nil =>
    simp only [List.nil_append, List.singleton_append] at hc ha ⊢
    rw [chain_cons] at hc
    have hay : y.1 ≠ a := by
      intro e
      apply ha
      simp [addrs, e]
    rw [chain_cons]
    refine ⟨hc.1, some a, ?_, ?_⟩
    · rw [set_other _ _ _ _ hay, set_same]
    · rw [chain_cons]
      exact ⟨rfl, none, set_same _ _ _, by simp [chain_nil]⟩
  | cons x A ih =>
    simp only [List.cons_append] at hc ha hnd ⊢
    rw [chain_cons] at hc
    obtain ⟨hp, nx1, hx, hcl⟩ := hc
    simp only [addrs, List.map_cons, List.nodup_cons, List.mem_cons, not_or] at hnd ha
    have := ih hcl ha.2 hnd.2
    rw [chain_cons]
    refine ⟨hp, nx1, ?_, by simpa using this⟩
    rw [set_other _ _ _ _ (fun e => ha.1 e.symm), set_other]
    · exact hx
    · intro e
      apply hnd.1
      rw [e]
      simp

theorem last_ptr_snoc (L : List Elem) (x : Elem) : last_ptr (L ++ [x]) = some x.1 := by
  simp [last_ptr]

theorem q_insert_tail_spec {H : Heap} {q : queue_t} {L : List Elem} (h : Inv H q L)
    {a : Addr} (ha : H a = none) {s str : CStr} (hs : copy_string s = some str) :
    ∃ H1 q1, q_insert_tail H (some q) s (some a) true = some (H1, some q1, true) ∧
      Inv H1 q1 (L ++ [(a, str)]) ∧ q1.size = q.size + 1 ∧ q1.tail = some a ∧
      H1 a = some ⟨str, none⟩ ∧ (L ≠ [] → q1.head = q.head) ∧
      (∀ b, b ≠ a → q.tail ≠ some b → H1 b = H b) := by
  have hfresh := not_mem_of_fresh h.1 ha
  have hsize : ((L ++ [(a, str)]).length : Int) = q.size + 1 := by
    simp only [List.length_append, List.length_cons, List.length_nil]
    rw [h.2.1]
    push_cast
    rfl
  by_cases hL : L = []
  · subst hL
    have hh := (inv_head h).2 rfl
    refine ⟨H.set a ⟨str, none⟩, ⟨some a, some a, q.size + 1⟩, ?_, ⟨?_, hsize.symm, fun _ => ?_⟩,
      rfl, rfl, set_same _ _ _, fun e => absurd rfl e, fun b hb _ => set_other _ _ _ _ hb⟩
    · simp only [q_insert_tail, hs, hh]
      simp
    · simp only [List.nil_append]
      rw [chain_cons]
      exact ⟨rfl, none, set_same _ _ _, by simp [chain_nil]⟩
    · simp [last_ptr]
  · have hh : ¬ q.head = none := fun e => hL ((inv_head h).1 e)
    obtain ⟨A, y, rfl⟩ : ∃ A y, L = A ++ [y] := by
      rcases List.eq_nil_or_concat L with e | ⟨A, y, e⟩
      · exact absurd e hL
      · exact ⟨A, y, by simpa using e⟩
    have htail : q.tail = some y.1 := by rw [h.2.2 hL, last_ptr_snoc]
    obtain ⟨v, nx, hmem, hy⟩ := chain_alloc h.1 (a := y.1) (by simp [addrs])
    have hv : v = y.2 := by
      have hnd := chain_nodup h.1
      have h1 : (y.1, v) ∈ A ++ [y] := hmem
      have h2 : y ∈ A ++ [y] := by simp
      have hinj := List.inj_on_of_nodup_map hnd h1 h2 rfl
      exact congrArg Prod.snd hinj
    subst hv
    refine ⟨(H.set y.1 ⟨y.2, some a⟩).set a ⟨str, none⟩, ⟨q.head, some a, q.size + 1⟩, ?_,
      ⟨chain_snoc h.1 hfresh str, hsize.symm, fun _ => ?_⟩, rfl, rfl, set_same _ _ _,
      fun _ => rfl, ?_⟩
    · simp only [q_insert_tail, hs, if_neg hh, htail, set_next, hy]
      simp
    · simp only
      rw [last_ptr_snoc]
    · intro b hb hbt
      rw [set_other _ _ _ _ hb, set_other]
      intro e
      apply hbt
      rw [htail, e]

theorem q_remove_head_spec {H : Heap} {q : queue_t} {x : Elem} {L : List Elem}
    (h : Inv H q (x :: L)) (sp : Option Buf) (bufsize : Nat) :
    ∃ nx, H x.1 = some ⟨x.2, nx⟩ ∧
      q_remove_head H (some q) sp bufsize =
        some (H.free x.1, some { q with head := nx, size := q.size - 1 },
          sp.map (fun buf => strncpy (memset buf 0 bufsize) x.2 (size_t_sub bufsize 1)), true) ∧
      Inv (H.free x.1) { q with head := nx, size := q.size - 1 } L := by
  have hc := h.1
  rw [chain_cons] at hc
  obtain ⟨hp, nx, hx, hcl⟩ := hc
  have hnd := chain_nodup h.1
  simp only [addrs, List.map_cons, List.nodup_cons] at hnd
  have hsz : ¬ q.size = 0 := by
    rw [h.2.1]
    simp only [List.length_cons]
    omega
  refine ⟨nx, hx, ?_, chain_free hcl hnd.1, ?_, fun hL => ?_⟩
  · simp only [q_remove_head, if_neg hsz, hp, deref, hx]
    cases sp <;> simp
  · simp only
    rw [h.2.1]
    simp only [List.length_cons]
    push_cast
    omega
  · simp only
    rw [h.2.2 (by simp)]
    obtain ⟨y, L1, rfl⟩ := List.exists_cons_of_ne_nil hL
    rw [last_ptr_cons_cons]

theorem q_remove_head_empty {H : Heap} {q : queue_t} (h : Inv H q []) (sp : Option Buf)
    (bufsize : Nat) : q_remove_head H (some q) sp bufsize = some (H, some q, sp, false) := by
  have hsz : q.size = 0 := (inv_size h).2 rfl
  simp [q_remove_head, hsz]


/-! ## The order `sort` produces -/

theorem strcmp_le_of_not_lt {a b : CStr} (h : ¬ strcmp a b < 0) : strcmp b a ≤ 0 := by
  rw [strcmp_neg]
  omega

theorem merge_list_cons_left {x y : Elem} (A B : List Elem) (h : strcmp x.2 y.2 < 0) :
    merge_list (x :: A) (y :: B) = x :: merge_list A (y :: B) := by
  simp [merge_list, List.cons_merge_cons, takes_left, h]

theorem merge_list_cons_right {x y : Elem} (A B : List Elem) (h : ¬ strcmp x.2 y.2 < 0) :
    merge_list (x :: A) (y :: B) = y :: merge_list (x :: A) B := by
  simp [merge_list, List.cons_merge_cons, takes_left, h]

theorem mem_merge_list {z : Elem} {A B : List Elem} :
    z ∈ merge_list A B ↔ z ∈ A ∨ z ∈ B := List.mem_merge

theorem merge_list_pairwise (R : Elem → Elem → Prop)
    (hle : ∀ x y, R x y → strcmp x.2 y.2 ≤ 0) :
    ∀ (A B : List Elem), A.Pairwise R → B.Pairwise R →
      (∀ a ∈ A, ∀ b ∈ B, strcmp a.2 b.2 < 0 → R a b) →
      (∀ a ∈ A, ∀ b ∈ B, strcmp b.2 a.2 ≤ 0 → R b a) → (merge_list A B).Pairwise R := by
  intro A
  induction A with
  | nil => intro B _ hB _ _; simpa [merge_list] using hB
  | cons x A ihA =>
    intro B
    induction B with
    | nil => intro hA _ _ _; simpa [merge_list] using hA
    | cons y B ihB =>
      intro hA hB hAB hBA
      have hA1 := List.pairwise_cons.1 hA
      have hB1 := List.pairwise_cons.1 hB
      by_cases hcmp : strcmp x.2 y.2 < 0
      · rw [merge_list_cons_left A B hcmp, List.pairwise_cons]
        constructor
        · intro z hz
          rcases mem_merge_list.1 hz with hz | hz
          · exact hA1.1 z hz
          · apply hAB x (by simp) z hz
            rcases List.mem_cons.1 hz with e | hz
            · rw [e]; exact hcmp
            · exact strcmp_lt_of_lt_of_le _ _ _ hcmp (hle _ _ (hB1.1 z hz))
        · exact ihA (y :: B) hA1.2 hB
            (fun a ha b hb => hAB a (List.mem_cons_of_mem _ ha) b hb)
            (fun a ha b hb => hBA a (List.mem_cons_of_mem _ ha) b hb)
      · rw [merge_list_cons_right A B hcmp, List.pairwise_cons]
        have hyx := strcmp_le_of_not_lt hcmp
        constructor
        · intro z hz
          rcases mem_merge_list.1 hz with hz | hz
          · apply hBA z hz y (by simp)
            rcases List.mem_cons.1 hz with e | hz
            · rw [e]; exact hyx
            · exact strcmp_le_trans _ _ _ hyx (hle _ _ (hA1.1 z hz))
          · exact hB1.1 z hz
        · exact ihB hA hB1.2
            (fun a ha b hb => hAB a ha b (List.mem_cons_of_mem _ hb))
            (fun a ha b hb => hBA a ha b (List.mem_cons_of_mem _ hb))

theorem sort_list_pairwise : ∀ (n : Nat) (L : List Elem), L.length = n →
    (sort_list L).Pairwise (sorted_rel L) := by
  intro n
  induction n using Nat.strong_induction_on with
  | _ n ih =>
    intro L hn
    by_cases h : L.length ≤ 1
    · rw [sort_list_small h]
      match L, h with
      | [], _ => exact List.Pairwise.nil
      | [x], _ => exact List.pairwise_singleton _ _
    · rw [sort_list_big h]
      have h1 : left_len L.length < L.length := by unfold left_len; omega
      have h0 : 0 < left_len L.length := by unfold left_len; omega
      have hA := ih (L.take (left_len L.length)).length
        (by simp only [List.length_take]; omega) _ rfl
      have hB := ih (L.drop (left_len L.length)).length
        (by simp only [List.length_drop]; omega) _ rfl
      have hpA := sort_list_perm _ (L.take (left_len L.length)) rfl
      have hpB := sort_list_perm _ (L.drop (left_len L.length)) rfl
      apply merge_list_pairwise (sorted_rel L)
      · intro x y hxy
        rcases hxy with hlt | ⟨he, _⟩
        · exact le_of_lt hlt
        · exact le_of_eq he
      · refine hA.imp ?_
        intro x y hxy
        rcases hxy with hlt | ⟨he, hs⟩
        · exact Or.inl hlt
        · exact Or.inr ⟨he, hs.trans (List.take_sublist _ _)⟩
      · refine hB.imp ?_
        intro x y hxy
        rcases hxy with hlt | ⟨he, hs⟩
        · exact Or.inl hlt
        · exact Or.inr ⟨he, hs.trans (List.drop_sublist _ _)⟩
      · intro a _ b _ hlt
        exact Or.inl hlt
      · intro a ha b hb hle
        rcases lt_or_eq_of_le hle with hlt | he
        · exact Or.inl hlt
        · refine Or.inr ⟨he, ?_⟩
          have ha1 : [a].Sublist (L.take (left_len L.length)) :=
            List.singleton_sublist.2 (hpA.mem_iff.1 ha)
          have hb1 : [b].Sublist (L.drop (left_len L.length)) :=
            List.singleton_sublist.2 (hpB.mem_iff.1 hb)
          have := List.Sublist.append ha1 hb1
          rw [List.take_append_drop] at this
          simpa using this

theorem sort_list_ascending (L : List Elem) : Ascending (payloads (sort_list L)) := by
  unfold Ascending payloads
  rw [List.pairwise_map]
  refine (sort_list_pairwise _ L rfl).imp ?_
  intro x y hxy
  rcases hxy with hlt | ⟨he, _⟩
  · exact le_of_lt hlt
  · exact le_of_eq he

theorem pair_sublist_or {α : Type} {x y : α} : ∀ {l : List α}, x ∈ l → y ∈ l → x ≠ y →
    List.Sublist [x, y] l ∨ List.Sublist [y, x] l := by
  intro l
  induction l with
  | nil => intro hx; simp at hx
  | cons z l ih =>
    intro hx hy hne
    rcases List.mem_cons.1 hx with ex | hx
    · rcases List.mem_cons.1 hy with ey | hy
      · exact absurd (ex.trans ey.symm) hne
      · left
        rw [ex]
        exact List.Sublist.cons₂ _ (List.singleton_sublist.2 hy)
    · rcases List.mem_cons.1 hy with ey | hy
      · right
        rw [ey]
        exact List.Sublist.cons₂ _ (List.singleton_sublist.2 hx)
      · rcases ih hx hy hne with h | h
        · exact Or.inl (List.Sublist.cons _ h)
        · exact Or.inr (List.Sublist.cons _ h)

theorem pair_sublist_asymm {α : Type} {x y : α} {l : List α} (hnd : l.Nodup)
    (h : List.Sublist [x, y] l) : ¬ List.Sublist [y, x] l := by
  intro h1
  have h2 : List.Pairwise (· ≠ ·) [x, y] := List.Pairwise.sublist h hnd
  have h3 : List.Pairwise (· ≠ ·) [y, x] := List.Pairwise.sublist h1 hnd
  induction l with
  | nil => simp at h
  | cons z l ih =>
    have hz := List.nodup_cons.1 hnd
    cases h with
    | cons _ h =>
      cases h1 with
      | cons _ h1 => exact ih hz.2 h h1
      | cons₂ _ h1 =>
        have : x ∈ l := List.singleton_sublist.1 h1
        have : y ∈ l := (List.Sublist.subset h) (by simp)
        exact hz.1 this
    | cons₂ _ h =>
      cases h1 with
      | cons _ h1 =>
        have : x ∈ l := (List.Sublist.subset h1) (by simp)
        exact hz.1 this
      | cons₂ _ h1 =>
        have : x ∈ l := List.singleton_sublist.1 h1
        exact hz.1 this

theorem nodup_of_addrs {L : List Elem} (h : (addrs L).Nodup) : L.Nodup :=
  List.Nodup.of_map _ h

/-- Nodes with equal payloads come out of `sort` in the reverse of their
original order. -/
theorem sort_list_ties_reversed {L : List Elem} (hnd : (addrs L).Nodup) {x y : Elem}
    (hxy : List.Sublist [x, y] L) (he : strcmp x.2 y.2 = 0) :
    List.Sublist [y, x] (sort_list L) := by
  have hndL := nodup_of_addrs hnd
  have hperm := sort_list_perm _ L rfl
  have hx : x ∈ sort_list L := hperm.mem_iff.2 (hxy.subset (by simp))
  have hy : y ∈ sort_list L := hperm.mem_iff.2 (hxy.subset (by simp))
  have hne : x ≠ y := by
    have h2 : List.Pairwise (· ≠ ·) [x, y] := List.Pairwise.sublist hxy hndL
    simpa using h2
  rcases pair_sublist_or hx hy hne with h | h
  · exfalso
    have hp := List.Pairwise.sublist h (sort_list_pairwise _ L rfl)
    simp only [List.pairwise_cons, List.mem_singleton, forall_eq] at hp
    rcases hp.1 with hlt | ⟨_, hs⟩
    · omega
    · exact pair_sublist_asymm hndL hxy hs
  · exact h


/-! ## The invariant holds in every reachable state -/

theorem inv_new (H : Heap) {q : queue_t} (h : q_new true = some q) : Inv H q [] := by
  simp only [q_new, Bool.not_true, Bool.false_eq_true, if_false, Option.some.injEq] at h
  subst h
  exact ⟨by simp [chain_nil], rfl, fun e => absurd rfl e⟩

theorem q_insert_head_inv {H : Heap} {q : queue_t} {L : List Elem} (h : Inv H q L)
    {s : CStr} {newh : Ptr} {str_ok : Bool} (hf : ∀ a, newh = some a → H a = none)
    {H1 : Heap} {q1 : queue_t} {b : Bool}
    (hr : q_insert_head H (some q) s newh str_ok = some (H1, some q1, b)) :
    (b = false ∧ H1 = H ∧ q1 = q) ∨
    (b = true ∧ ∃ a str, newh = some a ∧ str_ok = true ∧ copy_string s = some str ∧
      H1 = H.set a ⟨str, q.head⟩ ∧
      q1 = ⟨some a, if q.head = none then some a else q.tail, q.size + 1⟩ ∧
      Inv H1 q1 ((a, str) :: L)) := by
  cases newh with
  | none =>
    simp only [q_insert_head, Option.some.injEq, Prod.mk.injEq] at hr
    exact Or.inl ⟨hr.2.2.symm, hr.1.symm, hr.2.1.symm⟩
  | some a =>
    cases str_ok with
    | false =>
      simp only [q_insert_head, Bool.not_false, if_true, Option.some.injEq, Prod.mk.injEq] at hr
      exact Or.inl ⟨hr.2.2.symm, hr.1.symm, hr.2.1.symm⟩
    | true =>
      cases hs : copy_string s with
      | none =>
        simp [q_insert_head, hs] at hr
      | some str =>
        obtain ⟨h1, h2⟩ := q_insert_head_spec h (hf a rfl) hs
        rw [h1] at hr
        simp only [Option.some.injEq, Prod.mk.injEq] at hr
        obtain ⟨e1, e2, e3⟩ := hr
        subst e1 e2 e3
        exact Or.inr ⟨rfl, a, str, rfl, rfl, rfl, rfl, rfl, h2⟩

theorem q_insert_tail_inv {H : Heap} {q : queue_t} {L : List Elem} (h : Inv H q L)
    {s : CStr} {newt : Ptr} {str_ok : Bool} (hf : ∀ a, newt = some a → H a = none)
    {H1 : Heap} {q1 : queue_t} {b : Bool}
    (hr : q_insert_tail H (some q) s newt str_ok = some (H1, some q1, b)) :
    (b = false ∧ H1 = H ∧ q1 = q) ∨
    (b = true ∧ ∃ a str, newt = some a ∧ str_ok = true ∧ copy_string s = some str ∧
      Inv H1 q1 (L ++ [(a, str)]) ∧ q1.size = q.size + 1 ∧ q1.tail = some a) := by
  cases newt with
  | none =>
    simp only [q_insert_tail, Option.some.injEq, Prod.mk.injEq] at hr
    exact Or.inl ⟨hr.2.2.symm, hr.1.symm, hr.2.1.symm⟩
  | some a =>
    cases str_ok with
    | false =>
      simp only [q_insert_tail, Bool.not_false, if_true, Option.some.injEq, Prod.mk.injEq] at hr
      exact Or.inl ⟨hr.2.2.symm, hr.1.symm, hr.2.1.symm⟩
    | true =>
      cases hs : copy_string s with
      | none =>
        simp [q_insert_tail, hs] at hr
      | some str =>
        obtain ⟨H2, q2, h1, h2, h3, h4, _⟩ := q_insert_tail_spec h (hf a rfl) hs
        rw [h1] at hr
        simp only [Option.some.injEq, Prod.mk.injEq] at hr
        obtain ⟨e1, e2, e3⟩ := hr
        subst e1 e2 e3
        exact Or.inr ⟨rfl, a, str, rfl, rfl, rfl, h2, h3, h4⟩

theorem q_remove_head_inv {H : Heap} {q : queue_t} {L : List Elem} (h : Inv H q L)
    {sp : Option Buf} {bufsize : Nat} {H1 : Heap} {q1 : queue_t} {sp1 : Option Buf} {b : Bool}
    (hr : q_remove_head H (some q) sp bufsize = some (H1, some q1, sp1, b)) :
    (b = false ∧ L = [] ∧ H1 = H ∧ q1 = q ∧ sp1 = sp) ∨
    (b = true ∧ ∃ x L1 nx, L = x :: L1 ∧ H x.1 = some ⟨x.2, nx⟩ ∧ H1 = H.free x.1 ∧
      q1 = { q with head := nx, size := q.size - 1 } ∧ Inv H1 q1 L1) := by
  cases L with
  | nil =>
    rw [q_remove_head_empty h] at hr
    simp only [Option.some.injEq, Prod.mk.injEq] at hr
    exact Or.inl ⟨hr.2.2.2.symm, rfl, hr.1.symm, hr.2.1.symm, hr.2.2.1.symm⟩
  | cons x L1 =>
    obtain ⟨nx, hx, h1, h2⟩ := q_remove_head_spec h sp bufsize
    rw [h1] at hr
    simp only [Option.some.injEq, Prod.mk.injEq] at hr
    obtain ⟨e1, e2, _, e4⟩ := hr
    subst e1 e2 e4
    exact Or.inr ⟨rfl, x, L1, nx, rfl, hx, rfl, rfl, h2⟩

/-- Every reachable state satisfies the representation invariant. -/
theorem reachable_inv {H : Heap} {q : queue_t} (h : Reachable H q) : ∃ L, Inv H q L := by
  induction h with
  | new H q hq => exact ⟨[], inv_new H hq⟩
  | insert_head s newh str_ok _ hf hr ih =>
    obtain ⟨L, hL⟩ := ih
    rcases q_insert_head_inv hL hf hr with ⟨_, e1, e2⟩ | ⟨_, a, str, _, _, _, _, _, hI⟩
    · subst e1 e2; exact ⟨L, hL⟩
    · exact ⟨_, hI⟩
  | insert_tail s newt str_ok _ hf hr ih =>
    obtain ⟨L, hL⟩ := ih
    rcases q_insert_tail_inv hL hf hr with ⟨_, e1, e2⟩ | ⟨_, a, str, _, _, _, hI, _⟩
    · subst e1 e2; exact ⟨L, hL⟩
    · exact ⟨_, hI⟩
  | remove_head sp bufsize _ hr ih =>
    obtain ⟨L, hL⟩ := ih
    rcases q_remove_head_inv hL hr with ⟨_, _, e1, e2, _⟩ | ⟨_, x, L1, nx, _, _, _, _, hI⟩
    · subst e1 e2; exact ⟨L, hL⟩
    · exact ⟨_, hI⟩
  | reverse fuel _ hr ih =>
    obtain ⟨L, hL⟩ := ih
    obtain ⟨H2, q2, e, hI, _⟩ := q_reverse_run hL hr
    simp only [Prod.mk.injEq, Option.some.injEq] at e
    obtain ⟨e1, e2⟩ := e
    subst e1 e2
    exact ⟨_, hI⟩
  | sort fuel _ hr ih =>
    obtain ⟨L, hL⟩ := ih
    obtain ⟨H2, q2, e, hI, _⟩ := q_sort_run hL hr
    simp only [Prod.mk.injEq, Option.some.injEq] at e
    obtain ⟨e1, e2⟩ := e
    subst e1 e2
    exact ⟨_, hI⟩

theorem reachable_of_basic {H : Heap} {q : queue_t} (h : ReachableBasic H q) :
    Reachable H q := by
  induction h with
  | new H q hq => exact Reachable.new H q hq
  | insert_head s newh str_ok _ hf hr ih => exact Reachable.insert_head s newh str_ok ih hf hr
  | insert_tail s newt str_ok _ hf hr ih => exact Reachable.insert_tail s newt str_ok ih hf hr
  | remove_head sp bufsize _ hr ih => exact Reachable.remove_head sp bufsize ih hr


/-! ## The output buffer of `q_remove_head` -/

theorem size_t_sub_one {n : Nat} (h1 : 1 ≤ n) (h2 : n < 2 ^ 64) : size_t_sub n 1 = n - 1 := by
  unfold size_t_sub
  norm_num at h2 ⊢
  omega

theorem bytes_getD_pos (v : CStr) {i : Nat} (h : i < v.length) : (bytes v).getD i 0 ≠ 0 := by
  unfold bytes
  rw [List.getD_eq_getElem _ _ (by simpa using h)]
  simp only [List.getElem_map]
  have := (v[i]).2.1
  omega

theorem strncpy_memset_apply (buf : Buf) (v : CStr) {n : Nat} (h1 : 1 ≤ n) (h2 : n < 2 ^ 64)
    {i : Nat} (hi : i < n) :
    strncpy (memset buf 0 n) v (size_t_sub n 1) i =
      if i < min (strlen v) (n - 1) then (bytes v).getD i 0 else 0 := by
  rw [size_t_sub_one h1 h2]
  unfold strncpy memset strlen bytes
  by_cases hlt : i < n - 1
  · simp only [hlt, if_true]
    by_cases hl : i < v.length
    · have : i < min v.length (n - 1) := by omega
      rw [if_pos this, List.get?_eq_getElem?, List.getElem?_eq_getElem hl,
        List.getD_eq_getElem _ _ (by simpa using hl), List.getElem_map]
    · have : ¬ i < min v.length (n - 1) := by omega
      rw [if_neg this, List.get?_eq_getElem?, List.getElem?_eq_none (by omega)]
  · have : ¬ i < min v.length (n - 1) := by omega
    simp only [hlt, if_false, hi, if_true, this]

theorem read_cstr_eq : ∀ (v : CStr) (buf : Buf) (cap : Nat),
    (∀ i, i < v.length → buf i = (bytes v).getD i 0) → buf v.length = 0 → v.length < cap →
    read_cstr buf cap = bytes v := by
  intro v
  induction v with
  | nil =>
    intro buf cap _ h0 hcap
    match cap, hcap with
    | cap + 1, _ =>
      simp only [List.length_nil] at h0
      simp [read_cstr, List.range_succ_eq_map, h0, bytes]
  | cons x v ih =>
    intro buf cap hb h0 hcap
    match cap, hcap with
    | cap + 1, hcap =>
      have hx : buf 0 = x.val := by
        have := hb 0 (by simp)
        simpa [bytes] using this
      have hxne : buf 0 ≠ 0 := by
        rw [hx]
        have := x.2.1
        omega
      have := ih (fun i => buf (i + 1)) cap
        (by
          intro i hi
          have := hb (i + 1) (by simpa using hi)
          simpa [bytes] using this)
        (by simpa using h0) (by simpa using hcap)
      simp only [read_cstr, List.range_succ_eq_map, List.map_cons, List.map_map] at this ⊢
      rw [List.takeWhile_cons_of_pos (by simpa using hxne)]
      simp only [bytes, List.map_cons, hx, List.cons.injEq, true_and]
      exact this

theorem read_cstr_remove {v : CStr} {cap : Nat} (h1 : v.length < cap) (h2 : cap < 2 ^ 64) :
    read_cstr (strncpy (memset (fun _ => 0) 0 cap) v (size_t_sub cap 1)) cap = bytes v := by
  apply read_cstr_eq
  · intro i hi
    rw [strncpy_memset_apply _ _ (by omega) h2 (by omega)]
    have : i < min (strlen v) (cap - 1) := by unfold strlen; omega
    rw [if_pos this]
  · rw [strncpy_memset_apply _ _ (by omega) h2 h1]
    have : ¬ v.length < min (strlen v) (cap - 1) := by unfold strlen; omega
    rw [if_neg this]
  · exact h1

theorem remove_all_spec : ∀ (L : List Elem) (H : Heap) (q : queue_t) (cap : Nat),
    Inv H q L → (∀ v ∈ payloads L, strlen v < cap) → cap < 2 ^ 64 →
    ∃ H1 q1, remove_all L.length H (some q) cap = some ((payloads L).map bytes, H1, some q1) ∧
      Inv H1 q1 [] := by
  intro L
  induction L with
  | nil =>
    intro H q cap h _ _
    exact ⟨H, q, by simp [remove_all, payloads], h⟩
  | cons x L ih =>
    intro H q cap h hlen hcap
    obtain ⟨nx, hx, h1, h2⟩ := q_remove_head_spec h (some (fun _ => 0)) cap
    obtain ⟨H1, q1, h3, h4⟩ := ih _ _ cap h2
      (fun v hv => hlen v (by simp only [payloads, List.map_cons] at hv ⊢
                              exact List.mem_cons_of_mem _ hv)) hcap
    refine ⟨H1, q1, ?_, h4⟩
    have hxl : x.2.length < cap := hlen x.2 (by simp [payloads])
    simp only [List.length_cons, remove_all, h1, Option.map_some', h3, payloads, List.map_cons,
      read_cstr_remove hxl hcap]


/-! ## The last node of a chain -/

theorem chain_last {H : Heap} {p : Ptr} {L : List Elem} (hc : Chain H p L) {y : Elem}
    (hy : L.getLast? = some y) : H y.1 = some ⟨y.2, none⟩ := by
  induction L generalizing p with
  | nil => simp at hy
  | cons x L ih =>
    rw [chain_cons] at hc
    obtain ⟨_, nx, hx, hcl⟩ := hc
    cases L with
    | nil =>
      rw [chain_nil] at hcl
      simp only [List.getLast?_singleton, Option.some.injEq] at hy
      subst hy hcl
      exact hx
    | cons z L =>
      rw [List.getLast?_cons_cons] at hy
      exact ih hcl hy

theorem chain_inner {H : Heap} {p : Ptr} {L : List Elem} (hc : Chain H p L) {x : Elem}
    (hx : x ∈ L) : ∃ nx, H x.1 = some ⟨x.2, nx⟩ ∧ (last_ptr L ≠ some x.1 → nx ≠ none) := by
  induction L generalizing p with
  | nil => simp at hx
  | cons z L ih =>
    have hnd := chain_nodup hc
    rw [chain_cons] at hc
    obtain ⟨_, nz, hz, hcl⟩ := hc
    cases L with
    | nil =>
      simp only [List.mem_singleton] at hx
      subst hx
      exact ⟨nz, hz, fun h => absurd (by simp [last_ptr]) h⟩
    | cons w L =>
      rw [last_ptr_cons_cons]
      rcases List.mem_cons.1 hx with e | hx
      · subst e
        refine ⟨nz, hz, fun _ => ?_⟩
        rw [((chain_cons H nz w L).1 hcl).1]
        simp
      · exact ih hcl hx

/-- The result of `q_sort` is the same for every fuel that is large enough. -/
theorem q_sort_total {H : Heap} {q : queue_t} {L : List Elem} (h : Inv H q L) :
    ∃ H1 q1, (∀ fuel, L.length + 2 ≤ fuel → q_sort fuel H (some q) = some (H1, some q1)) ∧
      Inv H1 q1 (sort_list L) ∧ q1.size = q.size ∧ ∀ a, a ∉ addrs L → H1 a = H a := by
  obtain ⟨H1, q1, h1, h2, h3, h4⟩ := q_sort_spec h (L.length + 2) (le_refl _)
  exact ⟨H1, q1, fun fuel hf => q_sort_mono hf h1, h2, h3, h4⟩

/-- The result of `q_reverse` is the same for every fuel that is large enough. -/
theorem q_reverse_total {H : Heap} {q : queue_t} {L : List Elem} (h : Inv H q L) :
    ∃ H1 q1, (∀ fuel, L.length < fuel → q_reverse fuel H (some q) = some (H1, some q1)) ∧
      Inv H1 q1 L.reverse ∧ q1.size = q.size ∧
      (L ≠ [] → q1.tail = q.head ∧ q1.head = q.tail) ∧ ∀ a, a ∉ addrs L → H1 a = H a := by
  obtain ⟨H1, q1, h1, h2, h3, h4, h5⟩ := q_reverse_spec h (L.length + 1)
    (Nat.lt_succ_self _)
  exact ⟨H1, q1, fun fuel hf => q_reverse_mono hf h1, h2, h3, h4, h5⟩

/-! ## What `q_size` returns, and some reachable states -/

theorem to_int_of_range {i : Int} (h1 : -(2 : Int) ^ 31 ≤ i) (h2 : i < 2 ^ 31) :
    to_int i = i := by
  unfold to_int
  omega

theorem q_size_of_inv {H : Heap} {q : queue_t} {L : List Elem} (h : Inv H q L) :
    q_size (some q) = to_int (L.length : Int) := by
  simp only [q_size]
  rw [h.2.1]

theorem q_size_of_inv_small {H : Heap} {q : queue_t} {L : List Elem} (h : Inv H q L)
    (hl : L.length < 2 ^ 31) : q_size (some q) = (L.length : Int) := by
  rw [q_size_of_inv h]
  exact to_int_of_range (by omega) (by omega)

theorem q_size_empty {H : Heap} {q : queue_t} (h : Inv H q []) : q_size (some q) = 0 :=
  q_size_of_inv_small h (by simp)

theorem reachable_b : Reachable b_heap b_queue :=
  Reachable.insert_tail str_b (some 1) true (Reachable.new Heap.empty new_queue rfl)
    (fun _ _ => rfl) rfl

theorem reachable_ba : Reachable ba_heap ba_queue :=
  Reachable.insert_tail str_a (some 2) true reachable_b (fun a h => by cases h; rfl) rfl

theorem reachable_bac : Reachable bac_heap bac_queue :=
  Reachable.insert_tail str_c (some 3) true reachable_ba (fun a h => by cases h; rfl) rfl

theorem many_step (n : Nat) :
    q_insert_head (many_heap n) (some (many_queue n)) str_a (some (n + 1)) true =
      some (many_heap (n + 1), some (many_queue (n + 1)), true) := by
  have hs : copy_string str_a = some str_a := copy_string_small (by decide)
  simp only [q_insert_head, hs, Bool.not_true, Bool.false_eq_true, if_false,
    Option.some.injEq, Prod.mk.injEq, and_true]
  constructor
  · funext a
    revert a
    intro (a : Nat)
    unfold Heap.set many_heap many_queue
    by_cases h1 : a = n + 1
    · subst h1
      by_cases hn : n = 0
      · subst hn
        simp
      · have h2 : ¬ (n + 1 = 1) := by omega
        simp [hn, h2]
    · by_cases h2 : 1 ≤ a ∧ a ≤ n
      · have h3 : 1 ≤ a ∧ a ≤ n + 1 := by omega
        simp [h1, h2, h3]
      · have h3 : ¬ (1 ≤ a ∧ a ≤ n + 1) := by omega
        simp [h1, h2, h3]
  · unfold many_queue
    by_cases hn : n = 0
    · subst hn
      simp
    · simp [hn]

/-- The state after any number of insertions at the head is reachable. -/
theorem reachable_many : ∀ n : Nat, Reachable (many_heap n) (many_queue n) := by
  intro n
  induction n with
  | zero => exact Reachable.new _ _ rfl
  | succ n ih =>
    refine Reachable.insert_head str_a (some (n + 1)) true ih ?_ (many_step n)
    intro a ha
    cases ha
    unfold many_heap
    rw [if_neg (by omega)]

/-! ## Sorting: order, permutation, ties -/

/-- Claim C2: for every queue that satisfies the representation invariant,
the chain after `q_sort` is a permutation of the chain before it, as a list of
nodes with their payloads: no node is lost, duplicated, added or changed in
value, the length and the stored count are unchanged, so is what `q_size`
returns (the length itself when it is below `2 ^ 31`), and no cell outside
the chain is written. -/
theorem q_sort_permutation (H : Heap) (q : queue_t) (L : List Elem) (h : Inv H q L) :
    ∃ H1 q1 L1,
      (∀ fuel, L.length + 2 ≤ fuel → q_sort fuel H (some q) = some (H1, some q1)) ∧
      Chain H1 q1.head L1 ∧ L1.Perm L ∧ L1.length = L.length ∧ q1.size = q.size ∧
      q1.size = (L.length : Int) ∧ q_size (some q1) = q_size (some q) ∧
      (L.length < 2 ^ 31 → q_size (some q1) = (L.length : Int)) ∧
      (∀ a, a ∉ addrs L → H1 a = H a) ∧
      ∀ a v nx, H a = some ⟨v, nx⟩ → ∃ nx1, H1 a = some ⟨v, nx1⟩ := by
  obtain ⟨H1, q1, h1, h2, h3, h4⟩ := q_sort_total h
  have hperm := sort_list_perm _ L rfl
  refine ⟨H1, q1, sort_list L, h1, h2.1, hperm, hperm.length_eq, h3, ?_, ?_, ?_, h4, ?_⟩
  · rw [h3, h.2.1]
  · simp only [q_size]
    rw [h3]
  · intro hl
    simp only [q_size]
    rw [h3, h.2.1]
    exact to_int_of_range (by omega) (by omega)
  · intro a v nx ha
    by_cases hm : a ∈ addrs L
    · obtain ⟨v1, n1, hmem, hv1⟩ := chain_alloc h.1 hm
      rw [ha] at hv1
      have hv : v = v1 := congrArg list_ele_t.value (Option.some.inj hv1)
      subst hv
      have hmem1 : (a, v) ∈ sort_list L := hperm.mem_iff.2 hmem
      obtain ⟨nx1, hx1, _⟩ := chain_inner h2.1 hmem1
      exact ⟨nx1, hx1⟩
    · exact ⟨nx, by rw [h4 a hm, ha]⟩

theorem q_sort_permutation_witness :
    Inv bac_heap bac_queue bac_chain ∧
    ∃ H1 q1 L1,
      (∀ fuel, bac_chain.length + 2 ≤ fuel →
        q_sort fuel bac_heap (some bac_queue) = some (H1, some q1)) ∧
      Chain H1 q1.head L1 ∧ L1.Perm bac_chain ∧ L1.length = bac_chain.length ∧
      q1.size = bac_queue.size ∧
      q1.size = (bac_chain.length : Int) ∧ q_size (some q1) = q_size (some bac_queue) ∧
      (bac_chain.length < 2 ^ 31 → q_size (some q1) = (bac_chain.length : Int)) ∧
      (∀ a, a ∉ addrs bac_chain → H1 a = bac_heap a) ∧
      ∀ a v nx, bac_heap a = some ⟨v, nx⟩ → ∃ nx1, H1 a = some ⟨v, nx1⟩ :=
  ⟨by decide, q_sort_permutation bac_heap bac_queue bac_chain (by decide)⟩


/-- Claim C3, as the code has it: `q_sort` is not stable but reverses ties.
For every queue that satisfies the representation invariant and every two
nodes whose payloads compare equal, the one that came first before the sort
comes after the other one afterwards.  In the merge step, on two non-empty
chains, the left head is selected exactly when its payload compares strictly
below the right head, so the right head is selected when the two compare
equal. -/
theorem q_sort_ties_reversed :
    (∀ (H : Heap) (q : queue_t) (L : List Elem), Inv H q L →
      ∃ H1 q1 L1,
        (∀ fuel, L.length + 2 ≤ fuel → q_sort fuel H (some q) = some (H1, some q1)) ∧
        Chain H1 q1.head L1 ∧
        ∀ x y, List.Sublist [x, y] L → strcmp x.2 y.2 = 0 → List.Sublist [y, x] L1) ∧
    (∀ (H : Heap) (start left right : Ptr) (x y : Elem) (Ll Lr : List Elem),
      Chain H left (x :: Ll) → Chain H right (y :: Lr) →
      (addrs (x :: Ll) ++ addrs (y :: Lr)).Nodup →
      ∀ fuel, (x :: Ll).length + (y :: Lr).length < fuel →
        ∃ H1 p, merge_loop fuel H start none left right = some (H1, p) ∧
          p = (if strcmp x.2 y.2 < 0 then left else right) ∧
          (strcmp x.2 y.2 = 0 → p = right)) := by
  constructor
  · intro H q L h
    obtain ⟨H1, q1, h1, h2, _, _⟩ := q_sort_total h
    exact ⟨H1, q1, sort_list L, h1, h2.1,
      fun x y hxy he => sort_list_ties_reversed (chain_nodup h.1) hxy he⟩
  · intro H start left right x y Ll Lr hl hr hnd fuel hfuel
    obtain ⟨H1, p, h1, h2, _⟩ := merge_start_spec start hl hr (by simp) hnd fuel hfuel
    have hleft := ((chain_cons H left x Ll).1 hl).1
    have hright := ((chain_cons H right y Lr).1 hr).1
    have hp : p = (if strcmp x.2 y.2 < 0 then left else right) := by
      by_cases hcmp : strcmp x.2 y.2 < 0
      · rw [merge_list_cons_left _ _ hcmp, chain_cons] at h2
        rw [if_pos hcmp, h2.1, hleft]
      · rw [merge_list_cons_right _ _ hcmp, chain_cons] at h2
        rw [if_neg hcmp, h2.1, hright]
    refine ⟨H1, p, h1, hp, fun he => ?_⟩
    rw [hp, if_neg (by omega)]

theorem q_sort_ties_reversed_witness :
    (Inv tie_heap tie_queue tie_chain ∧
      ∃ H1 q1 L1,
        (∀ fuel, tie_chain.length + 2 ≤ fuel →
          q_sort fuel tie_heap (some tie_queue) = some (H1, some q1)) ∧
        Chain H1 q1.head L1 ∧
        ∀ x y, List.Sublist [x, y] tie_chain → strcmp x.2 y.2 = 0 → List.Sublist [y, x] L1) ∧
    (Chain two_heap (some 1) [(1, str_a)] ∧ Chain two_heap (some 2) [(2, str_a)] ∧
      (addrs [(1, str_a)] ++ addrs [(2, str_a)]).Nodup ∧
      [(1, str_a)].length + [(2, str_a)].length < 3 ∧
      ∃ H1 p, merge_loop 3 two_heap none none (some 1) (some 2) = some (H1, p) ∧
        p = (if strcmp str_a str_a < 0 then some 1 else some 2) ∧
        (strcmp str_a str_a = 0 → p = some 2)) :=
  ⟨⟨by decide, q_sort_ties_reversed.1 tie_heap tie_queue tie_chain (by decide)⟩,
    by decide, by decide, by decide, by decide,
    q_sort_ties_reversed.2 two_heap none (some 1) (some 2) (1, str_a) (2, str_a) [] []
      (by decide) (by decide) (by decide) 3 (by decide)⟩

/-- Counterexample to claim C3 as stated: on the queue holding `"a"` in the
nodes 1 and 2, in this order, `q_sort` returns the chain with node 2 first and
node 1 second, and the test of the merge loop on the two equal heads selects
the right one. -/
theorem q_sort_not_stable :
    Inv tie_heap tie_queue [(1, str_a), (2, str_a)] ∧ strcmp str_a str_a = 0 ∧
    (∃ H1 q1, q_sort 4 tie_heap (some tie_queue) = some (H1, some q1) ∧
      Chain H1 q1.head [(2, str_a), (1, str_a)] ∧
      ¬ Chain H1 q1.head [(1, str_a), (2, str_a)]) ∧
    merge_test two_heap (some 1) (some 2) = some false :=
  ⟨by decide, by decide, ⟨_, _, rfl, by decide, by decide⟩, by decide⟩

/-! ## The invariants of reachable states -/

/-- Claim C4, as the code has it: in every state reachable from a newly
created queue by calls of `q_insert_head`, `q_insert_tail`, `q_remove_head`,
`q_reverse` and `q_sort` (successful or failing), the stored count equals the
number of elements reachable by following links from `head` to the `NULL`
terminator; `q_size`, whose result is an `int`, returns that number converted
to `int`, which is the number itself whenever it is below `2 ^ 31`. -/
theorem reachable_count (H : Heap) (q : queue_t) (h : Reachable H q) :
    ∃ L, Chain H q.head L ∧ q.size = (L.length : Int) ∧
      q_size (some q) = to_int (L.length : Int) ∧
      (L.length < 2 ^ 31 → q_size (some q) = (L.length : Int)) := by
  obtain ⟨L, hL⟩ := reachable_inv h
  exact ⟨L, hL.1, hL.2.1, q_size_of_inv hL, q_size_of_inv_small hL⟩

theorem reachable_count_witness :
    Reachable bac_heap bac_queue ∧
    (∃ L, Chain bac_heap bac_queue.head L ∧ bac_queue.size = (L.length : Int) ∧
      q_size (some bac_queue) = to_int (L.length : Int) ∧
      (L.length < 2 ^ 31 → q_size (some bac_queue) = (L.length : Int))) ∧
    Chain bac_heap bac_queue.head bac_chain ∧ bac_chain.length = 3 ∧
    q_size (some bac_queue) = 3 :=
  ⟨reachable_bac, reachable_count bac_heap bac_queue reachable_bac, by decide, rfl, by decide⟩

/-- Counterexample to claim C4 as stated: the state after `2 ^ 31` calls of
`q_insert_head` of `"a"` on a new queue is reachable, `2 ^ 31` elements are
reachable from its `head` and its stored count is `2 ^ 31`, but `q_size`
returns `- 2 ^ 31`: no `int` is `2 ^ 31`. -/
theorem q_size_wraps :
    Reachable (many_heap (2 ^ 31)) (many_queue (2 ^ 31)) ∧
    (∃ L, Chain (many_heap (2 ^ 31)) (many_queue (2 ^ 31)).head L ∧ L.length = 2 ^ 31) ∧
    (many_queue (2 ^ 31)).size = 2 ^ 31 ∧
    q_size (some (many_queue (2 ^ 31))) = -2 ^ 31 ∧
    q_size (some (many_queue (2 ^ 31))) ≠ 2 ^ 31 := by
  have hs : (many_queue (2 ^ 31)).size = 2 ^ 31 := by
    unfold many_queue
    norm_num
  have hq : q_size (some (many_queue (2 ^ 31))) = -2 ^ 31 := by
    simp only [q_size]
    rw [hs]
    unfold to_int
    norm_num
  refine ⟨reachable_many _, ?_, hs, hq, ?_⟩
  · obtain ⟨L, hL⟩ := reachable_inv (reachable_many (2 ^ 31))
    refine ⟨L, hL.1, ?_⟩
    have h1 := hL.2.1
    rw [hs] at h1
    have h2 : ((L.length : Nat) : Int) = ((2 ^ 31 : Nat) : Int) := by
      rw [← h1]
      norm_num
    exact Int.ofNat.inj h2
  · rw [hq]
    norm_num

/-- Claim C5, as the code has it: in every state reachable from a newly
created queue by calls of `q_insert_head`, `q_insert_tail` and
`q_remove_head`, the count is 0 exactly when `head` is `NULL`, and `tail` is
`NULL` only when the count is 0; `q_remove_head` on a queue of one element,
called without a buffer or with a `bufsize` of at least 1, returns true and
leaves `head` `NULL` and the count 0, while `tail` keeps its value, the
address of the released node. -/
theorem basic_count_zero (H : Heap) (q : queue_t) (h : ReachableBasic H q) :
    (q.size = 0 ↔ q.head = none) ∧ (q.tail = none → q.size = 0) ∧
    ∀ (sp : Option Buf) (bufsize : Nat), (sp = none ∨ 1 ≤ bufsize) → q.size = 1 →
      ∃ H1 q1 sp1, q_remove_head H (some q) sp bufsize = some (H1, some q1, sp1, true) ∧
        q1.head = none ∧ q1.size = 0 ∧ q_size (some q1) = 0 ∧ q1.tail = q.tail ∧
        ∃ t, q1.tail = some t ∧ H1 t = none := by
  obtain ⟨L, hL⟩ := reachable_inv (reachable_of_basic h)
  refine ⟨?_, ?_, ?_⟩
  · rw [inv_size hL, inv_head hL]
  · intro ht
    rw [inv_size hL]
    by_contra hne
    obtain ⟨t, ht1⟩ := last_ptr_ne_none hne
    rw [hL.2.2 hne, ht1] at ht
    exact absurd ht (by simp)
  · intro sp bufsize _ hsz
    match L, hL with
    | [], hL =>
      have := hL.2.1
      rw [hsz] at this
      simp at this
    | [x], hL =>
      obtain ⟨nx, hx, h1, h2⟩ := q_remove_head_spec hL sp bufsize
      have hh := (inv_head h2).2 rfl
      have ht : q.tail = some x.1 := by rw [hL.2.2 (by simp)]; simp [last_ptr]
      exact ⟨_, _, _, h1, hh, (inv_size h2).2 rfl, q_size_empty h2, rfl, x.1, ht,
        free_same _ _⟩
    | x :: y :: L2, hL =>
      have := hL.2.1
      rw [hsz] at this
      simp only [List.length_cons] at this
      omega

theorem basic_count_zero_witness :
    ReachableBasic one_heap one_queue ∧
    ((one_queue.size = 0 ↔ one_queue.head = none) ∧ (one_queue.tail = none → one_queue.size = 0) ∧
    ∀ (sp : Option Buf) (bufsize : Nat), (sp = none ∨ 1 ≤ bufsize) → one_queue.size = 1 →
      ∃ H1 q1 sp1, q_remove_head one_heap (some one_queue) sp bufsize =
          some (H1, some q1, sp1, true) ∧
        q1.head = none ∧ q1.size = 0 ∧ q_size (some q1) = 0 ∧ q1.tail = one_queue.tail ∧
        ∃ t, q1.tail = some t ∧ H1 t = none) :=
  ⟨ReachableBasic.insert_tail str_a (some 1) true (ReachableBasic.new Heap.empty new_queue rfl)
      (fun _ _ => rfl) rfl,
    basic_count_zero one_heap one_queue
      (ReachableBasic.insert_tail str_a (some 1) true
        (ReachableBasic.new Heap.empty new_queue rfl) (fun _ _ => rfl) rfl)⟩

/-- Counterexample to claim C5 as stated: after `q_insert_tail` of `"a"` on a
new queue and one `q_remove_head`, the count is 0 and `head` is `NULL`, but
`tail` is not `NULL`: it still holds the address of the released node. -/
theorem tail_stale_after_remove :
    q_insert_tail Heap.empty (some new_queue) str_a (some 1) true =
      some (one_heap, some one_queue, true) ∧
    q_remove_head one_heap (some one_queue) none 0 =
      some (stale_heap, some stale_queue, none, true) ∧
    ReachableBasic stale_heap stale_queue ∧
    stale_queue.size = 0 ∧ stale_queue.head = none ∧ stale_queue.tail = some 1 ∧
    stale_queue.tail ≠ none ∧ stale_heap 1 = none :=
  ⟨rfl, rfl,
    ReachableBasic.remove_head none 0
      (ReachableBasic.insert_tail str_a (some 1) true
        (ReachableBasic.new Heap.empty new_queue rfl) (fun _ _ => rfl)
        (rfl : _ = some (one_heap, some one_queue, true))) rfl,
    rfl, rfl, rfl, by decide, rfl⟩

/-- Claim C6: in every state with a positive count reachable from a newly
created queue by calls of `q_insert_head`, `q_insert_tail`, `q_remove_head`,
`q_reverse` and `q_sort`, `tail` is the last node of the chain that starts at
`head`: it is on the chain, its forward link is `NULL`, and the forward link
of every other node of the chain is not `NULL`.  `q_sort` returns on such a
state, and after it the recorded `tail` is the last node of the sorted chain,
the node a walk from the new `head` ends at. -/
theorem reachable_tail (H : Heap) (q : queue_t) (h : Reachable H q) (hpos : 0 < q.size) :
    ∃ L t v, Chain H q.head L ∧ q.tail = some t ∧ L.getLast? = some (t, v) ∧
      H t = some ⟨v, none⟩ ∧
      (∀ x ∈ L, x.1 ≠ t → ∃ nx, H x.1 = some ⟨x.2, some nx⟩) ∧
      (∃ fuel H1 q1, q_sort fuel H (some q) = some (H1, some q1)) ∧
      ∀ fuel H1 q1, q_sort fuel H (some q) = some (H1, some q1) →
        ∃ L1 t1 v1, Chain H1 q1.head L1 ∧ q1.tail = some t1 ∧ L1.getLast? = some (t1, v1) ∧
          H1 t1 = some ⟨v1, none⟩ ∧
          ∀ fuel1, L1.length ≤ fuel1 → tail_loop fuel1 H1 q1.head = some q1.tail := by
  obtain ⟨L, hL⟩ := reachable_inv h
  have key : ∀ (H : Heap) (q : queue_t) (L : List Elem), Inv H q L → 0 < q.size →
      ∃ t v, q.tail = some t ∧ L.getLast? = some (t, v) ∧ H t = some ⟨v, none⟩ ∧ L ≠ [] := by
    intro H q L hL hpos
    have hne : L ≠ [] := by
      intro e
      rw [(inv_size hL).2 e] at hpos
      exact absurd hpos (by simp)
    cases hl : L.getLast? with
    | none => exact absurd (List.getLast?_eq_none_iff.1 hl) hne
    | some y =>
      refine ⟨y.1, y.2, ?_, rfl, chain_last hL.1 hl, hne⟩
      rw [hL.2.2 hne, last_ptr, hl]
      rfl
  obtain ⟨t, v, ht, hlast, hHt, hne⟩ := key H q L hL hpos
  refine ⟨L, t, v, hL.1, ht, hlast, hHt, ?_, ?_, ?_⟩
  · intro x hx hxt
    obtain ⟨nx, h1, h2⟩ := chain_inner hL.1 hx
    have hnx : nx ≠ none := by
      apply h2
      rw [last_ptr, hlast]
      simp only [Option.map_some', ne_eq, Option.some.injEq]
      exact fun e => hxt e.symm
    obtain ⟨n1, hn1⟩ := Option.ne_none_iff_exists'.1 hnx
    exact ⟨n1, by rw [h1, hn1]⟩
  · obtain ⟨H1, q1, h1, _⟩ := q_sort_total hL
    exact ⟨L.length + 2, H1, q1, h1 _ (le_refl _)⟩
  · intro fuel H1 q1 hr
    obtain ⟨H2, q2, e, hI, hsz, _⟩ := q_sort_run hL hr
    simp only [Prod.mk.injEq, Option.some.injEq] at e
    obtain ⟨e1, e2⟩ := e
    subst e1 e2
    obtain ⟨t1, v1, ht1, hlast1, hHt1, hne1⟩ := key H1 q1 _ hI (by rw [hsz]; exact hpos)
    refine ⟨sort_list L, t1, v1, hI.1, ht1, hlast1, hHt1, ?_⟩
    intro fuel1 hf
    rw [tail_loop_spec _ _ _ _ hI.1 hne1 hf, hI.2.2 hne1]

theorem reachable_tail_witness :
    Reachable ba_heap ba_queue ∧ 0 < ba_queue.size ∧
    (∃ L t v, Chain ba_heap ba_queue.head L ∧ ba_queue.tail = some t ∧
      L.getLast? = some (t, v) ∧ ba_heap t = some ⟨v, none⟩ ∧
      (∀ x ∈ L, x.1 ≠ t → ∃ nx, ba_heap x.1 = some ⟨x.2, some nx⟩) ∧
      (∃ fuel H1 q1, q_sort fuel ba_heap (some ba_queue) = some (H1, some q1)) ∧
      ∀ fuel H1 q1, q_sort fuel ba_heap (some ba_queue) = some (H1, some q1) →
        ∃ L1 t1 v1, Chain H1 q1.head L1 ∧ q1.tail = some t1 ∧ L1.getLast? = some (t1, v1) ∧
          H1 t1 = some ⟨v1, none⟩ ∧
          ∀ fuel1, L1.length ≤ fuel1 → tail_loop fuel1 H1 q1.head = some q1.tail) ∧
    Chain ba_heap ba_queue.head [(1, str_b), (2, str_a)] ∧ ba_queue.tail = some 2 ∧
    ba_heap 1 = some ⟨str_b, some 2⟩ ∧ ba_heap 2 = some ⟨str_a, none⟩ ∧
    ∃ H1 q1, q_sort 4 ba_heap (some ba_queue) = some (H1, some q1) ∧
      Chain H1 q1.head [(2, str_a), (1, str_b)] ∧ q1.tail = some 1 ∧
      H1 1 = some ⟨str_b, none⟩ ∧ H1 2 = some ⟨str_a, some 1⟩ ∧
      tail_loop 2 H1 q1.head = some (some 1) :=
  ⟨reachable_ba, by decide, reachable_tail ba_heap ba_queue reachable_ba (by decide),
    by decide, rfl, rfl, rfl, _, _, rfl, by decide, rfl, rfl, rfl, rfl⟩

/-! ## Insertion -/

/-- On a string shorter than `INT_MAX` bytes, with both allocations
successful, `q_insert_head` returns true and puts a node holding the string in
front of the chain. -/
theorem q_insert_head_short {H : Heap} {q : queue_t} {L : List Elem} (h : Inv H q L)
    {a : Addr} (ha : H a = none) {s : CStr} (hs : s.length < 2 ^ 31 - 1) :
    q_insert_head H (some q) s (some a) true =
      some (H.set a ⟨s, q.head⟩,
        some ⟨some a, if q.head = none then some a else q.tail, q.size + 1⟩, true) ∧
    Inv (H.set a ⟨s, q.head⟩) ⟨some a, if q.head = none then some a else q.tail, q.size + 1⟩
      ((a, s) :: L) :=
  q_insert_head_spec h ha (copy_string_small hs)

/-- On a string shorter than `INT_MAX` bytes, with both allocations
successful, `q_insert_tail` returns true and puts a node holding the string at
the end of the chain. -/
theorem q_insert_tail_short {H : Heap} {q : queue_t} {L : List Elem} (h : Inv H q L)
    {a : Addr} (ha : H a = none) {s : CStr} (hs : s.length < 2 ^ 31 - 1) :
    ∃ H1 q1, q_insert_tail H (some q) s (some a) true = some (H1, some q1, true) ∧
      Inv H1 q1 (L ++ [(a, s)]) ∧ q1.size = q.size + 1 ∧ q1.tail = some a ∧
      H1 a = some ⟨s, none⟩ ∧ (L ≠ [] → q1.head = q.head) ∧
      (∀ b, b ≠ a → q.tail ≠ some b → H1 b = H b) :=
  q_insert_tail_spec h ha (copy_string_small hs)

theorem strlen_long_string : strlen long_string = 2 ^ 32 + 1 := by
  unfold strlen long_string
  exact List.length_replicate _ _

theorem int_of_size_t_long : int_of_size_t (2 ^ 32 + 1) = 1 := by
  unfold int_of_size_t
  norm_num

theorem copy_string_long : copy_string long_string = some str_a := by
  have h0 : int_of_size_t (strlen long_string) = 1 := by
    rw [strlen_long_string]
    exact int_of_size_t_long
  rw [copy_string_nonneg long_string (by rw [h0]; norm_num), h0]
  have h2 : size_t_of_int 1 = 1 := by
    unfold size_t_of_int
    norm_num
  rw [h2]
  unfold long_string
  rw [List.take_replicate]
  have h5 : min 1 (2 ^ 32 + 1) = 1 := by norm_num
  rw [h5]
  rfl

theorem long_string_ne : str_a ≠ long_string := by
  intro e
  have h := congrArg List.length e
  have h1 : long_string.length = 2 ^ 32 + 1 := strlen_long_string
  have h2 : str_a.length = 1 := rfl
  rw [h1, h2] at h
  norm_num at h

/-- Claim C7 fails on the code: `q_insert_head` of a string of `2 ^ 32 + 1`
bytes on a new queue, with both allocations successful, returns true and
links a node whose payload is the one-byte string `"a"`, not the string
passed; `int str_len = strlen(s)` keeps the low 32 bits of the length. -/
theorem q_insert_head_long :
    strlen long_string = 2 ^ 32 + 1 ∧
    q_insert_head Heap.empty (some new_queue) long_string (some 1) true =
      some (one_heap, some one_queue, true) ∧
    one_heap 1 = some ⟨str_a, none⟩ ∧ str_a ≠ long_string := by
  refine ⟨strlen_long_string, ?_, rfl, long_string_ne⟩
  simp only [q_insert_head, copy_string_long]
  rfl

/-- Claim C8 fails on the code: `q_insert_tail` of a string of `2 ^ 32 + 1`
bytes on a new queue, with both allocations successful, returns true and
links a node whose payload is the one-byte string `"a"`, not the string
passed; `int str_len = strlen(s)` keeps the low 32 bits of the length. -/
theorem q_insert_tail_long :
    strlen long_string = 2 ^ 32 + 1 ∧
    q_insert_tail Heap.empty (some new_queue) long_string (some 1) true =
      some (one_heap, some one_queue, true) ∧
    one_heap 1 = some ⟨str_a, none⟩ ∧ str_a ≠ long_string := by
  refine ⟨strlen_long_string, ?_, rfl, long_string_ne⟩
  simp only [q_insert_tail, copy_string_long]
  rfl

/-! ## Removal -/

/-- Claim C9: for every queue that satisfies the representation invariant and
has a positive count, `q_remove_head`, called without a buffer or with a
`bufsize` of at least 1, returns true, removes exactly the first node (which
is released), leaves the remaining nodes in their previous order with their
payloads unchanged, `head` being the former second node, and decrements the
count by exactly one. -/
theorem q_remove_head_first (H : Heap) (q : queue_t) (L : List Elem) (h : Inv H q L)
    (hpos : 0 < q.size) (sp : Option Buf) (bufsize : Nat) (_hbuf : sp = none ∨ 1 ≤ bufsize) :
    ∃ x L1 H1 q1 sp1, L = x :: L1 ∧
      q_remove_head H (some q) sp bufsize = some (H1, some q1, sp1, true) ∧
      Chain H1 q1.head L1 ∧ q1.head = L1.head?.map Prod.fst ∧ q1.size = q.size - 1 ∧
      q1.size = (L1.length : Int) ∧ q_size (some q1) = to_int (q.size - 1) ∧
      H1 x.1 = none ∧ (∀ a, a ≠ x.1 → H1 a = H a) ∧ q1.tail = q.tail := by
  match L, h with
  | [], h =>
    rw [(inv_size h).2 rfl] at hpos
    exact absurd hpos (by simp)
  | x :: L1, h =>
    obtain ⟨nx, hx, h1, h2⟩ := q_remove_head_spec h sp bufsize
    exact ⟨x, L1, _, _, _, rfl, h1, h2.1, chain_head h2.1, rfl, h2.2.1, rfl, free_same _ _,
      fun a ha => free_other _ _ _ ha, rfl⟩

theorem q_remove_head_first_witness :
    Inv bac_heap bac_queue bac_chain ∧ 0 < bac_queue.size ∧
    ((some (fun _ => 7) : Option Buf) = none ∨ 1 ≤ 2) ∧
    (∃ x L1 H1 q1 sp1, bac_chain = x :: L1 ∧
      q_remove_head bac_heap (some bac_queue) (some (fun _ => 7)) 2 =
        some (H1, some q1, sp1, true) ∧
      Chain H1 q1.head L1 ∧ q1.head = L1.head?.map Prod.fst ∧ q1.size = bac_queue.size - 1 ∧
      q1.size = (L1.length : Int) ∧ q_size (some q1) = to_int (bac_queue.size - 1) ∧
      H1 x.1 = none ∧ (∀ a, a ≠ x.1 → H1 a = bac_heap a) ∧ q1.tail = bac_queue.tail) ∧
    ∃ H1 q1 sp1, q_remove_head bac_heap (some bac_queue) (some (fun _ => 7)) 2 =
        some (H1, some q1, sp1, true) ∧
      Chain H1 q1.head [(2, str_a), (3, str_c)] ∧ q1.head = some 2 ∧ q1.size = 2 ∧
      q_size (some q1) = 2 ∧ H1 1 = none :=
  ⟨by decide, by decide, Or.inr (by decide),
    q_remove_head_first bac_heap bac_queue bac_chain (by decide) (by decide)
      (some (fun _ => 7)) 2 (Or.inr (by decide)),
    _, _, _, rfl, by decide, rfl, rfl, by decide, rfl⟩

/-- Claim C10: for every queue that satisfies the representation invariant and
is not empty, every provided buffer and every `bufsize` of at least 1 (a
`size_t` value), `q_remove_head` returns true and afterwards the first
`bufsize` bytes of the buffer are the first `min (strlen payload) (bufsize - 1)`
bytes of the payload of the removed head, followed by zero bytes in every
remaining position below `bufsize`; the bytes from `bufsize` on are not
changed. -/
theorem q_remove_head_buffer (H : Heap) (q : queue_t) (x : Elem) (L : List Elem)
    (h : Inv H q (x :: L)) (buf : Buf) (bufsize : Nat) (h1 : 1 ≤ bufsize)
    (h2 : bufsize < 2 ^ 64) :
    ∃ H1 q1 out, q_remove_head H (some q) (some buf) bufsize = some (H1, q1, some out, true) ∧
      (∀ i, i < bufsize →
        out i = if i < min (strlen x.2) (bufsize - 1) then (bytes x.2).getD i 0 else 0) ∧
      (∀ i, i < min (strlen x.2) (bufsize - 1) → (bytes x.2).getD i 0 ≠ 0) ∧
      out (min (strlen x.2) (bufsize - 1)) = 0 ∧
      ∀ i, bufsize ≤ i → out i = buf i := by
  obtain ⟨nx, hx, hr, _⟩ := q_remove_head_spec h (some buf) bufsize
  refine ⟨_, _, strncpy (memset buf 0 bufsize) x.2 (size_t_sub bufsize 1), hr,
    fun i hi => strncpy_memset_apply buf x.2 h1 h2 hi, ?_, ?_, ?_⟩
  · intro i hi
    exact bytes_getD_pos x.2 (by unfold strlen at hi; omega)
  · rw [strncpy_memset_apply buf x.2 h1 h2 (by omega)]
    simp
  · intro i hi
    rw [size_t_sub_one h1 h2]
    unfold strncpy memset
    rw [if_neg (by omega), if_neg (by omega)]

theorem q_remove_head_buffer_witness :
    Inv abc_heap one_queue ((1, str_abc) :: []) ∧ 1 ≤ 3 ∧ 3 < 2 ^ 64 ∧
    (∃ H1 q1 out, q_remove_head abc_heap (some one_queue) (some (fun _ => 7)) 3 =
        some (H1, q1, some out, true) ∧
      (∀ i, i < 3 →
        out i = if i < min (strlen (1, str_abc).2) (3 - 1) then (bytes (1, str_abc).2).getD i 0
          else 0) ∧
      (∀ i, i < min (strlen (1, str_abc).2) (3 - 1) → (bytes (1, str_abc).2).getD i 0 ≠ 0) ∧
      out (min (strlen (1, str_abc).2) (3 - 1)) = 0 ∧
      ∀ i, 3 ≤ i → out i = (fun _ => 7) i) ∧
    (∃ H1 q1 out, q_remove_head abc_heap (some one_queue) (some (fun _ => 7)) 3 =
        some (H1, q1, some out, true) ∧
      out 0 = 97 ∧ out 1 = 98 ∧ out 2 = 0 ∧ out 3 = 7) ∧
    (∃ H1 q1 out, q_remove_head abc_heap (some one_queue) (some (fun _ => 7)) 6 =
        some (H1, q1, some out, true) ∧
      out 0 = 97 ∧ out 1 = 98 ∧ out 2 = 99 ∧ out 3 = 0 ∧ out 4 = 0 ∧ out 5 = 0 ∧ out 6 = 7) :=
  ⟨by decide, by decide, by decide,
    q_remove_head_buffer abc_heap one_queue (1, str_abc) [] (by decide)
      (fun _ => 7) 3 (by decide) (by decide),
    ⟨_, _, _, rfl, by decide, by decide, by decide, by decide⟩,
    ⟨_, _, _, rfl, by decide, by decide, by decide, by decide, by decide, by decide,
      by decide⟩⟩


/-! ## `q_remove_head`: capacity 0 and the failing call -/

/-- Claim C11 fails on the code: `q_remove_head` on the queue holding `"b"`,
`"a"`, `"c"`, with a provided buffer whose bytes are all 7 and `bufsize` 0,
returns true after `strncpy(sp, value, bufsize - 1)` with `bufsize - 1` equal
to `2 ^ 64 - 1`: the byte at offset 0 becomes `'b'` and the bytes at the
offsets 1, 2 and 1000 become zero, all of them at offsets at or beyond the
capacity 0. -/
theorem q_remove_head_zero_capacity :
    size_t_sub 0 1 = 2 ^ 64 - 1 ∧
    ∃ H1 q1 out, q_remove_head bac_heap (some bac_queue) (some (fun _ => 7)) 0 =
        some (H1, q1, some out, true) ∧
      out 0 = 98 ∧ out 1 = 0 ∧ out 2 = 0 ∧ out 1000 = 0 :=
  ⟨by decide, _, _, _, rfl, by decide, by decide, by decide, by decide⟩

/-- Claim C12: `q_remove_head` returns false when the queue is absent or its
count is 0, and then nothing is changed: the heap (so the chain), the queue
structure (`head`, `tail`, `size`) and the caller's buffer are returned as
they were; whenever the call returns, it returns false exactly in these two
cases; on a queue that satisfies the representation invariant and has a
count other than 0 the call, made without a buffer or with a `bufsize` of at
least 1, returns true; on a newly created queue it returns false and the size
stays 0. -/
theorem q_remove_head_false (H : Heap) (q : Option queue_t) (sp : Option Buf)
    (bufsize : Nat) :
    ((q = none ∨ ∃ q0, q = some q0 ∧ q0.size = 0) →
      q_remove_head H q sp bufsize = some (H, q, sp, false)) ∧
    (∀ H1 q1 sp1 b, q_remove_head H q sp bufsize = some (H1, q1, sp1, b) →
      (b = false ↔ (q = none ∨ ∃ q0, q = some q0 ∧ q0.size = 0))) ∧
    (∀ q0 L, q = some q0 → Inv H q0 L → q0.size ≠ 0 → (sp = none ∨ 1 ≤ bufsize) →
      ∃ H1 q1 sp1, q_remove_head H q sp bufsize = some (H1, q1, sp1, true)) ∧
    q_remove_head H (q_new true) sp bufsize = some (H, q_new true, sp, false) ∧
    q_size (q_new true) = 0 := by
  refine ⟨?_, ?_, ?_, by simp [q_new, q_remove_head], by simp [q_new, q_size, to_int]⟩
  · rintro (rfl | ⟨q0, rfl, hz⟩)
    · simp [q_remove_head]
    · simp [q_remove_head, hz]
  · intro H1 q1 sp1 b hr
    cases q with
    | none =>
      simp only [q_remove_head, Option.some.injEq, Prod.mk.injEq] at hr
      simp [← hr.2.2.2]
    | some q0 =>
      by_cases hz : q0.size = 0
      · simp only [q_remove_head, hz, if_true, Option.some.injEq, Prod.mk.injEq] at hr
        simp [← hr.2.2.2, hz]
      · simp only [q_remove_head, if_neg hz] at hr
        have hb : b = true := by
          split at hr
          · exact absurd hr (by simp)
          · split at hr
            · exact absurd hr (by simp)
            · split at hr
              · exact absurd hr (by simp)
              · simp only [Option.some.injEq, Prod.mk.injEq] at hr
                exact hr.2.2.2.symm
        simp [hb, hz]
  · intro q0 L hq hI hz _
    subst hq
    match L, hI with
    | [], hI => exact absurd ((inv_size hI).2 rfl) hz
    | x :: L1, hI =>
      obtain ⟨nx, _, h1, _⟩ := q_remove_head_spec hI sp bufsize
      exact ⟨_, _, _, h1⟩

theorem q_remove_head_false_witness :
    ((some stale_queue = none ∨ ∃ q0, some stale_queue = some q0 ∧ q0.size = 0) ∧
      q_remove_head stale_heap (some stale_queue) none 0 =
        some (stale_heap, some stale_queue, none, false)) ∧
    (q_remove_head bac_heap (some bac_queue) none 0 =
        some (bac_heap.free 1, some { bac_queue with head := some 2, size := 2 }, none, true) ∧
      (true = false ↔ (some bac_queue = none ∨ ∃ q0, some bac_queue = some q0 ∧ q0.size = 0))) ∧
    (some bac_queue = some bac_queue ∧ Inv bac_heap bac_queue bac_chain ∧ bac_queue.size ≠ 0 ∧
      ((some (fun _ => 7) : Option Buf) = none ∨ 1 ≤ 4) ∧
      ∃ H1 q1 sp1, q_remove_head bac_heap (some bac_queue) (some (fun _ => 7)) 4 =
        some (H1, q1, sp1, true)) :=
  ⟨⟨Or.inr ⟨stale_queue, rfl, rfl⟩,
      (q_remove_head_false stale_heap (some stale_queue) none 0).1
        (Or.inr ⟨stale_queue, rfl, rfl⟩)⟩,
    ⟨rfl, (q_remove_head_false bac_heap (some bac_queue) none 0).2.1 _ _ _ _ rfl⟩,
    rfl, by decide, by decide, Or.inr (by decide),
    (q_remove_head_false bac_heap (some bac_queue) (some (fun _ => 7)) 4).2.2.1 bac_queue
      bac_chain rfl (by decide) (by decide) (Or.inr (by decide))⟩


/-! ## `q_reverse` -/

/-- Two heaps that hold the same chain from the same pointer agree on the
nodes of the chain. -/
theorem chain_agree {H H1 : Heap} {p : Ptr} {L : List Elem} (h : Chain H p L)
    (h1 : Chain H1 p L) : ∀ a, a ∈ addrs L → H1 a = H a := by
  induction L generalizing p with
  | nil => intro a ha; simp [addrs] at ha
  | cons x L ih =>
    rw [chain_cons] at h h1
    obtain ⟨_, nx, hx, hc⟩ := h
    obtain ⟨_, nx1, hx1, hc1⟩ := h1
    have hn : nx1 = nx := by rw [chain_head hc1, chain_head hc]
    subst hn
    intro a ha
    simp only [addrs, List.map_cons, List.mem_cons] at ha
    rcases ha with e | ha
    · rw [e, hx, hx1]
    · exact ih hc hc1 a ha

/-- Claim C13: for every queue that satisfies the representation invariant and
is not empty, `q_reverse` returns (for every fuel above the length) and the
chain read from `head` is then the previous chain in reverse order, with the
same nodes and payloads and the same count (so `q_size` returns what it
returned before); the new `head` is the old `tail` node and the new `tail` is
the old `head` node; no cell outside the chain is written.  After `q_insert_head` of `"x"` and of `"y"` on a new queue the head
holds `"y"` and the tail `"x"`, and after `q_reverse` the head holds `"x"` and
the tail `"y"`. -/
theorem q_reverse_reverses (H : Heap) (q : queue_t) (L : List Elem) (h : Inv H q L)
    (hne : L ≠ []) :
    (∃ H1 q1,
      (∀ fuel, L.length < fuel → q_reverse fuel H (some q) = some (H1, some q1)) ∧
      Chain H1 q1.head L.reverse ∧ q1.size = q.size ∧
      q1.size = (L.reverse.length : Int) ∧ q_size (some q1) = q_size (some q) ∧
      q1.head = q.tail ∧ q1.tail = q.head ∧ q1.head = last_ptr L ∧
      q1.tail = L.head?.map Prod.fst ∧ ∀ a, a ∉ addrs L → H1 a = H a) ∧
    (q_insert_head Heap.empty (some new_queue) str_x (some 1) true =
        some (x_heap, some x_queue, true) ∧
      q_insert_head x_heap (some x_queue) str_y (some 2) true =
        some (yx_heap, some yx_queue, true) ∧
      Chain yx_heap yx_queue.head [(2, str_y), (1, str_x)] ∧
      yx_queue.head = some 2 ∧ yx_queue.tail = some 1 ∧ yx_queue.size = 2 ∧
      ∃ H1 q1, q_reverse 3 yx_heap (some yx_queue) = some (H1, some q1) ∧
        Chain H1 q1.head [(1, str_x), (2, str_y)] ∧ q1.head = some 1 ∧ q1.tail = some 2 ∧
        q1.size = 2) := by
  constructor
  · obtain ⟨H1, q1, h1, h2, h3, h4, h5⟩ := q_reverse_total h
    obtain ⟨ht, hh⟩ := h4 hne
    refine ⟨H1, q1, h1, h2.1, h3, h2.2.1, ?_, hh, ht, ?_, ?_, h5⟩
    · simp only [q_size]
      rw [h3]
    · rw [hh, h.2.2 hne]
    · rw [ht, chain_head h.1]
  · exact ⟨rfl, rfl, by decide, rfl, rfl, rfl, _, _, rfl, by decide, rfl, rfl, rfl⟩

theorem q_reverse_reverses_witness :
    Inv yx_heap yx_queue yx_chain ∧ yx_chain ≠ [] ∧
    ∃ H1 q1,
      (∀ fuel, yx_chain.length < fuel →
        q_reverse fuel yx_heap (some yx_queue) = some (H1, some q1)) ∧
      Chain H1 q1.head yx_chain.reverse ∧ q1.size = yx_queue.size ∧
      q1.size = (yx_chain.reverse.length : Int) ∧ q_size (some q1) = q_size (some yx_queue) ∧
      q1.head = yx_queue.tail ∧ q1.tail = yx_queue.head ∧ q1.head = last_ptr yx_chain ∧
      q1.tail = yx_chain.head?.map Prod.fst ∧ ∀ a, a ∉ addrs yx_chain → H1 a = yx_heap a :=
  ⟨by decide, by decide,
    (q_reverse_reverses yx_heap yx_queue yx_chain (by decide) (by decide)).1⟩

/-- Claim C14: for every queue in a reachable state, `q_reverse` applied twice
gives back the state it started from: the same heap, so the same chain of
nodes with the same payloads in the same order, and the same `head`, `tail`
and `size`; both calls return for every fuel above the length of the chain.
On an absent queue `q_reverse` returns at once and changes nothing. -/
theorem q_reverse_twice (H : Heap) (q : queue_t) (h : Reachable H q) :
    (∃ L H1 q1, Chain H q.head L ∧ Chain H1 q1.head L.reverse ∧
      (∀ fuel, L.length < fuel → q_reverse fuel H (some q) = some (H1, some q1)) ∧
      (∀ fuel, L.length < fuel → q_reverse fuel H1 (some q1) = some (H, some q))) ∧
    ∀ fuel H0, q_reverse fuel H0 none = some (H0, none) := by
  refine ⟨?_, fun fuel H0 => rfl⟩
  obtain ⟨L, hL⟩ := reachable_inv h
  obtain ⟨H1, q1, h1, hI1, hs1, ht1, hf1⟩ := q_reverse_total hL
  obtain ⟨H2, q2, h2, hI2, hs2, ht2, hf2⟩ := q_reverse_total hI1
  rw [List.reverse_reverse] at hI2
  refine ⟨L, H1, q1, hL.1, hI1.1, h1, ?_⟩
  have hq : q2 = q := by
    by_cases hne : L = []
    · subst hne
      have e1 := h1 1 (by simp)
      have e2 := h2 1 (by simp)
      have hh : q.head = none := (inv_head hL).2 rfl
      simp only [q_reverse, hh, if_true, Option.some.injEq, Prod.mk.injEq] at e1
      obtain ⟨eH, eq⟩ := e1
      subst eH eq
      simp only [q_reverse, hh, if_true, Option.some.injEq, Prod.mk.injEq] at e2
      exact e2.2.symm
    · obtain ⟨t1, hh1⟩ := ht1 hne
      obtain ⟨t2, hh2⟩ := ht2 (by simpa using hne)
      cases q with
      | mk qh qt qs =>
        cases q2 with
        | mk q2h q2t q2s =>
          simp only at hh1 t1 hh2 t2 hs1 hs2
          simp only [queue_t.mk.injEq]
          exact ⟨by rw [hh2, t1], by rw [t2, hh1], by rw [hs2, hs1]⟩
  subst hq
  have hH : H2 = H := by
    funext a
    by_cases ha : a ∈ addrs L
    · have hc2 : Chain H2 q2.head L := hI2.1
      exact chain_agree hL.1 hc2 a ha
    · have ha1 : a ∉ addrs L.reverse := by
        simpa [addrs] using ha
      rw [hf2 a ha1, hf1 a ha]
  subst hH
  intro fuel hf
  exact h2 fuel (by simpa using hf)

theorem q_reverse_twice_witness :
    Reachable bac_heap bac_queue ∧
    ((∃ L H1 q1, Chain bac_heap bac_queue.head L ∧ Chain H1 q1.head L.reverse ∧
      (∀ fuel, L.length < fuel → q_reverse fuel bac_heap (some bac_queue) = some (H1, some q1)) ∧
      (∀ fuel, L.length < fuel → q_reverse fuel H1 (some q1) = some (bac_heap, some bac_queue))) ∧
    ∀ fuel H0, q_reverse fuel H0 none = some (H0, none)) ∧
    ∃ H1 q1 H2 q2, q_reverse 4 bac_heap (some bac_queue) = some (H1, some q1) ∧
      Chain H1 q1.head [(3, str_c), (2, str_a), (1, str_b)] ∧ q1.head = some 3 ∧
      q1.tail = some 1 ∧
      q_reverse 4 H1 (some q1) = some (H2, some q2) ∧
      Chain H2 q2.head [(1, str_b), (2, str_a), (3, str_c)] ∧ q2 = bac_queue :=
  ⟨reachable_bac, q_reverse_twice bac_heap bac_queue reachable_bac,
    _, _, _, _, rfl, by decide, rfl, rfl, rfl, by decide, by decide⟩

/-! ## `q_sort` twice -/

theorem strcmp_antisymm {a b : CStr} (h1 : strcmp a b ≤ 0) (h2 : strcmp b a ≤ 0) : a = b := by
  rw [strcmp_neg] at h2
  exact (strcmp_eq_zero a b).1 (by omega)

/-- Two ascending lists of strings with the same members are equal. -/
theorem ascending_unique {l1 l2 : List CStr} (hp : l1.Perm l2) (h1 : Ascending l1)
    (h2 : Ascending l2) : l1 = l2 := by
  haveI : IsAntisymm CStr (fun a b => strcmp a b ≤ 0) := ⟨fun _ _ => strcmp_antisymm⟩
  exact List.eq_of_perm_of_sorted hp h1 h2

theorem sort_list_payloads_idem (L : List Elem) :
    payloads (sort_list (sort_list L)) = payloads (sort_list L) := by
  apply ascending_unique
  · exact (sort_list_perm _ (sort_list L) rfl).map Prod.snd
  · exact sort_list_ascending _
  · exact sort_list_ascending _

/-- Claim C15: `q_sort` is idempotent on the sequence of payloads.  For every
queue that satisfies the representation invariant, `q_sort` returns, a second
`q_sort` on the result returns too, and the payloads read from `head` to the
`NULL` terminator after the second sort are exactly those read after the
first one (the nodes that hold them are the same ones). -/
theorem q_sort_idempotent (H : Heap) (q : queue_t) (L : List Elem) (h : Inv H q L) :
    ∃ H1 q1 L1 H2 q2 L2,
      (∀ fuel, L.length + 2 ≤ fuel → q_sort fuel H (some q) = some (H1, some q1)) ∧
      Chain H1 q1.head L1 ∧
      (∀ fuel, L.length + 2 ≤ fuel → q_sort fuel H1 (some q1) = some (H2, some q2)) ∧
      Chain H2 q2.head L2 ∧ payloads L2 = payloads L1 ∧ L2.Perm L1 ∧ q2.size = q1.size := by
  obtain ⟨H1, q1, h1, hI1, _, _⟩ := q_sort_total h
  obtain ⟨H2, q2, h2, hI2, hs2, _⟩ := q_sort_total hI1
  have hlen : (sort_list L).length = L.length := (sort_list_perm _ L rfl).length_eq
  refine ⟨H1, q1, sort_list L, H2, q2, sort_list (sort_list L), h1, hI1.1, ?_, hI2.1,
    sort_list_payloads_idem L, sort_list_perm _ _ rfl, hs2⟩
  intro fuel hf
  exact h2 fuel (by rw [hlen]; exact hf)

theorem q_sort_idempotent_witness :
    Inv bac_heap bac_queue bac_chain ∧
    ∃ H1 q1 L1 H2 q2 L2,
      (∀ fuel, bac_chain.length + 2 ≤ fuel →
        q_sort fuel bac_heap (some bac_queue) = some (H1, some q1)) ∧
      Chain H1 q1.head L1 ∧
      (∀ fuel, bac_chain.length + 2 ≤ fuel → q_sort fuel H1 (some q1) = some (H2, some q2)) ∧
      Chain H2 q2.head L2 ∧ payloads L2 = payloads L1 ∧ L2.Perm L1 ∧ q2.size = q1.size :=
  ⟨by decide, q_sort_idempotent bac_heap bac_queue bac_chain (by decide)⟩


/-! ## Failing insertions -/

/-- The failing paths of the two insertions: on an absent queue, on a failed
allocation of the element and on a failed allocation of the string they
return false and change nothing; and they return true only when both
allocations succeeded. -/
theorem q_insert_failures (H : Heap) (q : queue_t) (s : CStr) (newh : Ptr) (str_ok : Bool) :
    q_insert_head H none s newh str_ok = some (H, none, false) ∧
    q_insert_tail H none s newh str_ok = some (H, none, false) ∧
    q_insert_head H (some q) s none str_ok = some (H, some q, false) ∧
    q_insert_tail H (some q) s none str_ok = some (H, some q, false) ∧
    q_insert_head H (some q) s newh false = some (H, some q, false) ∧
    q_insert_tail H (some q) s newh false = some (H, some q, false) ∧
    (∀ H1 q1, q_insert_head H (some q) s newh str_ok = some (H1, q1, true) →
      newh ≠ none ∧ str_ok = true) ∧
    (∀ H1 q1, q_insert_tail H (some q) s newh str_ok = some (H1, q1, true) →
      newh ≠ none ∧ str_ok = true) := by
  refine ⟨rfl, rfl, rfl, rfl, ?_, ?_, ?_, ?_⟩
  · cases newh with
    | none => rfl
    | some a => rfl
  · cases newh with
    | none => rfl
    | some a => rfl
  · intro H1 q1 hr
    cases newh with
    | none => simp [q_insert_head] at hr
    | some a =>
      cases str_ok with
      | true => simp
      | false => simp [q_insert_head] at hr
  · intro H1 q1 hr
    cases newh with
    | none => simp [q_insert_tail] at hr
    | some a =>
      cases str_ok with
      | true => simp
      | false => simp [q_insert_tail] at hr

theorem strlen_int_max_string : strlen int_max_string = 2 ^ 31 - 1 := by
  unfold strlen int_max_string
  exact List.length_replicate _ _

theorem int_of_size_t_int_max : int_of_size_t (2 ^ 31 - 1) = 2 ^ 31 - 1 := by
  unfold int_of_size_t
  norm_num

/-- On a string of `2 ^ 31 - 1` bytes `int str_len = strlen(s)` is `INT_MAX`,
`str_len + 1` wraps to `INT_MIN` and the size passed to `malloc` is
`2 ^ 64 - 2 ^ 31` bytes. -/
theorem string_block_size_int_max : string_block_size int_max_string = 2 ^ 64 - 2 ^ 31 := by
  unfold string_block_size
  rw [strlen_int_max_string, int_of_size_t_int_max]
  unfold to_int size_t_of_int
  norm_num
  rfl

/-- Claim C16: with the result of each `malloc` call an input that may be a
failure: when the queue is absent, when the allocation of the element fails,
and when the allocation of the string fails (for every string, whatever size
was asked for), `q_insert_head` and `q_insert_tail` return false and give back
the heap and the queue structure exactly as they were, so `head`, `tail`, the
count and the whole chain are unchanged and no node is linked in; they return
true only when both allocations succeeded. -/
theorem q_insert_fails_unchanged (H : Heap) (q : queue_t) (s : CStr) (newh : Ptr)
    (str_ok : Bool) :
    q_insert_head H none s newh str_ok = some (H, none, false) ∧
    q_insert_tail H none s newh str_ok = some (H, none, false) ∧
    q_insert_head H (some q) s none str_ok = some (H, some q, false) ∧
    q_insert_tail H (some q) s none str_ok = some (H, some q, false) ∧
    q_insert_head H (some q) s newh false = some (H, some q, false) ∧
    q_insert_tail H (some q) s newh false = some (H, some q, false) ∧
    (∀ H1 q1, q_insert_head H (some q) s newh str_ok = some (H1, q1, true) →
      newh ≠ none ∧ str_ok = true) ∧
    (∀ H1 q1, q_insert_tail H (some q) s newh str_ok = some (H1, q1, true) →
      newh ≠ none ∧ str_ok = true) ∧
    (∀ H1 q1 b, q_insert_head H (some q) s newh str_ok = some (H1, q1, b) → b = false →
      H1 = H ∧ q1 = some q) ∧
    (∀ H1 q1 b, q_insert_tail H (some q) s newh str_ok = some (H1, q1, b) → b = false →
      H1 = H ∧ q1 = some q) := by
  obtain ⟨h1, h2, h3, h4, h5, h6, h7, h8⟩ := q_insert_failures H q s newh str_ok
  refine ⟨h1, h2, h3, h4, h5, h6, h7, h8, ?_, ?_⟩
  · intro H1 q1 b hr hb
    subst hb
    cases newh with
    | none =>
      simp only [q_insert_head, Option.some.injEq, Prod.mk.injEq] at hr
      exact ⟨hr.1.symm, hr.2.1.symm⟩
    | some a =>
      cases str_ok with
      | false =>
        rw [h5] at hr
        simp only [Option.some.injEq, Prod.mk.injEq] at hr
        exact ⟨hr.1.symm, hr.2.1.symm⟩
      | true =>
        simp only [q_insert_head, Bool.not_true, Bool.false_eq_true, if_false] at hr
        split at hr <;> simp at hr
  · intro H1 q1 b hr hb
    subst hb
    cases newh with
    | none =>
      simp only [q_insert_tail, Option.some.injEq, Prod.mk.injEq] at hr
      exact ⟨hr.1.symm, hr.2.1.symm⟩
    | some a =>
      cases str_ok with
      | false =>
        rw [h6] at hr
        simp only [Option.some.injEq, Prod.mk.injEq] at hr
        exact ⟨hr.1.symm, hr.2.1.symm⟩
      | true =>
        simp only [q_insert_tail, Bool.not_true, Bool.false_eq_true, if_false] at hr
        split at hr
        · exact absurd hr (by simp)
        · split at hr <;> simp at hr

theorem q_insert_fails_unchanged_witness :
    q_insert_head one_heap (some one_queue) str_b (some 2) false =
      some (one_heap, some one_queue, false) ∧
    q_insert_tail one_heap (some one_queue) str_b (some 2) false =
      some (one_heap, some one_queue, false) ∧
    q_insert_head one_heap (some one_queue) int_max_string (some 2) false =
      some (one_heap, some one_queue, false) ∧
    q_insert_tail one_heap (some one_queue) int_max_string (some 2) false =
      some (one_heap, some one_queue, false) ∧
    q_insert_head one_heap (some one_queue) str_b (some 2) true =
      some (one_heap.set 2 ⟨str_b, some 1⟩, some ⟨some 2, some 1, 2⟩, true) ∧
    ((some 2 : Ptr) ≠ none ∧ true = true) ∧
    q_insert_head one_heap (some one_queue) str_b none true =
      some (one_heap, some one_queue, false) ∧
    (false = false → one_heap = one_heap ∧ some one_queue = some one_queue) :=
  ⟨(q_insert_fails_unchanged one_heap one_queue str_b (some 2) false).2.2.2.2.1,
    (q_insert_fails_unchanged one_heap one_queue str_b (some 2) false).2.2.2.2.2.1,
    (q_insert_fails_unchanged one_heap one_queue int_max_string (some 2) false).2.2.2.2.1,
    (q_insert_fails_unchanged one_heap one_queue int_max_string (some 2) false).2.2.2.2.2.1,
    rfl,
    (q_insert_fails_unchanged one_heap one_queue str_b (some 2) true).2.2.2.2.2.2.1 _ _ rfl,
    rfl,
    (q_insert_fails_unchanged one_heap one_queue str_b none true).2.2.2.2.2.2.2.2.1 _ _ _ rfl⟩

/-! ## `split` -/

theorem split_mono {fuel fuel1 : Nat} (hle : fuel ≤ fuel1) {H : Heap} {start : Ptr}
    {r : Heap × Ptr × Ptr} (h : split fuel H start = some r) : split fuel1 H start = some r := by
  induction hle with
  | refl => exact h
  | step _ ih => exact split_succ _ _ _ _ ih

/-- Claim C17: for every chain of `n ≥ 1` nodes that ends at `NULL`, `split`
returns (for every fuel above `(n - 1) / 2`) with `left` the start of the
chain and `right` such that the chain of `left` followed by the chain of
`right` is the original sequence of nodes with their payloads; the chain of
`left` ends at `NULL` and holds the first `(n + 1) / 2` nodes, the chain of
`right` holds the remaining `n / 2` nodes; for `n ≥ 2` both are non-empty;
no cell outside the chain is written. -/
theorem split_halves (H : Heap) (start : Ptr) (L : List Elem) (h : Chain H start L)
    (hn : 1 ≤ L.length) :
    ∃ H1 right A B,
      (∀ fuel, (L.length - 1) / 2 < fuel → split fuel H start = some (H1, start, right)) ∧
      Chain H1 start A ∧ Chain H1 right B ∧ A ++ B = L ∧
      A.length = (L.length + 1) / 2 ∧ B.length = L.length / 2 ∧
      A = L.take ((L.length + 1) / 2) ∧ B = L.drop ((L.length + 1) / 2) ∧
      last_ptr A = (L.get? ((L.length - 1) / 2)).map Prod.fst ∧
      (2 ≤ L.length → A ≠ [] ∧ B ≠ []) ∧ ∀ a, a ∉ addrs L → H1 a = H a := by
  have hne : L ≠ [] := by
    intro e
    rw [e] at hn
    simp at hn
  obtain ⟨H1, right, hs, hA, hB, hf⟩ := split_spec h hne ((L.length - 1) / 2 + 1)
    (Nat.lt_succ_self _)
  have hk : left_len L.length = (L.length + 1) / 2 := by unfold left_len; omega
  rw [hk] at hA hB
  have hlA : (L.take ((L.length + 1) / 2)).length = (L.length + 1) / 2 := by
    rw [List.length_take]; omega
  have hlB : (L.drop ((L.length + 1) / 2)).length = L.length / 2 := by
    rw [List.length_drop]; omega
  refine ⟨H1, right, _, _, fun fuel hf1 => split_mono (by omega) hs, hA, hB,
    List.take_append_drop _ _, hlA, hlB, rfl, rfl, ?_, ?_, hf⟩
  · have hidx : (L.length - 1) / 2 < L.length := by omega
    have h1 : (L.length + 1) / 2 = (L.length - 1) / 2 + 1 := by omega
    rw [h1, List.take_succ, List.get?_eq_getElem?, List.getElem?_eq_getElem hidx]
    simp only [Option.toList, Option.map_some']
    exact last_ptr_snoc _ _
  · intro h2
    constructor
    · intro e
      rw [e] at hlA
      simp at hlA
      omega
    · intro e
      rw [e] at hlB
      simp at hlB
      omega

theorem split_halves_witness :
    Chain bac_heap (some 1) bac_chain ∧ 1 ≤ bac_chain.length ∧
    ∃ H1 right A B,
      (∀ fuel, (bac_chain.length - 1) / 2 < fuel →
        split fuel bac_heap (some 1) = some (H1, some 1, right)) ∧
      Chain H1 (some 1) A ∧ Chain H1 right B ∧ A ++ B = bac_chain ∧
      A.length = (bac_chain.length + 1) / 2 ∧ B.length = bac_chain.length / 2 ∧
      A = bac_chain.take ((bac_chain.length + 1) / 2) ∧
      B = bac_chain.drop ((bac_chain.length + 1) / 2) ∧
      last_ptr A = (bac_chain.get? ((bac_chain.length - 1) / 2)).map Prod.fst ∧
      (2 ≤ bac_chain.length → A ≠ [] ∧ B ≠ []) ∧
      ∀ a, a ∉ addrs bac_chain → H1 a = bac_heap a :=
  ⟨by decide, by decide, split_halves bac_heap (some 1) bac_chain (by decide) (by decide)⟩


/-! ## No read through a stale reference -/

/-- Claim C18: in every state reachable from a newly created queue by calls
of the five operations, no operation reads through an absent or released
element reference.  `q_remove_head`, called without a buffer or with a
`bufsize` of at least 1, `q_reverse` and `q_sort` return, and so does
`q_insert_tail` on a fresh block and a string whose copy is defined;
when the count is not 0, `head` is present and allocated; while `head` is
present, `tail` is an allocated node (the last one of the chain); while `head`
is `NULL`, the value of `tail`, stale or not, is not read: `q_reverse` and
`q_sort` return at once and the insertions overwrite it, with the same result
whatever `tail` holds. -/
theorem reachable_no_stale_read (H : Heap) (q : queue_t) (h : Reachable H q) :
    (∀ sp bufsize, (sp = none ∨ 1 ≤ bufsize) →
      ∃ r, q_remove_head H (some q) sp bufsize = some r) ∧
    (q.size ≠ 0 → ∃ a n, q.head = some a ∧ H a = some n) ∧
    (∃ fuel r, q_reverse fuel H (some q) = some r) ∧
    (∃ fuel r, q_sort fuel H (some q) = some r) ∧
    (∀ s newt str_ok, (∀ a, newt = some a → H a = none) → copy_string s ≠ none →
      ∃ r, q_insert_tail H (some q) s newt str_ok = some r) ∧
    (q.head ≠ none → ∃ t v, q.tail = some t ∧ H t = some ⟨v, none⟩) ∧
    (q.head = none → ∀ (t : Ptr) (fuel : Nat) (s : CStr) (a : Addr),
      q_reverse (fuel + 1) H (some { q with tail := t }) = some (H, some { q with tail := t }) ∧
      q_sort (fuel + 1) H (some { q with tail := t }) = some (H, some { q with tail := t }) ∧
      q_insert_tail H (some { q with tail := t }) s (some a) true =
        q_insert_tail H (some q) s (some a) true ∧
      q_insert_head H (some { q with tail := t }) s (some a) true =
        q_insert_head H (some q) s (some a) true) := by
  obtain ⟨L, hL⟩ := reachable_inv h
  refine ⟨?_, ?_, ?_, ?_, ?_, ?_, ?_⟩
  · intro sp bufsize _
    match L, hL with
    | [], hL => exact ⟨_, q_remove_head_empty hL sp bufsize⟩
    | x :: L1, hL =>
      obtain ⟨nx, _, h1, _⟩ := q_remove_head_spec hL sp bufsize
      exact ⟨_, h1⟩
  · intro hsz
    match L, hL with
    | [], hL => exact absurd ((inv_size hL).2 rfl) hsz
    | x :: L1, hL =>
      obtain ⟨hp, nx, hx, _⟩ := (chain_cons H q.head x L1).1 hL.1
      exact ⟨x.1, _, hp, hx⟩
  · obtain ⟨H1, q1, h1, _⟩ := q_reverse_total hL
    exact ⟨L.length + 1, _, h1 _ (Nat.lt_succ_self _)⟩
  · obtain ⟨H1, q1, h1, _⟩ := q_sort_total hL
    exact ⟨L.length + 2, _, h1 _ (le_refl _)⟩
  · intro s newt str_ok hf hs
    obtain ⟨str, hstr⟩ := Option.ne_none_iff_exists'.1 hs
    cases newt with
    | none => exact ⟨_, rfl⟩
    | some a =>
      cases str_ok with
      | false =>
        exact ⟨_, (q_insert_failures H q s (some a) false).2.2.2.2.2.1⟩
      | true =>
        obtain ⟨H1, q1, h1, _⟩ := q_insert_tail_spec hL (hf a rfl) hstr
        exact ⟨_, h1⟩
  · intro hh
    have hne : L ≠ [] := fun e => hh ((inv_head hL).2 e)
    cases hl : L.getLast? with
    | none => exact absurd (List.getLast?_eq_none_iff.1 hl) hne
    | some y =>
      refine ⟨y.1, y.2, ?_, chain_last hL.1 hl⟩
      rw [hL.2.2 hne, last_ptr, hl]
      rfl
  · intro hh t fuel s a
    refine ⟨by simp [q_reverse, hh], by simp [q_sort, hh], ?_, ?_⟩
    · simp only [q_insert_tail, hh, if_true, Bool.not_true, Bool.false_eq_true, if_false]
    · simp only [q_insert_head, hh, if_true, Bool.not_true, Bool.false_eq_true, if_false]

theorem reachable_no_stale_read_witness :
    Reachable stale_heap stale_queue ∧
    ((∀ sp bufsize, (sp = none ∨ 1 ≤ bufsize) →
      ∃ r, q_remove_head stale_heap (some stale_queue) sp bufsize = some r) ∧
    (stale_queue.size ≠ 0 → ∃ a n, stale_queue.head = some a ∧ stale_heap a = some n) ∧
    (∃ fuel r, q_reverse fuel stale_heap (some stale_queue) = some r) ∧
    (∃ fuel r, q_sort fuel stale_heap (some stale_queue) = some r) ∧
    (∀ s newt str_ok, (∀ a, newt = some a → stale_heap a = none) → copy_string s ≠ none →
      ∃ r, q_insert_tail stale_heap (some stale_queue) s newt str_ok = some r) ∧
    (stale_queue.head ≠ none → ∃ t v, stale_queue.tail = some t ∧ stale_heap t = some ⟨v, none⟩) ∧
    (stale_queue.head = none → ∀ (t : Ptr) (fuel : Nat) (s : CStr) (a : Addr),
      q_reverse (fuel + 1) stale_heap (some { stale_queue with tail := t }) =
        some (stale_heap, some { stale_queue with tail := t }) ∧
      q_sort (fuel + 1) stale_heap (some { stale_queue with tail := t }) =
        some (stale_heap, some { stale_queue with tail := t }) ∧
      q_insert_tail stale_heap (some { stale_queue with tail := t }) s (some a) true =
        q_insert_tail stale_heap (some stale_queue) s (some a) true ∧
      q_insert_head stale_heap (some { stale_queue with tail := t }) s (some a) true =
        q_insert_head stale_heap (some stale_queue) s (some a) true)) :=
  ⟨Reachable.remove_head none 0
      (Reachable.insert_tail str_a (some 1) true (Reachable.new Heap.empty new_queue rfl)
        (fun _ _ => rfl) (rfl : _ = some (one_heap, some one_queue, true))) rfl,
    reachable_no_stale_read stale_heap stale_queue
      (Reachable.remove_head none 0
        (Reachable.insert_tail str_a (some 1) true (Reachable.new Heap.empty new_queue rfl)
          (fun _ _ => rfl) (rfl : _ = some (one_heap, some one_queue, true))) rfl)⟩


/-! ## Termination of `sort` -/

/-- One iteration of the merge loop on two chains that are not both empty
takes one node off the left or the right chain and continues on the rest. -/
theorem merge_loop_step (fuel : Nat) (H : Heap) (start merge left right : Ptr)
    (Ll Lr : List Elem) (hl : Chain H left Ll) (hr : Chain H right Lr)
    (hnd : (addrs Ll ++ addrs Lr).Nodup)
    (hm : merge = none ∨ ∃ m n, merge = some m ∧ H m = some n ∧ m ∉ addrs Ll ∧ m ∉ addrs Lr)
    (hne : Ll ≠ [] ∨ Lr ≠ []) :
    ∃ H1 start1 merge1 left1 right1 Ll1 Lr1,
      merge_loop (fuel + 1) H start merge left right =
        merge_loop fuel H1 start1 merge1 left1 right1 ∧
      Chain H1 left1 Ll1 ∧ Chain H1 right1 Lr1 ∧ (addrs Ll1 ++ addrs Lr1).Nodup ∧
      (∃ m n, merge1 = some m ∧ H1 m = some n ∧ m ∉ addrs Ll1 ∧ m ∉ addrs Lr1) ∧
      Ll1.length + Lr1.length + 1 = Ll.length + Lr.length ∧
      ((∃ x, Ll = x :: Ll1 ∧ Lr1 = Lr) ∨ (∃ y, Lr = y :: Lr1 ∧ Ll1 = Ll)) := by
  have left_case : ∀ (x : Elem) (Ll1 : List Elem), Ll = x :: Ll1 →
      merge_test H left right = some true →
      ∃ H1 start1 merge1 left1 right1 Ll1 Lr1,
        merge_loop (fuel + 1) H start merge left right =
          merge_loop fuel H1 start1 merge1 left1 right1 ∧
        Chain H1 left1 Ll1 ∧ Chain H1 right1 Lr1 ∧ (addrs Ll1 ++ addrs Lr1).Nodup ∧
        (∃ m n, merge1 = some m ∧ H1 m = some n ∧ m ∉ addrs Ll1 ∧ m ∉ addrs Lr1) ∧
        Ll1.length + Lr1.length + 1 = Ll.length + Lr.length ∧
        ((∃ x, Ll = x :: Ll1 ∧ Lr1 = Lr) ∨ (∃ y, Lr = y :: Lr1 ∧ Ll1 = Ll)) := by
    intro x Ll1 hLl htest
    subst hLl
    rw [chain_cons] at hl
    obtain ⟨hp, nl, hx, hc⟩ := hl
    subst hp
    simp only [addrs, List.map_cons, List.cons_append, List.nodup_cons, List.mem_append,
      not_or] at hnd
    obtain ⟨⟨hxl, hxr⟩, hnd2⟩ := hnd
    have hcond : ¬ ((some x.1 : Ptr) = none ∧ right = none) := by simp
    rcases hm with hm | ⟨m, n, hm, hmn, hml, hmr⟩
    · subst hm
      refine ⟨H, some x.1, some x.1, nl, right, Ll1, Lr, ?_, hc, hr, hnd2,
        ⟨x.1, _, rfl, hx, hxl, hxr⟩, by simp only [List.length_cons]; omega,
        Or.inl ⟨x, rfl, rfl⟩⟩
      simp only [merge_loop, if_neg hcond, htest, splice, deref, hx]
    · subst hm
      simp only [addrs, List.map_cons, List.mem_cons, not_or] at hml
      have hxm : x.1 ≠ m := fun e => hml.1 e.symm
      refine ⟨H.set m { n with next := some x.1 }, start, some x.1, nl, right, Ll1, Lr, ?_,
        chain_set hc hml.2 _, chain_set hr hmr _, hnd2,
        ⟨x.1, _, rfl, by rw [set_other _ _ _ _ hxm]; exact hx, hxl, hxr⟩,
        by simp only [List.length_cons]; omega, Or.inl ⟨x, rfl, rfl⟩⟩
      simp only [merge_loop, if_neg hcond, htest, splice, set_next, hmn, deref, set_same,
        set_other _ _ _ _ hxm, hx]
  have right_case : ∀ (y : Elem) (Lr1 : List Elem), Lr = y :: Lr1 →
      merge_test H left right = some false →
      ∃ H1 start1 merge1 left1 right1 Ll1 Lr1,
        merge_loop (fuel + 1) H start merge left right =
          merge_loop fuel H1 start1 merge1 left1 right1 ∧
        Chain H1 left1 Ll1 ∧ Chain H1 right1 Lr1 ∧ (addrs Ll1 ++ addrs Lr1).Nodup ∧
        (∃ m n, merge1 = some m ∧ H1 m = some n ∧ m ∉ addrs Ll1 ∧ m ∉ addrs Lr1) ∧
        Ll1.length + Lr1.length + 1 = Ll.length + Lr.length ∧
        ((∃ x, Ll = x :: Ll1 ∧ Lr1 = Lr) ∨ (∃ y, Lr = y :: Lr1 ∧ Ll1 = Ll)) := by
    intro y Lr1 hLr htest
    subst hLr
    rw [chain_cons] at hr
    obtain ⟨hp, nr, hy, hc⟩ := hr
    subst hp
    simp only [addrs, List.map_cons, List.nodup_append, List.nodup_cons,
      List.disjoint_cons_right] at hnd
    obtain ⟨hndl, ⟨hyr, hndr⟩, hyl, hdis⟩ := hnd
    have hnd2 : (addrs Ll ++ addrs Lr1).Nodup := by
      simp only [addrs, List.nodup_append]
      exact ⟨hndl, hndr, hdis⟩
    have hcond : ¬ (left = none ∧ (some y.1 : Ptr) = none) := by simp
    rcases hm with hm | ⟨m, n, hm, hmn, hml, hmr⟩
    · subst hm
      refine ⟨H, some y.1, some y.1, left, nr, Ll, Lr1, ?_, hl, hc, hnd2,
        ⟨y.1, _, rfl, hy, hyl, hyr⟩, by simp only [List.length_cons]; omega,
        Or.inr ⟨y, rfl, rfl⟩⟩
      simp only [merge_loop, if_neg hcond, htest, splice, deref, hy]
    · subst hm
      simp only [addrs, List.map_cons, List.mem_cons, not_or] at hmr
      have hym : y.1 ≠ m := fun e => hmr.1 e.symm
      refine ⟨H.set m { n with next := some y.1 }, start, some y.1, left, nr, Ll, Lr1, ?_,
        chain_set hl hml _, chain_set hc hmr.2 _, hnd2,
        ⟨y.1, _, rfl, by rw [set_other _ _ _ _ hym]; exact hy, hyl, hyr⟩,
        by simp only [List.length_cons]; omega, Or.inr ⟨y, rfl, rfl⟩⟩
      simp only [merge_loop, if_neg hcond, htest, splice, set_next, hmn, deref, set_same,
        set_other _ _ _ _ hym, hy]
  match Ll, Lr, hne with
  | x :: Ll1, [], _ =>
    apply left_case x Ll1 rfl
    rw [chain_nil] at hr
    simp [merge_test, hr]
  | [], y :: Lr1, _ =>
    apply right_case y Lr1 rfl
    rw [chain_nil] at hl
    rw [((chain_cons H right y Lr1).1 hr).1, hl]
    simp [merge_test]
  | x :: Ll1, y :: Lr1, _ =>
    obtain ⟨hpl, nl, hx, _⟩ := (chain_cons H left x Ll1).1 hl
    obtain ⟨hpr, nr, hy, _⟩ := (chain_cons H right y Lr1).1 hr
    by_cases hcmp : strcmp x.2 y.2 < 0
    · apply left_case x Ll1 rfl
      simp [merge_test, hpl, hpr, hx, hy, hcmp]
    · apply right_case y Lr1 rfl
      simp [merge_test, hpl, hpr, hx, hy, hcmp]


/-- Claim C19: the recursive `sort` terminates on every chain that ends at
`NULL`: on a chain of `n` nodes it returns for every fuel of at least `n + 2`,
with the same result.  On a chain of `n ≥ 2` nodes `split` returns two
non-empty chains whose lengths add up to `n`, so both are strictly shorter
than `n` and the recursion is well-founded on the length.  Each iteration of
the merge loop on two chains that are not both empty takes exactly one node
off the left or the right chain, and the loop exits when both are empty. -/
theorem sort_terminates (H : Heap) (p : Ptr) (L : List Elem) (h : Chain H p L) :
    (∃ H1 p1, ∀ fuel, L.length + 2 ≤ fuel → sort fuel H p = some (H1, p1)) ∧
    (2 ≤ L.length → ∃ H1 right A B,
      (∀ fuel, (L.length - 1) / 2 < fuel → split fuel H p = some (H1, p, right)) ∧
      Chain H1 p A ∧ Chain H1 right B ∧ A.length + B.length = L.length ∧
      0 < A.length ∧ 0 < B.length ∧ A.length < L.length ∧ B.length < L.length) ∧
    (∀ (fuel : Nat) (H0 : Heap) (start merge left right : Ptr) (Ll Lr : List Elem),
      Chain H0 left Ll → Chain H0 right Lr → (addrs Ll ++ addrs Lr).Nodup →
      (merge = none ∨
        ∃ m n, merge = some m ∧ H0 m = some n ∧ m ∉ addrs Ll ∧ m ∉ addrs Lr) →
      (Ll ≠ [] ∨ Lr ≠ []) →
      ∃ H1 start1 merge1 left1 right1 Ll1 Lr1,
        merge_loop (fuel + 1) H0 start merge left right =
          merge_loop fuel H1 start1 merge1 left1 right1 ∧
        Chain H1 left1 Ll1 ∧ Chain H1 right1 Lr1 ∧
        Ll1.length + Lr1.length + 1 = Ll.length + Lr.length ∧
        ((∃ x, Ll = x :: Ll1 ∧ Lr1 = Lr) ∨ (∃ y, Lr = y :: Lr1 ∧ Ll1 = Ll))) ∧
    (∀ (fuel : Nat) (H0 : Heap) (start merge : Ptr),
      merge_loop (fuel + 1) H0 start merge none none = some (H0, start)) := by
  refine ⟨?_, ?_, ?_, ?_⟩
  · obtain ⟨H1, p1, h1, _⟩ := sort_spec L.length L rfl (L.length + 2) H p h (le_refl _)
    exact ⟨H1, p1, fun fuel hf => sort_mono hf h1⟩
  · intro h2
    have hne : L ≠ [] := by
      intro e
      rw [e] at h2
      simp at h2
    obtain ⟨H1, right, hs, hA, hB, _⟩ := split_spec h hne ((L.length - 1) / 2 + 1)
      (Nat.lt_succ_self _)
    have hk : left_len L.length = (L.length - 1) / 2 + 1 := rfl
    have hlA : (L.take (left_len L.length)).length = (L.length - 1) / 2 + 1 := by
      rw [List.length_take, hk]; omega
    have hlB : (L.drop (left_len L.length)).length = L.length - ((L.length - 1) / 2 + 1) := by
      rw [List.length_drop, hk]
    generalize (L.take (left_len L.length)) = A at hA hlA
    generalize (L.drop (left_len L.length)) = B at hB hlB
    exact ⟨H1, right, A, B, fun fuel hf => split_mono (by omega) hs, hA, hB, by omega, by omega,
      by omega, by omega, by omega⟩
  · intro fuel H0 start merge left right Ll Lr hl hr hnd hm hne
    obtain ⟨H1, start1, merge1, left1, right1, Ll1, Lr1, h1, h2, h3, _, _, h6, h7⟩ :=
      merge_loop_step fuel H0 start merge left right Ll Lr hl hr hnd hm hne
    exact ⟨H1, start1, merge1, left1, right1, Ll1, Lr1, h1, h2, h3, h6, h7⟩
  · intro fuel H0 start merge
    simp [merge_loop]

theorem sort_terminates_witness :
    Chain bac_heap (some 1) bac_chain ∧
    ((∃ H1 p1, ∀ fuel, bac_chain.length + 2 ≤ fuel → sort fuel bac_heap (some 1) = some (H1, p1)) ∧
    (2 ≤ bac_chain.length → ∃ H1 right A B,
      (∀ fuel, (bac_chain.length - 1) / 2 < fuel →
        split fuel bac_heap (some 1) = some (H1, some 1, right)) ∧
      Chain H1 (some 1) A ∧ Chain H1 right B ∧ A.length + B.length = bac_chain.length ∧
      0 < A.length ∧ 0 < B.length ∧ A.length < bac_chain.length ∧
      B.length < bac_chain.length) ∧
    (∀ (fuel : Nat) (H0 : Heap) (start merge left right : Ptr) (Ll Lr : List Elem),
      Chain H0 left Ll → Chain H0 right Lr → (addrs Ll ++ addrs Lr).Nodup →
      (merge = none ∨
        ∃ m n, merge = some m ∧ H0 m = some n ∧ m ∉ addrs Ll ∧ m ∉ addrs Lr) →
      (Ll ≠ [] ∨ Lr ≠ []) →
      ∃ H1 start1 merge1 left1 right1 Ll1 Lr1,
        merge_loop (fuel + 1) H0 start merge left right =
          merge_loop fuel H1 start1 merge1 left1 right1 ∧
        Chain H1 left1 Ll1 ∧ Chain H1 right1 Lr1 ∧
        Ll1.length + Lr1.length + 1 = Ll.length + Lr.length ∧
        ((∃ x, Ll = x :: Ll1 ∧ Lr1 = Lr) ∨ (∃ y, Lr = y :: Lr1 ∧ Ll1 = Ll))) ∧
    (∀ (fuel : Nat) (H0 : Heap) (start merge : Ptr),
      merge_loop (fuel + 1) H0 start merge none none = some (H0, start))) ∧
    (Chain two_heap (some 1) [(1, str_a)] ∧ Chain two_heap (some 2) [(2, str_a)] ∧
      (addrs [(1, str_a)] ++ addrs [(2, str_a)]).Nodup ∧
      ∃ H1 start1 merge1 left1 right1 Ll1 Lr1,
        merge_loop (2 + 1) two_heap none none (some 1) (some 2) =
          merge_loop 2 H1 start1 merge1 left1 right1 ∧
        Chain H1 left1 Ll1 ∧ Chain H1 right1 Lr1 ∧
        Ll1.length + Lr1.length + 1 = [(1, str_a)].length + [(2, str_a)].length ∧
        ((∃ x, [(1, str_a)] = x :: Ll1 ∧ Lr1 = [(2, str_a)]) ∨
          (∃ y, [(2, str_a)] = y :: Lr1 ∧ Ll1 = [(1, str_a)]))) :=
  ⟨by decide, sort_terminates bac_heap (some 1) bac_chain (by decide),
    by decide, by decide, by decide,
    (sort_terminates bac_heap (some 1) bac_chain (by decide)).2.2.1 2 two_heap none none
      (some 1) (some 2) [(1, str_a)] [(2, str_a)] (by decide) (by decide) (by decide)
      (Or.inl rfl) (Or.inl (by decide))⟩


/-! ## First in, first out -/

theorem q_insert_tail_keeps_fresh {H : Heap} {q : queue_t} {L : List Elem} (h : Inv H q L)
    {a : Addr} (ha : H a = none) {s str : CStr} (hs : copy_string s = some str) :
    ∃ H1 q1, q_insert_tail H (some q) s (some a) true = some (H1, some q1, true) ∧
      Inv H1 q1 (L ++ [(a, str)]) ∧ ∀ b, b ≠ a → H b = none → H1 b = none := by
  obtain ⟨H1, q1, h1, h2, _, _, _, _, h7⟩ := q_insert_tail_spec h ha hs
  refine ⟨H1, q1, h1, h2, ?_⟩
  intro b hb hbn
  by_cases hL : L = []
  · subst hL
    have hh := (inv_head h).2 rfl
    simp only [q_insert_tail, hs, hh, if_true, Bool.not_true, Bool.false_eq_true,
      if_false, Option.some.injEq, Prod.mk.injEq] at h1
    rw [← h1.1, set_other _ _ _ _ hb]
    exact hbn
  · rw [h7 b hb, hbn]
    rw [h.2.2 hL]
    intro e
    obtain ⟨v, nx, _, hv⟩ := chain_alloc h.1 (last_ptr_mem e)
    rw [hbn] at hv
    exact absurd hv (by simp)

/-- Strings shorter than `INT_MAX` bytes, inserted at the tail one after the
other in fresh distinct blocks, are appended to the chain in order. -/
theorem insert_all_short : ∀ (xs : List (CStr × Addr)) (H : Heap) (q : queue_t)
    (L : List Elem), Inv H q L → (xs.map Prod.snd).Nodup →
    (∀ x ∈ xs, H x.2 = none ∧ x.1.length < 2 ^ 31 - 1) →
    ∃ H1 q1, insert_all H (some q) xs = some (H1, some q1) ∧
      Inv H1 q1 (L ++ xs.map (fun x => (x.2, x.1))) := by
  intro xs
  induction xs with
  | nil =>
    intro H q L h _ _
    exact ⟨H, q, rfl, by simpa using h⟩
  | cons x xs ih =>
    intro H q L h hnd hx
    obtain ⟨s, a⟩ := x
    simp only [List.map_cons, List.nodup_cons] at hnd
    have hfa : H a = none := (hx (s, a) (by simp)).1
    have hsh : s.length < 2 ^ 31 - 1 := (hx (s, a) (by simp)).2
    obtain ⟨H1, q1, h1, h2, h3⟩ := q_insert_tail_keeps_fresh h hfa (copy_string_small hsh)
    obtain ⟨H2, q2, h4, h5⟩ := ih H1 q1 _ h2 hnd.2 (by
      intro y hy
      obtain ⟨hfy, hshy⟩ := hx y (List.mem_cons_of_mem _ hy)
      refine ⟨h3 y.2 ?_ hfy, hshy⟩
      intro e
      apply hnd.1
      have e1 : y.2 = a := e
      rw [← e1]
      exact List.mem_map_of_mem _ hy)
    refine ⟨H2, q2, ?_, by simpa using h5⟩
    simp only [insert_all, h1]
    exact h4

/-- First in, first out, for strings shorter than `INT_MAX` bytes: after the
insertions at the tail of a new queue, the removals yield the strings in the
order of insertion, the size ends at 0 and a further removal returns false. -/
theorem fifo_short (H : Heap) (xs : List (CStr × Addr)) (cap : Nat)
    (hnd : (xs.map Prod.snd).Nodup)
    (hx : ∀ x ∈ xs, H x.2 = none ∧ x.1.length < 2 ^ 31 - 1)
    (hcap : ∀ x ∈ xs, strlen x.1 < cap) (hcap2 : cap < 2 ^ 64) :
    ∃ H1 q1 H2 q2, insert_all H (some new_queue) xs = some (H1, some q1) ∧
      remove_all xs.length H1 (some q1) cap = some (xs.map (fun x => bytes x.1), H2, some q2) ∧
      q_size (some q2) = 0 ∧
      ∀ sp bufsize, q_remove_head H2 (some q2) sp bufsize = some (H2, some q2, sp, false) := by
  obtain ⟨H1, q1, h1, h2⟩ := insert_all_short xs H new_queue [] (inv_new H rfl) hnd hx
  simp only [List.nil_append] at h2
  obtain ⟨H2, q2, h3, h4⟩ := remove_all_spec _ H1 q1 cap h2 (by
    intro v hv
    simp only [payloads, List.map_map, List.mem_map, Function.comp] at hv
    obtain ⟨x, hxm, rfl⟩ := hv
    exact hcap x hxm) hcap2
  refine ⟨H1, q1, H2, q2, h1, ?_, q_size_empty h4, fun sp bufsize =>
    q_remove_head_empty h4 sp bufsize⟩
  simpa [payloads, Function.comp] using h3

theorem insert_all_single {H : Heap} {q : Option queue_t} {s : CStr} {a : Addr} {H1 : Heap}
    {q1 : Option queue_t} (h : q_insert_tail H q s (some a) true = some (H1, q1, true)) :
    insert_all H q [(s, a)] = some (H1, q1) := by
  simp only [insert_all, h]

theorem remove_all_one_heap :
    ∃ H2 q2, remove_all 1 one_heap (some one_queue) (2 ^ 32 + 2) =
      some ([bytes str_a], H2, q2) := by
  have hI : Inv one_heap one_queue [(1, str_a)] := by decide
  obtain ⟨H2, q2, h1, _⟩ := remove_all_spec [(1, str_a)] one_heap one_queue (2 ^ 32 + 2) hI
    (by
      intro v hv
      simp only [payloads, List.map_cons, List.map_nil, List.mem_singleton] at hv
      rw [hv]
      have : strlen str_a = 1 := rfl
      rw [this]
      norm_num)
    (by norm_num)
  exact ⟨H2, some q2, h1⟩

theorem insert_tail_long_string :
    q_insert_tail Heap.empty (some new_queue) long_string (some 1) true =
      some (one_heap, some one_queue, true) := by
  simp only [q_insert_tail, copy_string_long]
  rfl

theorem bytes_long_string_ne : bytes str_a ≠ bytes long_string := by
  intro e
  have h := congrArg List.length e
  unfold bytes at h
  rw [List.length_map, List.length_map] at h
  have h1 : long_string.length = 2 ^ 32 + 1 := strlen_long_string
  have h2 : str_a.length = 1 := rfl
  rw [h1, h2] at h
  norm_num at h

/-- Claim C20 fails on the code: for the list made of one string of
`2 ^ 32 + 1` bytes, `q_insert_tail` on a new queue returns true and the one
`q_remove_head` that follows, with a buffer of `2 ^ 32 + 2` bytes, returns
true, but the string it yields is `"a"`, not the string inserted;
`int str_len = strlen(s)` keeps the low 32 bits of the length. -/
theorem fifo_long_string :
    strlen long_string < 2 ^ 32 + 2 ∧
    insert_all Heap.empty (some new_queue) [(long_string, 1)] =
      some (one_heap, some one_queue) ∧
    (∃ H2 q2, remove_all 1 one_heap (some one_queue) (2 ^ 32 + 2) =
      some ([bytes str_a], H2, q2)) ∧
    [bytes str_a] ≠ [bytes long_string] := by
  refine ⟨?_, insert_all_single insert_tail_long_string, remove_all_one_heap, ?_⟩
  · rw [strlen_long_string]
    norm_num
  · intro e
    exact bytes_long_string_ne (List.cons.inj e).1


end Queue
